import Mathlib

/-!
Verification development for the `beeeen` bencode codec.

The Rust sources are shallowly embedded:
  * `src/bereader.rs` (streaming parser over a byte source) as fueled
    state-passing functions over `Bytes = List Nat`;
  * `src/ser.rs` (serde serializer half of the typed adapter);
  * `src/serbe/de.rs` (serde deserializer half of the typed adapter).

Bytes are modelled as natural numbers (the source reads `u8`; every byte the
parser inspects is compared against ASCII constants, and string payload bytes
are copied verbatim, so no wrap-around arithmetic on bytes occurs).
Machine integers appearing in values are modelled as `Nat`/`Int` with the
overflow checks of the source made explicit.  Rust panics (out-of-bounds
indexing into the fixed-size buffers, `todo!()`, arithmetic overflow in debug
builds) are modelled as an explicit `panicked` outcome.
-/

/-- A byte stream: list of byte values. -/
abbrev Bytes := List Nat

/-- ASCII `is_ascii_digit` on a modelled byte. -/
def isDigitByte (b : Nat) : Bool := 48 ≤ b && b ≤ 57

/-- `i64::MAX`: the largest magnitude `str::parse::<i64>` accepts on a
(sign-free) digit string in `read_raw_integer`. -/
def i64Max : Nat := 9223372036854775807

/-- The decoded bencode value tree, from `BEValue` in `src/base/bevalue.rs`.

`BEDict` holds a Rust `HashMap<Vec<u8>, BEValue>`; the hash map is unordered
with unique keys, and the parser only ever builds it with strictly increasing
keys, so it is modelled as the association list in insertion (= strictly
ascending key) order, which is a canonical representative of the map. -/
inductive BEValue where
  | BEInteger (i : Int)
  | BEString (s : Bytes)
  | BEList (l : List BEValue)
  | BEDict (d : List (Bytes × BEValue))

/-- Structural equality test on values (the derived `PartialEq` of the
source; list equality is order-sensitive, and on the association-list
representation of parser-produced dicts, key order is canonical). -/
def BEValue.beq : BEValue → BEValue → Bool
  | .BEInteger a, .BEInteger b => a == b
  | .BEString a, .BEString b => a == b
  | .BEList xs, .BEList ys => beqL xs ys
  | .BEDict xs, .BEDict ys => beqD xs ys
  | _, _ => false
where
  beqL : List BEValue → List BEValue → Bool
    | [], [] => true
    | a :: as, b :: bs => BEValue.beq a b && beqL as bs
    | _, _ => false
  beqD : List (Bytes × BEValue) → List (Bytes × BEValue) → Bool
    | [], [] => true
    | (k, a) :: as, (k', b) :: bs => k == k' && BEValue.beq a b && beqD as bs
    | _, _ => false

theorem BEValue.beq_iff : ∀ a b : BEValue, (BEValue.beq a b = true) ↔ a = b
  | .BEInteger _, .BEInteger _ => by simp [BEValue.beq]
  | .BEList xs, .BEList ys => by
      rw [show BEValue.beq (.BEList xs) (.BEList ys) = BEValue.beq.beqL xs ys from rfl]
      rw [beqL_iff xs ys]; simp
  | .BEDict xs, .BEDict ys => by
      rw [show BEValue.beq (.BEDict xs) (.BEDict ys) = BEValue.beq.beqD xs ys from rfl]
      rw [beqD_iff xs ys]; simp
  | .BEString _, .BEString _ => by simp [BEValue.beq]
  | .BEInteger _, .BEString _ => by simp [BEValue.beq]
  | .BEInteger _, .BEList _ => by simp [BEValue.beq]
  | .BEInteger _, .BEDict _ => by simp [BEValue.beq]
  | .BEString _, .BEInteger _ => by simp [BEValue.beq]
  | .BEString _, .BEList _ => by simp [BEValue.beq]
  | .BEString _, .BEDict _ => by simp [BEValue.beq]
  | .BEList _, .BEInteger _ => by simp [BEValue.beq]
  | .BEList _, .BEString _ => by simp [BEValue.beq]
  | .BEList _, .BEDict _ => by simp [BEValue.beq]
  | .BEDict _, .BEInteger _ => by simp [BEValue.beq]
  | .BEDict _, .BEString _ => by simp [BEValue.beq]
  | .BEDict _, .BEList _ => by simp [BEValue.beq]
where
  beqL_iff : ∀ xs ys, (BEValue.beq.beqL xs ys = true) ↔ xs = ys
    | [], [] => by simp [BEValue.beq.beqL]
    | a :: as, b :: bs => by
        simp [BEValue.beq.beqL, BEValue.beq_iff a b, beqL_iff as bs]
    | [], _ :: _ => by simp [BEValue.beq.beqL]
    | _ :: _, [] => by simp [BEValue.beq.beqL]
  beqD_iff : ∀ xs ys, (BEValue.beq.beqD xs ys = true) ↔ xs = ys
    | [], [] => by simp [BEValue.beq.beqD]
    | (k, a) :: as, (k', b) :: bs => by
        simp [BEValue.beq.beqD, BEValue.beq_iff a b, beqD_iff as bs]
    | [], _ :: _ => by simp [BEValue.beq.beqD]
    | _ :: _, [] => by simp [BEValue.beq.beqD]

instance : DecidableEq BEValue := fun a b => decidable_of_iff _ (BEValue.beq_iff a b)

/-- The streaming-parser error taxonomy, from `BEError` in `src/beerror.rs`.

`IOError` is omitted: the byte source is modelled as a pure in-memory list,
which never produces an I/O failure.  `Utf8Error` is omitted: the only
`from_utf8` call in `bereader.rs` runs on the digit buffer of
`read_raw_integer`, whose bytes are ASCII digits by construction, so that
error is unreachable.  `KeysOutOfOrder` and `MissingValueError` carry the key
bytes (the source converts them to a display `String` with
`from_utf8_lossy`; the bytes determine that string). -/
inductive BEError where
  | EOFError
  | KeyNotString (v : BEValue)
  | KeysOutOfOrder (key : Bytes)
  | LeadZeroError
  | MissingPrefixError (found expected : Nat)
  | MissingSeparatorError (found expected : Nat)
  | MissingSuffixError (found expected : Nat)
  | MissingValueError (key : Bytes)
  | NegativeZeroError
  | NegativeStringLength (n : Int)
  | ParseIntError
  | UnexpectedCharError (c : Nat)
deriving DecidableEq

/-- Outcome of a parser step: success with the unconsumed remainder of the
byte source, a `BEError`, a Rust panic (out-of-bounds write into one of the
fixed-size buffers), or fuel exhaustion of the embedding (never reached from
the top-level entry points, see `nextValueF_fuel_sufficient`). -/
inductive PResult (α : Type) where
  | ok (a : α) (rest : Bytes)
  | err (e : BEError)
  | panicked
  | outOfFuel
deriving DecidableEq

/-- Byte-lexicographic strict order on byte strings: the `Ord` instance of
Rust's `Vec<u8>` used by `key <= last` in `read_dict`. -/
def ltB : Bytes → Bytes → Bool
  | [], [] => false
  | [], _ :: _ => true
  | _ :: _, [] => false
  | a :: as, b :: bs => if a < b then true else if b < a then false else ltB as bs

/-- Byte-lexicographic `≤` on byte strings. -/
def leB (a b : Bytes) : Bool := ltB a b || a == b

/-- Decimal digits (ASCII), most significant first, of a positive number. -/
def digitsAux : Nat → List Nat
  | 0 => []
  | n + 1 => digitsAux ((n + 1) / 10) ++ [48 + (n + 1) % 10]
decreasing_by exact Nat.div_lt_self (Nat.succ_pos n) (by omega)

/-- Decimal ASCII digit string of a natural number, as Rust's `{}` formatting
of an unsigned integer produces it (no leading zeros, `0` for zero). -/
def digitsOf (n : Nat) : List Nat :=
  if n = 0 then [48] else digitsAux n

/-- Numeric value of an ASCII digit string, accumulated left to right. -/
def natOfDigits (ds : Bytes) : Nat := ds.foldl (fun a d => a * 10 + (d - 48)) 0

namespace BEReader

/-- The digit-collecting loop of `read_raw_integer` (`src/bereader.rs`).
State mirrors the Rust locals: `idx` is `index`, `lz` is `lead_zero`, `buf`
is the digit buffer contents written so far (the Rust buffer is a fixed
`[u8; 100]`; writing at `index ≥ 100` is an out-of-bounds panic).  Returns
the collected digits and the unconsumed input; the loop breaks without
consuming on the first non-digit and fails with `EOFError` when the source is
exhausted (`peek_char_no_eof`). -/
def rawIntLoop : Nat → Bool → Bytes → Bytes → PResult Bytes
  | _, _, _, [] => .err .EOFError
  | idx, lz, buf, ch :: s =>
    if isDigitByte ch then
      if idx > 0 && lz then .err .LeadZeroError
      else
        let lz' := if idx = 0 && ch = 48 then true else lz
        if 100 ≤ idx then .panicked
        else rawIntLoop (idx + 1) lz' (buf ++ [ch]) s
    else .ok buf (ch :: s)

/-- `read_raw_integer` (`src/bereader.rs`): optional minus sign, digit loop,
`str::parse::<i64>` (failing on an empty digit string or a magnitude above
`i64::MAX`), and the negative-zero check, in source order. -/
def read_raw_integer (s : Bytes) : PResult Int :=
  let minus : Bool := s.head? = some 45
  let s' := if minus then s.tail else s
  match rawIntLoop 0 false [] s' with
  | .ok buf rest =>
    if buf.length = 0 then .err .ParseIntError
    else
      let n := natOfDigits buf
      if i64Max < n then .err .ParseIntError
      else if n = 0 && minus then .err .NegativeZeroError
      else .ok (if minus then -(n : Int) else (n : Int)) rest
  | .err e => .err e
  | .panicked => .panicked
  | .outOfFuel => .outOfFuel

/-- The byte-copying loop of `read_string`: `togo` counts the remaining
iterations of `for index in 0..len`, `idx` is the current `index`.  Each
iteration first reads a byte (`next_char_no_eof`, `EOFError` at end of
input), then writes it at `buf[index]` where `buf` is a fixed
`[u8; 100000]` — an out-of-bounds panic when `index ≥ 100000`. -/
def strLoop : Nat → Nat → Bytes → Bytes → PResult Bytes
  | 0, _, acc, s => .ok acc s
  | _ + 1, _, _, [] => .err .EOFError
  | togo + 1, idx, acc, ch :: s =>
    if 100000 ≤ idx then .panicked
    else strLoop togo (idx + 1) (acc ++ [ch]) s

/-- `check_next_char` specialised: consume one byte and compare. -/
def checkNextChar (expected : Nat) (mk : Nat → Nat → BEError) (s : Bytes) :
    PResult Unit :=
  match s with
  | [] => .err .EOFError
  | ch :: s' => if expected ≠ ch then .err (mk ch expected) else .ok () s'

/-- `read_string` (`src/bereader.rs`): length via `read_raw_integer`,
negative-length check, colon separator, then exactly `len` bytes verbatim. -/
def read_string (s : Bytes) : PResult BEValue :=
  match read_raw_integer s with
  | .ok len s₁ =>
    if len < 0 then .err (.NegativeStringLength len)
    else
      match checkNextChar 58 .MissingSeparatorError s₁ with
      | .ok _ s₂ =>
        match strLoop len.toNat 0 [] s₂ with
        | .ok buf s₃ => .ok (.BEString buf) s₃
        | .err e => .err e
        | .panicked => .panicked
        | .outOfFuel => .outOfFuel
      | .err e => .err e
      | .panicked => .panicked
      | .outOfFuel => .outOfFuel
  | .err e => .err e
  | .panicked => .panicked
  | .outOfFuel => .outOfFuel

/-- `read_integer` (`src/bereader.rs`): `i` prefix, raw integer, `e` suffix. -/
def read_integer (s : Bytes) : PResult BEValue :=
  match checkNextChar 105 .MissingPrefixError s with
  | .ok _ s₁ =>
    match read_raw_integer s₁ with
    | .ok v s₂ =>
      match checkNextChar 101 .MissingSuffixError s₂ with
      | .ok _ s₃ => .ok (.BEInteger v) s₃
      | .err e => .err e
      | .panicked => .panicked
      | .outOfFuel => .outOfFuel
    | .err e => .err e
    | .panicked => .panicked
    | .outOfFuel => .outOfFuel
  | .err e => .err e
  | .panicked => .panicked
  | .outOfFuel => .outOfFuel

mutual

/-- `next_value` (`src/bereader.rs`) with explicit fuel: end of input at a
clean boundary yields `none`; otherwise dispatch on the peeked first byte
(digit → string, `i` → integer, `l` → list, `d` → dict, anything else →
`UnexpectedCharError`).  Fuel only bounds the recursion depth of the
embedding; `nextValueF_fuel_sufficient` shows the default fuel of
`next_value` is never exhausted. -/
def nextValueF : Nat → Bytes → PResult (Option BEValue)
  | 0, _ => .outOfFuel
  | f + 1, s =>
    match s.head? with
    | none => .ok none s
    | some ch =>
      if isDigitByte ch then
        match read_string s with
        | .ok v rest => .ok (some v) rest
        | .err e => .err e
        | .panicked => .panicked
        | .outOfFuel => .outOfFuel
      else if ch = 105 then
        match read_integer s with
        | .ok v rest => .ok (some v) rest
        | .err e => .err e
        | .panicked => .panicked
        | .outOfFuel => .outOfFuel
      else if ch = 108 then
        match readListF f s with
        | .ok v rest => .ok (some v) rest
        | .err e => .err e
        | .panicked => .panicked
        | .outOfFuel => .outOfFuel
      else if ch = 100 then
        match readDictF f s with
        | .ok v rest => .ok (some v) rest
        | .err e => .err e
        | .panicked => .panicked
        | .outOfFuel => .outOfFuel
      else .err (.UnexpectedCharError ch)

/-- `read_list` (`src/bereader.rs`): `l` prefix then the element loop. -/
def readListF : Nat → Bytes → PResult BEValue
  | 0, _ => .outOfFuel
  | f + 1, s =>
    match checkNextChar 108 .MissingPrefixError s with
    | .ok _ s₁ => readListLoopF f [] s₁
    | .err e => .err e
    | .panicked => .panicked
    | .outOfFuel => .outOfFuel

/-- The element loop of `read_list`: peek (`EOFError` at end of input), stop
on `e`, otherwise read one value via `next_value` (an `ok none` there is
`next_value_no_eof`'s `EOFError`) and push it. -/
def readListLoopF : Nat → List BEValue → Bytes → PResult BEValue
  | 0, _, _ => .outOfFuel
  | f + 1, acc, s =>
    match s.head? with
    | none => .err .EOFError
    | some ch =>
      if ch = 101 then .ok (.BEList acc) s.tail
      else
        match nextValueF f s with
        | .ok (some v) rest => readListLoopF f (acc ++ [v]) rest
        | .ok none _ => .err .EOFError
        | .err e => .err e
        | .panicked => .panicked
        | .outOfFuel => .outOfFuel

/-- `read_dict` (`src/bereader.rs`): `d` prefix then the key/value loop. -/
def readDictF : Nat → Bytes → PResult BEValue
  | 0, _ => .outOfFuel
  | f + 1, s =>
    match checkNextChar 100 .MissingPrefixError s with
    | .ok _ s₁ => readDictLoopF f none [] s₁
    | .err e => .err e
    | .panicked => .panicked
    | .outOfFuel => .outOfFuel

/-- The key/value loop of `read_dict`, mirroring the source order exactly:
peek (stop on `e`), read the key (must be a string value, else
`KeyNotString`), peek again (`e` here is `MissingValueError`), read the
value, and only then compare the key against `last_key`
(`KeysOutOfOrder` when `key <= last`) before inserting. -/
def readDictLoopF : Nat → Option Bytes → List (Bytes × BEValue) → Bytes →
    PResult BEValue
  | 0, _, _, _ => .outOfFuel
  | f + 1, last, acc, s =>
    match s.head? with
    | none => .err .EOFError
    | some ch =>
      if ch = 101 then .ok (.BEDict acc) s.tail
      else
        match nextValueF f s with
        | .ok (some (.BEString key)) s₁ =>
          (match s₁.head? with
           | none => .err .EOFError
           | some ch₂ =>
             if ch₂ = 101 then .err (.MissingValueError key)
             else
               match nextValueF f s₁ with
               | .ok (some value) s₂ =>
                 (match last with
                  | some lk =>
                    if leB key lk then .err (.KeysOutOfOrder key)
                    else readDictLoopF f (some key) (acc ++ [(key, value)]) s₂
                  | none => readDictLoopF f (some key) (acc ++ [(key, value)]) s₂)
               | .ok none _ => .err .EOFError
               | .err e => .err e
               | .panicked => .panicked
               | .outOfFuel => .outOfFuel)
        | .ok (some v) _ => .err (.KeyNotString v)
        | .ok none _ => .err .EOFError
        | .err e => .err e
        | .panicked => .panicked
        | .outOfFuel => .outOfFuel

end

/-- Top-level `BEReader::next_value` on a pure in-memory byte source, with
enough fuel for any input of its length (`nextValueF_fuel_sufficient`). -/
def next_value (s : Bytes) : PResult (Option BEValue) :=
  nextValueF (3 * s.length + 1) s

end BEReader

/-! ### Arithmetic facts about decimal digit strings -/

theorem digitsAux_digits : ∀ n, ∀ b ∈ digitsAux n, isDigitByte b = true := by
  intro n
  induction n using Nat.strong_induction_on with
  | _ n ih =>
    match n with
    | 0 => simp [digitsAux]
    | m + 1 =>
      rw [digitsAux]
      intro b hb
      rcases List.mem_append.1 hb with h | h
      · exact ih _ (Nat.div_lt_self (Nat.succ_pos m) (by omega)) b h
      · simp only [List.mem_singleton] at h
        subst h
        simp [isDigitByte]
        omega

theorem digitsOf_digits : ∀ n, ∀ b ∈ digitsOf n, isDigitByte b = true := by
  intro n b hb
  rw [digitsOf] at hb
  split at hb
  · simp only [List.mem_singleton] at hb; subst hb; decide
  · exact digitsAux_digits n b hb

theorem digitsAux_ne_nil (n : Nat) (h : n ≠ 0) : digitsAux n ≠ [] := by
  match n, h with
  | m + 1, _ => rw [digitsAux]; simp

theorem digitsOf_ne_nil (n : Nat) : digitsOf n ≠ [] := by
  rw [digitsOf]; split
  · simp
  · exact digitsAux_ne_nil n (by assumption)

theorem digitsAux_head_ne_zero :
    ∀ n, n ≠ 0 → ∀ d, (digitsAux n).head? = some d → d ≠ 48 := by
  intro n
  induction n using Nat.strong_induction_on with
  | _ n ih =>
    intro hne d hd
    rcases Nat.exists_eq_succ_of_ne_zero hne with ⟨m, rfl⟩
    rw [digitsAux] at hd
    by_cases hq : (m + 1) / 10 = 0
    · have h10 : m + 1 < 10 := by
        by_contra hge
        have h1 : 1 ≤ (m + 1) / 10 := (Nat.one_le_div_iff (by omega)).2 (by omega)
        omega
      rw [hq] at hd
      simp [digitsAux] at hd
      omega
    · rw [List.head?_append_of_ne_nil _ (digitsAux_ne_nil _ hq)] at hd
      exact ih _ (Nat.div_lt_self (Nat.succ_pos m) (by omega)) hq d hd

theorem digitsOf_head_zero_iff :
    ∀ n d, (digitsOf n).head? = some d → (d = 48 ↔ n = 0) := by
  intro n d hd
  rw [digitsOf] at hd
  split at hd
  · simp at hd; subst hd; simp; assumption
  · constructor
    · intro h48
      exact absurd h48 (digitsAux_head_ne_zero n (by assumption) d hd)
    · intro h; exact absurd h (by assumption)

/-- Accumulating fold underlying `natOfDigits`, with explicit accumulator. -/
theorem foldl_digits_append (a : Nat) (ds : Bytes) (d : Nat) :
    (ds ++ [d]).foldl (fun a d => a * 10 + (d - 48)) a =
      ds.foldl (fun a d => a * 10 + (d - 48)) a * 10 + (d - 48) := by
  rw [List.foldl_append]
  rfl

theorem natOfDigits_digitsAux : ∀ n, natOfDigits (digitsAux n) = n := by
  intro n
  induction n using Nat.strong_induction_on with
  | _ n ih =>
    match n with
    | 0 => simp [digitsAux, natOfDigits]
    | m + 1 =>
      rw [digitsAux, natOfDigits, foldl_digits_append]
      rw [show ((digitsAux ((m + 1) / 10)).foldl (fun a d => a * 10 + (d - 48)) 0) =
            natOfDigits (digitsAux ((m + 1) / 10)) from rfl]
      rw [ih _ (Nat.div_lt_self (Nat.succ_pos m) (by omega))]
      simp
      omega

theorem natOfDigits_digitsOf (n : Nat) : natOfDigits (digitsOf n) = n := by
  rw [digitsOf]; split
  · simp [natOfDigits]; omega
  · exact natOfDigits_digitsAux n

theorem digitsAux_length_le : ∀ k n, n < 10 ^ k → (digitsAux n).length ≤ k := by
  intro k
  induction k with
  | zero => intro n h; interval_cases n; simp [digitsAux]
  | succ k ih =>
    intro n h
    match n with
    | 0 => simp [digitsAux]
    | m + 1 =>
      rw [digitsAux]
      simp only [List.length_append, List.length_singleton]
      have : (m + 1) / 10 < 10 ^ k := by
        rw [Nat.div_lt_iff_lt_mul (by omega)]
        calc m + 1 < 10 ^ (k + 1) := h
        _ = 10 ^ k * 10 := by ring
      have := ih _ this
      omega

theorem digitsOf_length_le (k n : Nat) (hk : 1 ≤ k) (h : n < 10 ^ k) :
    (digitsOf n).length ≤ k := by
  rw [digitsOf]; split
  · simpa using hk
  · exact digitsAux_length_le k n h

/-! ### C3: canonical integer parsing -/

/-- C3: the Streaming Parser enforces canonical integer form: `i032e` and
`i00e` fail with the leading-zero error, `i-0e` fails with the negative-zero
error, and `i0e`, `i-45e`, `i45e` parse to 0, -45, 45. -/
theorem c3_canonical_integer_form :
    BEReader.next_value [105, 48, 51, 50, 101] = .err .LeadZeroError ∧
    BEReader.next_value [105, 48, 48, 101] = .err .LeadZeroError ∧
    BEReader.next_value [105, 45, 48, 101] = .err .NegativeZeroError ∧
    BEReader.next_value [105, 48, 101] = .ok (some (.BEInteger 0)) [] ∧
    BEReader.next_value [105, 45, 52, 53, 101] = .ok (some (.BEInteger (-45))) [] ∧
    BEReader.next_value [105, 52, 53, 101] = .ok (some (.BEInteger 45)) [] := by
  refine ⟨by decide, by decide, by decide, by decide, by decide, by decide⟩

/-! ### C4: strictly increasing dict keys -/

/-- A successful `next_value` never starts at an `e` byte (that byte is not a
digit and not one of the `i`/`l`/`d` dispatch characters). -/
theorem nextValueF_ok_some_head (f : Nat) (s : Bytes) (v : BEValue) (rest : Bytes)
    (h : BEReader.nextValueF f s = .ok (some v) rest) :
    ∃ ch, s.head? = some ch ∧ ch ≠ 101 := by
  match f with
  | 0 => simp [BEReader.nextValueF] at h
  | f + 1 =>
    rw [BEReader.nextValueF] at h
    match hh : s.head? with
    | none => rw [hh] at h; simp at h
    | some ch =>
      rw [hh] at h
      refine ⟨ch, rfl, ?_⟩
      intro he
      subst he
      simp [isDigitByte] at h

/-- C4: in `read_dict`'s loop, once a previous key exists, a following pair
whose key parses as a string not strictly greater than that previous key
(and whose value parses) makes the whole parse fail with `KeysOutOfOrder`
carrying the offending key; in particular `d3:zzz5:words3:aaai7ee` fails
with `KeysOutOfOrder` carrying `aaa`. -/
theorem c4_keys_out_of_order :
    (∀ (f : Nat) (last : Bytes) (acc : List (Bytes × BEValue)) (s : Bytes)
       (k : Bytes) (s₁ : Bytes) (c : Nat) (v : BEValue) (s₂ : Bytes),
       BEReader.nextValueF f s = .ok (some (.BEString k)) s₁ →
       s₁.head? = some c → c ≠ 101 →
       BEReader.nextValueF f s₁ = .ok (some v) s₂ →
       leB k last = true →
       BEReader.readDictLoopF (f + 1) (some last) acc s =
         .err (.KeysOutOfOrder k)) ∧
    BEReader.next_value [100, 51, 58, 122, 122, 122, 53, 58, 119, 111, 114, 100, 115, 51, 58, 97, 97, 97, 105, 55, 101, 101] =
      .err (.KeysOutOfOrder [97, 97, 97]) := by
  constructor
  · intro f last acc s k s₁ c v s₂ hkey hpeek hc hval hle
    obtain ⟨ch, hh, hch⟩ := nextValueF_ok_some_head f s _ _ hkey
    rw [BEReader.readDictLoopF]
    simp only [hh, hkey, hpeek, hval, hle, if_neg hch, if_neg hc, if_true]
  · decide

/-- Witness for the universal part of `c4_keys_out_of_order`: inside a dict
whose previous key is `b`, the pair `1:ai1e` (key `a`, value 1) is rejected
as out of order. -/
theorem c4_keys_out_of_order_witness :
    BEReader.readDictLoopF 7 (some [98]) [] [49, 58, 97, 105, 49, 101, 101] =
      .err (.KeysOutOfOrder [97]) :=
  c4_keys_out_of_order.1 6 [98] [] [49, 58, 97, 105, 49, 101, 101] [97] [105, 49, 101, 101] 105
    (.BEInteger 1) [101] (by decide) (by decide) (by decide) (by decide)
    (by decide)

/-! ### Digit-loop lemmas for `read_raw_integer` and `read_string` -/

theorem rawIntLoop_step_digit (idx : Nat) (buf : Bytes) (d : Nat) (s : Bytes)
    (hd : isDigitByte d = true) (hidx : idx ≠ 0) (hlt : idx < 100) :
    BEReader.rawIntLoop idx false buf (d :: s) =
      BEReader.rawIntLoop (idx + 1) false (buf ++ [d]) s := by
  rw [BEReader.rawIntLoop, if_pos hd]
  have h1 : (decide (idx > 0) && false) = false := by simp
  have h2 : (decide (idx = 0) && decide (d = 48)) = false := by
    have : decide (idx = 0) = false := decide_eq_false hidx
    simp [this]
  simp only [h1, h2, Bool.false_eq_true, if_false]
  rw [if_neg (by omega : ¬ 100 ≤ idx)]

theorem rawIntLoop_first_digit (buf : Bytes) (d : Nat) (s : Bytes)
    (hd : isDigitByte d = true) (hd48 : d ≠ 48) :
    BEReader.rawIntLoop 0 false buf (d :: s) =
      BEReader.rawIntLoop 1 false (buf ++ [d]) s := by
  rw [BEReader.rawIntLoop, if_pos hd]
  have h1 : (decide (0 > 0) && false) = false := by simp
  have h2 : (decide (0 = 0) && decide (d = 48)) = false := by
    have : decide (d = 48) = false := decide_eq_false hd48
    simp [this]
  simp only [h1, h2, Bool.false_eq_true, if_false]
  rw [if_neg (by omega : ¬ 100 ≤ 0)]
  simp [hd48]

theorem rawIntLoop_break (idx : Nat) (lz : Bool) (buf : Bytes) (c : Nat)
    (s : Bytes) (hc : isDigitByte c = false) :
    BEReader.rawIntLoop idx lz buf (c :: s) = .ok buf (c :: s) := by
  rw [BEReader.rawIntLoop]
  simp only [hc, Bool.false_eq_true, if_false]

theorem rawIntLoop_step_panic (idx : Nat) (buf : Bytes) (d : Nat) (s : Bytes)
    (hd : isDigitByte d = true) (hidx : idx ≠ 0) (hge : 100 ≤ idx) :
    BEReader.rawIntLoop idx false buf (d :: s) = .panicked := by
  rw [BEReader.rawIntLoop, if_pos hd]
  have h1 : (decide (idx > 0) && false) = false := by simp
  have h2 : (decide (idx = 0) && decide (d = 48)) = false := by
    have : decide (idx = 0) = false := decide_eq_false hidx
    simp [this]
  simp only [h1, h2, Bool.false_eq_true, if_false]
  rw [if_pos hge]

theorem rawIntLoop_digits_from (ds : Bytes) : ∀ (idx : Nat) (buf : Bytes)
    (c : Nat) (rest : Bytes),
    (∀ d ∈ ds, isDigitByte d = true) → isDigitByte c = false →
    1 ≤ idx → idx + ds.length ≤ 100 →
    BEReader.rawIntLoop idx false buf (ds ++ c :: rest) =
      .ok (buf ++ ds) (c :: rest) := by
  induction ds with
  | nil =>
    intro idx buf c rest _ hc _ _
    rw [List.nil_append, rawIntLoop_break _ _ _ _ _ hc, List.append_nil]
  | cons d ds ih =>
    intro idx buf c rest hds hc hidx hle
    have hlen : idx + ds.length + 1 ≤ 100 := by
      simpa [Nat.add_comm, Nat.add_assoc, Nat.add_left_comm] using hle
    rw [List.cons_append,
      rawIntLoop_step_digit idx buf d _ (hds d (by simp)) (by omega) (by omega),
      ih (idx + 1) (buf ++ [d]) c rest (fun x hx => hds x (by simp [hx])) hc
        (by omega) (by omega)]
    simp

theorem rawIntLoop_digitsOf (n c : Nat) (rest : Bytes)
    (hc : isDigitByte c = false) (hlen : (digitsOf n).length ≤ 100) :
    BEReader.rawIntLoop 0 false [] (digitsOf n ++ c :: rest) =
      .ok (digitsOf n) (c :: rest) := by
  by_cases hn : n = 0
  · subst hn
    rw [show digitsOf 0 = [48] from rfl, List.cons_append, List.nil_append]
    rw [show BEReader.rawIntLoop 0 false [] (48 :: c :: rest) =
        BEReader.rawIntLoop 1 true [48] (c :: rest) from by
      rw [BEReader.rawIntLoop]; rfl]
    rw [rawIntLoop_break _ _ _ _ _ hc]
  · obtain ⟨d₀, ds', hcons⟩ : ∃ d₀ ds', digitsOf n = d₀ :: ds' := by
      match h : digitsOf n with
      | [] => exact absurd h (digitsOf_ne_nil n)
      | d :: ds => exact ⟨d, ds, rfl⟩
    have hd₀ : isDigitByte d₀ = true :=
      digitsOf_digits n d₀ (by rw [hcons]; simp)
    have hd₀48 : d₀ ≠ 48 := by
      intro h48
      exact hn ((digitsOf_head_zero_iff n d₀ (by rw [hcons]; rfl)).1 h48)
    have hlen' : 1 + ds'.length ≤ 100 := by
      rw [hcons] at hlen; simpa [Nat.add_comm] using hlen
    rw [hcons, List.cons_append,
      rawIntLoop_first_digit [] d₀ _ hd₀ hd₀48]
    simp only [List.nil_append]
    rw [rawIntLoop_digits_from ds' 1 [d₀] c rest
        (fun x hx => digitsOf_digits n x (by rw [hcons]; simp [hx])) hc
        (by omega) (by omega)]
    simp

theorem digitsOf_length_le_100 (n : Nat) (hn : n ≤ i64Max) :
    (digitsOf n).length ≤ 100 := by
  have : (digitsOf n).length ≤ 19 :=
    digitsOf_length_le 19 n (by omega) (by unfold i64Max at hn; omega)
  omega

/-- `read_raw_integer` on a canonical (sign-free) digit string followed by a
non-digit returns its value. -/
theorem read_raw_integer_digitsOf (n c : Nat) (rest : Bytes)
    (hc : isDigitByte c = false) (hn : n ≤ i64Max) :
    BEReader.read_raw_integer (digitsOf n ++ c :: rest) =
      .ok (n : Int) (c :: rest) := by
  obtain ⟨d₀, ds', hcons⟩ : ∃ d₀ ds', digitsOf n = d₀ :: ds' := by
    match h : digitsOf n with
    | [] => exact absurd h (digitsOf_ne_nil n)
    | d :: ds => exact ⟨d, ds, rfl⟩
  have hd₀ : isDigitByte d₀ = true := digitsOf_digits n d₀ (by rw [hcons]; simp)
  have hne45 : (digitsOf n ++ c :: rest).head? ≠ some 45 := by
    rw [hcons, List.cons_append, List.head?_cons]
    intro h45
    simp only [Option.some.injEq] at h45
    rw [h45] at hd₀
    simp [isDigitByte] at hd₀
  rw [BEReader.read_raw_integer]
  simp only [decide_eq_false hne45, Bool.false_eq_true, if_false]
  rw [rawIntLoop_digitsOf n c rest hc (digitsOf_length_le_100 n hn)]
  simp only [List.length_eq_zero]
  rw [if_neg (digitsOf_ne_nil n)]
  rw [natOfDigits_digitsOf]
  rw [if_neg (by omega : ¬ i64Max < n)]
  simp

/-- `read_raw_integer` on a minus sign and canonical digits of a nonzero
value returns the negated value. -/
theorem read_raw_integer_neg_digitsOf (n c : Nat) (rest : Bytes)
    (hc : isDigitByte c = false) (hn0 : n ≠ 0) (hn : n ≤ i64Max) :
    BEReader.read_raw_integer (45 :: (digitsOf n ++ c :: rest)) =
      .ok (-(n : Int)) (c :: rest) := by
  have h45 :
      decide ((45 :: (digitsOf n ++ c :: rest)).head? = some 45) = true := by
    simp
  rw [BEReader.read_raw_integer]
  simp only [h45, if_true]
  dsimp only [List.tail_cons]
  rw [rawIntLoop_digitsOf n c rest hc (digitsOf_length_le_100 n hn)]
  simp only [List.length_eq_zero]
  rw [if_neg (digitsOf_ne_nil n)]
  rw [natOfDigits_digitsOf]
  rw [if_neg (by omega : ¬ i64Max < n)]
  simp only [decide_eq_false hn0, Bool.false_and, Bool.false_eq_true, if_false]

theorem strLoop_ok (s : Bytes) : ∀ (idx : Nat) (acc rest : Bytes),
    idx + s.length ≤ 100000 →
    BEReader.strLoop s.length idx acc (s ++ rest) = .ok (acc ++ s) rest := by
  induction s with
  | nil =>
    intro idx acc rest _
    simp [BEReader.strLoop]
  | cons b s ih =>
    intro idx acc rest hle
    have hlen : idx + s.length + 1 ≤ 100000 := by
      simpa [Nat.add_comm, Nat.add_assoc, Nat.add_left_comm] using hle
    rw [List.length_cons, List.cons_append, BEReader.strLoop]
    rw [if_neg (by omega : ¬ 100000 ≤ idx)]
    rw [ih (idx + 1) (acc ++ [b]) rest (by omega)]
    simp

theorem strLoop_panic : ∀ (k togo idx : Nat) (acc s : Bytes),
    100000 - idx = k → idx ≤ 100000 → 100000 < idx + togo → k < s.length →
    BEReader.strLoop togo idx acc s = .panicked := by
  intro k
  induction k with
  | zero =>
    intro togo idx acc s hk hle hlt hs
    obtain ⟨t, rfl⟩ : ∃ t, togo = t + 1 := ⟨togo - 1, by omega⟩
    match s, hs with
    | b :: s', _ =>
      rw [BEReader.strLoop]
      rw [if_pos (by omega : 100000 ≤ idx)]
  | succ k ih =>
    intro togo idx acc s hk hle hlt hs
    obtain ⟨t, rfl⟩ : ∃ t, togo = t + 1 := ⟨togo - 1, by omega⟩
    match s, hs with
    | b :: s', hs =>
      rw [BEReader.strLoop]
      rw [if_neg (by omega : ¬ 100000 ≤ idx)]
      exact ih t (idx + 1) (acc ++ [b]) s' (by omega) (by omega) (by omega)
        (by simp at hs; omega)

theorem rawIntLoop_panic (ds : Bytes) : ∀ (idx : Nat) (buf rest : Bytes),
    (∀ d ∈ ds, isDigitByte d = true) → 1 ≤ idx → idx ≤ 100 →
    100 < idx + ds.length →
    BEReader.rawIntLoop idx false buf (ds ++ rest) = .panicked := by
  induction ds with
  | nil =>
    intro idx buf rest _ _ hle hlt
    simp at hlt
    omega
  | cons d ds ih =>
    intro idx buf rest hds hidx hle hlt
    have hlen : 100 < idx + ds.length + 1 := by
      simpa [Nat.add_comm, Nat.add_assoc, Nat.add_left_comm] using hlt
    by_cases hi : 100 ≤ idx
    · rw [List.cons_append,
        rawIntLoop_step_panic idx buf d _ (hds d (by simp)) (by omega) hi]
    · rw [List.cons_append,
        rawIntLoop_step_digit idx buf d _ (hds d (by simp)) (by omega)
          (by omega)]
      exact ih (idx + 1) (buf ++ [d]) rest (fun x hx => hds x (by simp [hx]))
        (by omega) (by omega) (by omega)

/-! ### C9: the parser's fixed-size buffers are not total -/

/-- C9 counterexample: an integer literal with more than 100 digit characters
need not panic — when it starts with `0`, the leading-zero check fires at the
second digit, long before the 100-byte digit buffer overflows, so the claim
as stated (any >100-digit integer literal panics) is false. -/
theorem c9_counterexample :
    BEReader.next_value (105 :: (List.replicate 101 48 ++ [101])) =
      .err .LeadZeroError ∧
    100 < (List.replicate 101 48 : Bytes).length := by
  exact ⟨by decide, by decide⟩

/-- C9 amended: (a) an input declaring a string length above 100000 whose
length literal still parses as an `i64`, followed by the colon and at least
100001 source bytes, drives `read_string` to write past its 100000-byte
buffer: a panic, not a taxonomy error; (b) an integer literal of more than
100 digit characters panics in `read_raw_integer`'s 100-byte digit buffer
provided its first digit is not `0` (a leading zero fails with
`LeadZeroError` first, and a length literal above `i64::MAX` fails with the
numeric-parse error instead — the two restrictions forced by
`c9_counterexample` and the `str::parse::<i64>` overflow path). -/
theorem c9_amended_buffer_panics :
    (∀ (L : Nat) (content : Bytes), 100000 < L → L ≤ i64Max →
       100001 ≤ content.length →
       BEReader.next_value (digitsOf L ++ 58 :: content) = .panicked) ∧
    (∀ (ds rest : Bytes) (d₀ : Nat), ds.head? = some d₀ → d₀ ≠ 48 →
       (∀ d ∈ ds, isDigitByte d = true) → 100 < ds.length →
       BEReader.next_value (105 :: (ds ++ rest)) = .panicked) := by
  constructor
  · intro L content hL hLmax hclen
    obtain ⟨d₀, ds', hcons⟩ : ∃ d₀ ds', digitsOf L = d₀ :: ds' := by
      match h : digitsOf L with
      | [] => exact absurd h (digitsOf_ne_nil L)
      | d :: ds => exact ⟨d, ds, rfl⟩
    have hd₀ : isDigitByte d₀ = true :=
      digitsOf_digits L d₀ (by rw [hcons]; simp)
    have hhead : (digitsOf L ++ 58 :: content).head? = some d₀ := by
      rw [hcons]; rfl
    rw [BEReader.next_value, BEReader.nextValueF]
    simp only [hhead]
    rw [if_pos hd₀]
    rw [BEReader.read_string,
      read_raw_integer_digitsOf L 58 content (by decide) hLmax]
    dsimp only
    rw [if_neg (by omega : ¬ (L : Int) < 0)]
    rw [show BEReader.checkNextChar 58 .MissingSeparatorError (58 :: content) =
        .ok () content from by rw [BEReader.checkNextChar]; simp]
    dsimp only
    rw [show ((L : Int)).toNat = L from by omega]
    rw [strLoop_panic 100000 L 0 [] content (by omega) (by omega) (by omega)
      (by omega)]
  · intro ds rest d₀ hhead hd₀48 hds hlen
    obtain ⟨ds', rfl⟩ : ∃ ds', ds = d₀ :: ds' := by
      match ds, hhead with
      | d :: ds', h => exact ⟨ds', by simp at h; rw [h]⟩
    have hd₀ : isDigitByte d₀ = true := hds d₀ (by simp)
    rw [BEReader.next_value, BEReader.nextValueF]
    simp only [List.head?_cons]
    rw [if_neg (by decide : ¬ isDigitByte 105 = true), if_pos trivial]
    rw [BEReader.read_integer]
    rw [show BEReader.checkNextChar 105 .MissingPrefixError
        (105 :: ((d₀ :: ds') ++ rest)) = .ok () ((d₀ :: ds') ++ rest) from by
      rw [BEReader.checkNextChar]; simp]
    dsimp only
    have hne45 : ((d₀ :: ds') ++ rest).head? ≠ some 45 := by
      rw [List.cons_append, List.head?_cons]
      intro h45
      simp only [Option.some.injEq] at h45
      rw [h45] at hd₀
      simp [isDigitByte] at hd₀
    rw [BEReader.read_raw_integer]
    simp only [decide_eq_false hne45, Bool.false_eq_true, if_false]
    rw [List.cons_append, rawIntLoop_first_digit [] d₀ _ hd₀ hd₀48]
    simp only [List.nil_append]
    rw [rawIntLoop_panic ds' 1 [d₀] rest (fun x hx => hds x (by simp [hx]))
      (by omega) (by omega) (by simp at hlen; omega)]

/-- Witness for `c9_amended_buffer_panics`: declared length 100001 with
100001 content bytes panics. -/
theorem c9_amended_buffer_panics_witness :
    BEReader.next_value (digitsOf 100001 ++ 58 :: List.replicate 100001 97) =
      .panicked :=
  c9_amended_buffer_panics.1 100001 (List.replicate 100001 97) (by omega)
    (by unfold i64Max; omega) (by simp only [List.length_replicate, le_refl])

/-! ### The typed adapter's decode half: `src/serbe/de.rs` -/

/-- The typed-adapter error taxonomy, from `SerbeError` in `src/serbe/mod.rs`.
`Message` is serde's `custom` error (adapter-level type mismatches such as an
out-of-range integer); `Utf8Error`'s wrapped cause is dropped. -/
inductive SerbeError where
  | Message (msg : String)
  | Eof
  | ExpectedList
  | ExpectedListEnd
  | ExpectedNumEnd
  | ExpectedMap
  | ExpectedMapEnd
  | MissingColon (found : Nat)
  | TrailingInput
  | UnrecognizedPrefixByte (b : Nat)
  | UnexpectedPrefixByte (found expected : Nat)
  | UnexpectedSigned
  | Utf8Error
deriving DecidableEq

/-- Outcome of a deserializer step: success with the remaining input slice, a
`SerbeError`, a Rust panic (slice out of range, `todo!()`, or debug-build
arithmetic overflow), or fuel exhaustion of the embedding (only the derived
struct-visitor loop needs fuel). -/
inductive DResult (α : Type) where
  | ok (a : α) (rest : Bytes)
  | err (e : SerbeError)
  | panicked
  | outOfFuel
deriving DecidableEq

/-- Final outcome of a top-level `from_bytes` call. -/
inductive DFinal (α : Type) where
  | ok (a : α)
  | err (e : SerbeError)
  | panicked
  | outOfFuel
deriving DecidableEq

/-- Rust's `str::from_utf8` validity test (UTF-8 well-formedness), used by
`parse_str`. -/
def validUtf8 : Bytes → Bool
  | [] => true
  | b :: rest =>
    if b < 128 then validUtf8 rest
    else if 194 ≤ b && b ≤ 223 then
      match rest with
      | c1 :: r => (128 ≤ c1 && c1 ≤ 191) && validUtf8 r
      | [] => false
    else if b = 224 then
      match rest with
      | c1 :: c2 :: r =>
        (160 ≤ c1 && c1 ≤ 191) && (128 ≤ c2 && c2 ≤ 191) && validUtf8 r
      | _ => false
    else if (225 ≤ b && b ≤ 236) || (238 ≤ b && b ≤ 239) then
      match rest with
      | c1 :: c2 :: r =>
        (128 ≤ c1 && c1 ≤ 191) && (128 ≤ c2 && c2 ≤ 191) && validUtf8 r
      | _ => false
    else if b = 237 then
      match rest with
      | c1 :: c2 :: r =>
        (128 ≤ c1 && c1 ≤ 159) && (128 ≤ c2 && c2 ≤ 191) && validUtf8 r
      | _ => false
    else if b = 240 then
      match rest with
      | c1 :: c2 :: c3 :: r =>
        (144 ≤ c1 && c1 ≤ 191) && (128 ≤ c2 && c2 ≤ 191) &&
          (128 ≤ c3 && c3 ≤ 191) && validUtf8 r
      | _ => false
    else if 241 ≤ b && b ≤ 243 then
      match rest with
      | c1 :: c2 :: c3 :: r =>
        (128 ≤ c1 && c1 ≤ 191) && (128 ≤ c2 && c2 ≤ 191) &&
          (128 ≤ c3 && c3 ≤ 191) && validUtf8 r
      | _ => false
    else if b = 244 then
      match rest with
      | c1 :: c2 :: c3 :: r =>
        (128 ≤ c1 && c1 ≤ 143) && (128 ≤ c2 && c2 ≤ 191) &&
          (128 ≤ c3 && c3 ≤ 191) && validUtf8 r
      | _ => false
    else false

namespace Serbe

/-- `u64` modulus: debug-build overflow of the `val * 10 + digit`
accumulation in `parse_raw_integer` is modelled as a panic. -/
def u64Size : Nat := 18446744073709551616

/-- `i64` sign bound used by `parse_signed`'s `uval as i64` cast. -/
def i64Half : Nat := 9223372036854775808

/-- The digit loop of `parse_raw_integer` (`src/serbe/de.rs`): peek
(`Error::Eof` at end of input — note this loop, unlike the streaming
parser's, propagates `Eof` from `peek_byte()?`), stop at the first
non-digit without consuming it, accumulate `val * 10 + (b - b'0')` as `u64`
(overflow panics in a debug build). -/
def parseRawIntLoop : Nat → Bytes → DResult Nat
  | _, [] => .err .Eof
  | val, b :: s =>
    if isDigitByte b then
      if u64Size ≤ val * 10 + (b - 48) then .panicked
      else parseRawIntLoop (val * 10 + (b - 48)) s
    else .ok val (b :: s)

/-- `parse_unsigned` (`src/serbe/de.rs`): reject a leading `-` (note: this
peeks the *first* byte, before the `i` prefix, so it can only fire when the
input starts with `-` itself), require the `i` prefix, read the raw integer,
require the `e` suffix. -/
def parse_unsigned (s : Bytes) : DResult Nat :=
  match s.head? with
  | none => .err .Eof
  | some b0 =>
    if b0 = 45 then .err .UnexpectedSigned
    else if b0 ≠ 105 then .err (.UnexpectedPrefixByte b0 105)
    else
      match parseRawIntLoop 0 s.tail with
      | .ok val rest =>
        (match rest with
         | [] => .err .Eof
         | e :: rest' =>
           if e ≠ 101 then .err .ExpectedNumEnd else .ok val rest')
      | .err err => .err err
      | .panicked => .panicked
      | .outOfFuel => .outOfFuel

/-- `parse_signed` (`src/serbe/de.rs`): `i` prefix, optional minus sign,
raw integer, `e` suffix; the result is `multiplier * uval as i64`, where the
`as` cast wraps `uval` into the signed range and the multiplication panics
(debug build) exactly when `uval = 2^63` with a minus sign. -/
def parse_signed (s : Bytes) : DResult Int :=
  match s with
  | [] => .err .Eof
  | b :: s₁ =>
    if b ≠ 105 then .err (.UnexpectedPrefixByte b 105)
    else
      match s₁.head? with
      | none => .err .Eof
      | some sign =>
        let mult : Int := if sign = 45 then -1 else 1
        let s₂ := if sign = 45 then s₁.tail else s₁
        match parseRawIntLoop 0 s₂ with
        | .ok uval rest =>
          (match rest with
           | [] => .err .Eof
           | e :: rest' =>
             if e ≠ 101 then .err .ExpectedNumEnd
             else
               let sv : Int :=
                 if uval < i64Half then (uval : Int) else (uval : Int) - u64Size
               if mult * sv < -(i64Half : Int) ∨ (i64Half : Int) ≤ mult * sv then
                 .panicked
               else .ok (mult * sv) rest')
        | .err err => .err err
        | .panicked => .panicked
        | .outOfFuel => .outOfFuel

/-- `parse_bytes` (`src/serbe/de.rs`): raw length, colon, then the slice
`&self.bytes[..length]` — which panics when `length` exceeds the remaining
input instead of reporting `Eof`. -/
def parse_bytes (s : Bytes) : DResult Bytes :=
  match parseRawIntLoop 0 s with
  | .ok len rest =>
    (match rest with
     | [] => .err .Eof
     | colon :: rest' =>
       if colon ≠ 58 then .err (.MissingColon colon)
       else if rest'.length < len then .panicked
       else .ok (rest'.take len) (rest'.drop len))
  | .err e => .err e
  | .panicked => .panicked
  | .outOfFuel => .outOfFuel

/-- `parse_str`: `parse_bytes` plus UTF-8 validation (the decoded string is
kept as its byte sequence). -/
def parse_str (s : Bytes) : DResult Bytes :=
  match parse_bytes s with
  | .ok bs rest => if validUtf8 bs then .ok bs rest else .err .Utf8Error
  | .err e => .err e
  | .panicked => .panicked
  | .outOfFuel => .outOfFuel

/-- What `deserialize_any` (`src/serbe/de.rs`) feeds the visitor for an
integer input: `visit_u64` after `parse_unsigned`, or `visit_i64` after
`parse_signed`. -/
inductive AnyNum where
  | viaU64 (n : Nat)
  | viaI64 (v : Int)
deriving DecidableEq

/-- `deserialize_any` (`src/serbe/de.rs`) on the numeric cases: after peeking
an `i`, it reads `self.bytes[1]` *unconditionally* — an out-of-bounds panic
when only one byte remains — and dispatches on whether that byte is `-`.
Any other lead byte is `UnrecognizedPrefix`. -/
def deserialize_any_num (s : Bytes) : DResult AnyNum :=
  match s.head? with
  | none => .err .Eof
  | some b =>
    if b = 105 then
      match s.tail.head? with
      | none => .panicked
      | some b1 =>
        if b1 = 45 then
          match parse_signed s with
          | .ok v rest => .ok (.viaI64 v) rest
          | .err e => .err e
          | .panicked => .panicked
          | .outOfFuel => .outOfFuel
        else
          match parse_unsigned s with
          | .ok n rest => .ok (.viaU64 n) rest
          | .err e => .err e
          | .panicked => .panicked
          | .outOfFuel => .outOfFuel
    else .err (.UnrecognizedPrefixByte b)

/-- `deserialize_bool` (`src/serbe/de.rs`):
`visitor.visit_bool(self.parse_unsigned()? != 0)`. -/
def deserialize_bool (s : Bytes) : DResult Bool :=
  match parse_unsigned s with
  | .ok val rest => .ok (val != 0) rest
  | .err e => .err e
  | .panicked => .panicked
  | .outOfFuel => .outOfFuel

/-- serde's `invalid_value` message produced by the `u64` visitor's
`visit_i64` on a negative value (`Error::custom`, i.e. the `Message`
variant). -/
def u64InvalidValueMsg (v : Int) : String :=
  "invalid value: integer " ++ toString v ++ ", expected u64"

/-- Decoding a `u64` target: `forward_to_deserialize_any`, with serde's
derived `u64` visitor accepting `visit_u64` outright and `visit_i64` only
for nonnegative values (negative values become the adapter-level custom
`Message` error, not `UnexpectedSigned`). -/
def deserialize_u64 (s : Bytes) : DResult Nat :=
  match deserialize_any_num s with
  | .ok (.viaU64 n) rest => .ok n rest
  | .ok (.viaI64 v) rest =>
    if 0 ≤ v then .ok v.toNat rest else .err (.Message (u64InvalidValueMsg v))
  | .err e => .err e
  | .panicked => .panicked
  | .outOfFuel => .outOfFuel

/-- `from_bytes` (`src/serbe/de.rs`): run the target's deserialize, then
require the input to be fully consumed (`TrailingInput` otherwise). -/
def finish {α : Type} (r : DResult α) : DFinal α :=
  match r with
  | .ok v rest => if rest.isEmpty then .ok v else .err .TrailingInput
  | .err e => .err e
  | .panicked => .panicked
  | .outOfFuel => .outOfFuel

def fromBytesBool (s : Bytes) : DFinal Bool := finish (deserialize_bool s)

def fromBytesU64 (s : Bytes) : DFinal Nat := finish (deserialize_u64 s)

def fromBytesStr (s : Bytes) : DFinal Bytes := finish (parse_str s)

end Serbe

/-! ### Typed struct decode with optional fields (`test_structs_with_option`'s
`TestWithOption`): serde's derived visitor, over this deserializer -/

/-- The target record of the repository's own `test_structs_with_option`
test: `struct TestWithOption { i: Option<u8>, s: Option<&str> }`. -/
structure TWOpt where
  i : Option Nat
  s : Option Bytes
deriving DecidableEq

namespace Serbe

/-- `Deserializer::deserialize_option` (`src/serbe/de.rs`) is `todo!()`:
calling it — which `Option::<T>::deserialize` does whenever an optional
field's key is present — panics. -/
def deserialize_option (α : Type) (_s : Bytes) : DResult (Option α) := .panicked

/-- `deserialize_ignored_any` forwards to `deserialize_any` (used by the
derived visitor to skip an unknown key's value). -/
def deserialize_ignored_any (s : Bytes) : DResult Unit :=
  match deserialize_any_num s with
  | .ok _ rest => .ok () rest
  | .err e => .err e
  | .panicked => .panicked
  | .outOfFuel => .outOfFuel

/-- serde's derived `visit_map` loop for `TestWithOption`: keys are decoded
with `deserialize_identifier` (= `deserialize_str`), a present `i`/`s` field
decodes its value as `Option<_>` (hence through `deserialize_option`),
unknown keys are skipped with `deserialize_ignored_any`, and on the closing
`e` (the `MapAccess` peek) missing optional fields default to `None`. -/
def twOptMapLoop : Nat → Option (Option Nat) → Option (Option Bytes) → Bytes →
    DResult TWOpt
  | 0, _, _, _ => .outOfFuel
  | f + 1, vi, vs, s =>
    match s.head? with
    | none => .err .Eof
    | some ch =>
      if ch = 101 then .ok ⟨vi.getD none, vs.getD none⟩ s
      else
        match parse_str s with
        | .ok key s₁ =>
          if key = [105] then
            match deserialize_option Nat s₁ with
            | .ok v s₂ => twOptMapLoop f (some v) vs s₂
            | .err e => .err e
            | .panicked => .panicked
            | .outOfFuel => .outOfFuel
          else if key = [115] then
            match deserialize_option Bytes s₁ with
            | .ok v s₂ => twOptMapLoop f vi (some v) s₂
            | .err e => .err e
            | .panicked => .panicked
            | .outOfFuel => .outOfFuel
          else
            match deserialize_ignored_any s₁ with
            | .ok _ s₂ => twOptMapLoop f vi vs s₂
            | .err e => .err e
            | .panicked => .panicked
            | .outOfFuel => .outOfFuel
        | .err e => .err e
        | .panicked => .panicked
        | .outOfFuel => .outOfFuel

/-- `deserialize_struct` = `deserialize_map` (`src/serbe/de.rs`): `d` prefix,
the derived visitor loop, then the closing `e`. -/
def deserializeTWOpt (s : Bytes) : DResult TWOpt :=
  match s with
  | [] => .err .Eof
  | b :: s₁ =>
    if b ≠ 100 then .err .ExpectedMap
    else
      match twOptMapLoop (s₁.length + 1) none none s₁ with
      | .ok v s₂ =>
        (match s₂ with
         | [] => .err .Eof
         | e :: s₃ => if e ≠ 101 then .err .ExpectedMapEnd else .ok v s₃)
      | .err e => .err e
      | .panicked => .panicked
      | .outOfFuel => .outOfFuel

def fromBytesTWOpt (s : Bytes) : DFinal TWOpt := finish (deserializeTWOpt s)

end Serbe

/-! ### Success lemmas for the serbe digit loop -/

/-- The `val * 10 + digit` accumulation over a digit string. -/
def valAcc (v₀ : Nat) (ds : Bytes) : Nat :=
  ds.foldl (fun a d => a * 10 + (d - 48)) v₀

theorem valAcc_le (ds : Bytes) : ∀ v₀ : Nat, v₀ ≤ valAcc v₀ ds := by
  induction ds with
  | nil => intro v₀; simp [valAcc]
  | cons d ds ih =>
    intro v₀
    calc v₀ ≤ v₀ * 10 + (d - 48) := by omega
    _ ≤ valAcc (v₀ * 10 + (d - 48)) ds := ih _
    _ = valAcc v₀ (d :: ds) := rfl

theorem parseRawIntLoop_digits (ds : Bytes) : ∀ (v₀ c : Nat) (rest : Bytes),
    (∀ d ∈ ds, isDigitByte d = true) → isDigitByte c = false →
    valAcc v₀ ds < Serbe.u64Size →
    Serbe.parseRawIntLoop v₀ (ds ++ c :: rest) =
      .ok (valAcc v₀ ds) (c :: rest) := by
  induction ds with
  | nil =>
    intro v₀ c rest _ hc _
    rw [List.nil_append, Serbe.parseRawIntLoop]
    simp only [hc, Bool.false_eq_true, if_false]
    rfl
  | cons d ds ih =>
    intro v₀ c rest hds hc hlt
    have hstep : valAcc v₀ (d :: ds) = valAcc (v₀ * 10 + (d - 48)) ds := rfl
    rw [List.cons_append, Serbe.parseRawIntLoop, if_pos (hds d (by simp))]
    rw [if_neg (by
      have := valAcc_le ds (v₀ * 10 + (d - 48))
      rw [hstep] at hlt
      omega)]
    rw [ih _ c rest (fun x hx => hds x (by simp [hx])) hc (by rw [← hstep]; exact hlt)]
    rw [hstep]

theorem natOfDigits_eq_valAcc (ds : Bytes) : natOfDigits ds = valAcc 0 ds := rfl

theorem parseRawIntLoop_digitsOf (n c : Nat) (rest : Bytes)
    (hc : isDigitByte c = false) (hn : n < Serbe.u64Size) :
    Serbe.parseRawIntLoop 0 (digitsOf n ++ c :: rest) = .ok n (c :: rest) := by
  have h := parseRawIntLoop_digits (digitsOf n) 0 c rest
    (digitsOf_digits n) hc
    (by rw [← natOfDigits_eq_valAcc, natOfDigits_digitsOf]; exact hn)
  rw [← natOfDigits_eq_valAcc, natOfDigits_digitsOf] at h
  exact h

/-! ### C2: typed round-trip (code bug: `todo!()` breaks optional fields) -/

/-- C2 (code bug): the typed adapter cannot round-trip records with present
optional fields.  `deserialize_option` is `todo!()`, so decoding
`d1:ii8ee` into `TestWithOption` — which the repository's own
`test_structs_with_option` asserts yields `i = Some(8)` — panics instead
(and on the encode side `serialize_some` is `todo!()` as well).  The
all-absent case `de` does work, as the first assertion of that test
expects. -/
theorem c2_option_decode_panics :
    Serbe.fromBytesTWOpt [100, 49, 58, 105, 105, 56, 101, 101] = .panicked ∧
    Serbe.fromBytesTWOpt [100, 101] = .ok ⟨none, none⟩ := by
  exact ⟨by decide, by decide⟩

/-! ### C6: boolean decode -/

/-- C6 counterexample: the claim says decoding a bool from `i-1e` succeeds
with `true` (nonzero), but `deserialize_bool` goes through `parse_unsigned`,
whose digit loop stops at the `-` with value 0 and whose suffix check then
fails: the result is the `ExpectedNumEnd` error, not `Ok(true)`. -/
theorem c6_counterexample :
    Serbe.fromBytesBool [105, 45, 49, 101] = .err .ExpectedNumEnd ∧
    (DFinal.err .ExpectedNumEnd : DFinal Bool) ≠ .ok true := by
  exact ⟨by decide, by decide⟩

/-- C6 amended: a bool decodes from any *nonnegative* encoded integer
`i<n>e` (with `n` within `u64`, past which the accumulation overflows):
false exactly for zero; every *negative* encoded integer instead fails with
`ExpectedNumEnd`. -/
theorem c6_amended_bool_decode :
    (∀ n : Nat, n < Serbe.u64Size →
       Serbe.fromBytesBool (105 :: (digitsOf n ++ [101])) = .ok (n != 0)) ∧
    (∀ rest : Bytes,
       Serbe.fromBytesBool (105 :: 45 :: rest) = .err .ExpectedNumEnd) := by
  constructor
  · intro n hn
    rw [Serbe.fromBytesBool, Serbe.deserialize_bool, Serbe.parse_unsigned]
    simp only [List.head?_cons, List.tail_cons]
    rw [if_neg (by decide : ¬ (105 : Nat) = 45), if_neg (by simp)]
    rw [show digitsOf n ++ [101] = digitsOf n ++ 101 :: [] from rfl]
    rw [parseRawIntLoop_digitsOf n 101 [] (by decide) hn]
    rfl
  · intro rest
    rfl

/-- Witness for `c6_amended_bool_decode`: `i7e` decodes to `true`. -/
theorem c6_amended_bool_decode_witness :
    Serbe.fromBytesBool (105 :: (digitsOf 7 ++ [101])) = .ok (7 != 0) :=
  c6_amended_bool_decode.1 7 (by decide)

/-! ### C7: negative integers into unsigned targets -/

/-- C7 counterexample: decoding `u64` from `i-7e` does fail, but with
serde's `invalid value` *custom message* error (`Message`), not with
`UnexpectedSignForUnsignedTarget`: `deserialize_any` sees the `-` at index 1
and routes through `parse_signed`/`visit_i64`, and `parse_unsigned`'s
`UnexpectedSigned` check (which peeks the first byte, always `i` here) never
fires. -/
theorem c7_counterexample :
    Serbe.fromBytesU64 [105, 45, 55, 101] =
      .err (.Message (Serbe.u64InvalidValueMsg (-7))) ∧
    SerbeError.Message (Serbe.u64InvalidValueMsg (-7)) ≠ .UnexpectedSigned := by
  exact ⟨by decide, by decide⟩

/-- C7 amended: decoding an unsigned target (`u64`) from any negative
encoded integer `i-<m>e` (0 < m, within the `i64` cast range) fails with the
adapter-level custom `Message` error produced by the visitor's range check —
not with `UnexpectedSignForUnsignedTarget`. -/
theorem c7_amended_unsigned_from_negative (m : Nat) (h0 : 0 < m)
    (hm : m < Serbe.i64Half) :
    Serbe.fromBytesU64 (105 :: 45 :: (digitsOf m ++ [101])) =
      .err (.Message (Serbe.u64InvalidValueMsg (-(m : Int)))) := by
  have hsigned : Serbe.parse_signed (105 :: 45 :: (digitsOf m ++ [101])) =
      .ok (-(m : Int)) [] := by
    rw [Serbe.parse_signed]
    rw [if_neg (by decide : ¬ (105 : Nat) ≠ 105)]
    simp only [List.head?_cons, List.tail_cons]
    rw [if_pos trivial, if_pos trivial]
    rw [show digitsOf m ++ [101] = digitsOf m ++ 101 :: [] from rfl]
    rw [parseRawIntLoop_digitsOf m 101 [] (by decide)
      (by unfold Serbe.i64Half at hm; unfold Serbe.u64Size; omega)]
    dsimp only
    rw [if_neg (by decide : ¬ (101 : Nat) ≠ 101)]
    have hsv : (if m < Serbe.i64Half then ((m : Nat) : Int)
        else ((m : Nat) : Int) - (Serbe.u64Size : Nat)) = ((m : Nat) : Int) :=
      if_pos hm
    rw [hsv]
    rw [if_neg (by
      unfold Serbe.i64Half at hm
      simp only [Serbe.i64Half]
      push_neg
      omega)]
    norm_num
  rw [Serbe.fromBytesU64, Serbe.deserialize_u64, Serbe.deserialize_any_num]
  simp only [List.head?_cons, List.tail_cons]
  rw [if_pos trivial, if_pos trivial, hsigned]
  dsimp only
  rw [if_neg (by omega : ¬ (0 : Int) ≤ -(m : Int))]
  rfl

/-- Witness for `c7_amended_unsigned_from_negative` at `m = 7`. -/
theorem c7_amended_unsigned_from_negative_witness :
    Serbe.fromBytesU64 (105 :: 45 :: (digitsOf 7 ++ [101])) =
      .err (.Message (Serbe.u64InvalidValueMsg (-(7 : Int)))) :=
  c7_amended_unsigned_from_negative 7 (by decide) (by decide)

/-! ### C10: the typed adapter's decode panics on truncated input -/

/-- C10: (a) when a string's declared length exceeds the remaining input,
`parse_bytes` hits the out-of-range slice and panics instead of returning
`Eof`; (b) `deserialize_any` reads `bytes[1]` unconditionally after peeking
an `i`, so the one-byte input `i` panics; concretely `5:abc` and `i`
both panic at the decode level. -/
theorem c10_truncated_decode_panics :
    (∀ (L : Nat) (content : Bytes), content.length < L → L < Serbe.u64Size →
       Serbe.parse_bytes (digitsOf L ++ 58 :: content) = .panicked) ∧
    Serbe.fromBytesStr [53, 58, 97, 98, 99] = .panicked ∧
    Serbe.fromBytesU64 [105] = .panicked := by
  refine ⟨?_, by decide, by decide⟩
  intro L content hshort hL
  rw [Serbe.parse_bytes, parseRawIntLoop_digitsOf L 58 content (by decide) hL]
  dsimp only
  rw [if_neg (by decide : ¬ (58 : Nat) ≠ 58)]
  rw [if_pos hshort]

/-- Witness for `c10_truncated_decode_panics`: declared length 5 with only
3 content bytes panics in `parse_bytes`. -/
theorem c10_truncated_decode_panics_witness :
    Serbe.parse_bytes (digitsOf 5 ++ 58 :: [97, 98, 99]) = .panicked :=
  c10_truncated_decode_panics.1 5 [97, 98, 99] (by decide) (by decide)

/-! ### The byte-lexicographic order is a linear order -/

theorem ltB_irrefl : ∀ a : Bytes, ltB a a = false := by
  intro a
  induction a with
  | nil => rfl
  | cons x xs ih => rw [ltB]; simp [ih]

theorem ltB_conn : ∀ a b : Bytes, ltB a b = false → ltB b a = false → a = b := by
  intro a
  induction a with
  | nil =>
    intro b h1 _
    match b with
    | [] => rfl
    | y :: ys => rw [ltB] at h1; exact absurd h1 (by simp)
  | cons x xs ih =>
    intro b h1 h2
    match b with
    | [] => rw [ltB] at h2; exact absurd h2 (by simp)
    | y :: ys =>
      rw [ltB] at h1 h2
      by_cases hxy : x < y
      · rw [if_pos hxy] at h1; exact absurd h1 (by simp)
      · by_cases hyx : y < x
        · rw [if_pos hyx] at h2; exact absurd h2 (by simp)
        · have hxy' : x = y := by omega
          subst hxy'
          rw [if_neg hxy, if_neg hyx] at h1
          rw [if_neg hxy, if_neg hyx] at h2
          rw [ih ys h1 h2]

theorem ltB_trans : ∀ a b c : Bytes,
    ltB a b = true → ltB b c = true → ltB a c = true := by
  intro a
  induction a with
  | nil =>
    intro b c hab hbc
    match b with
    | [] => rw [ltB] at hab; exact absurd hab (by simp)
    | y :: ys =>
      match c with
      | [] => rw [ltB] at hbc; exact absurd hbc (by simp)
      | z :: zs => rw [ltB]
  | cons x xs ih =>
    intro b c hab hbc
    match b with
    | [] => rw [ltB] at hab; exact absurd hab (by simp)
    | y :: ys =>
      match c with
      | [] => rw [ltB] at hbc; exact absurd hbc (by simp)
      | z :: zs =>
        rw [ltB] at hab hbc ⊢
        by_cases hxy : x < y
        · by_cases hyz : y < z
          · rw [if_pos (by omega : x < z)]
          · by_cases hzy : z < y
            · rw [if_neg hyz, if_pos hzy] at hbc; exact absurd hbc (by simp)
            · have : y = z := by omega
              subst this
              rw [if_pos hxy]
        · by_cases hyx : y < x
          · rw [if_pos hyx] at hab
            rw [if_neg hxy] at hab
            exact absurd hab (by simp)
          · have hxy' : x = y := by omega
            subst hxy'
            rw [if_neg (by omega : ¬ x < x), if_neg (by omega : ¬ x < x)] at hab
            by_cases hyz : x < z
            · rw [if_pos hyz]
            · by_cases hzy : z < x
              · rw [if_pos hzy] at hbc
                rw [if_neg hyz] at hbc
                exact absurd hbc (by simp)
              · have : x = z := by omega
                subst this
                rw [if_neg (by omega : ¬ x < x), if_neg (by omega : ¬ x < x)]
                  at hbc ⊢
                exact ih ys zs hab hbc

theorem ltB_asymm (a b : Bytes) (h1 : ltB a b = true) : ltB b a = false := by
  by_contra hc
  have h2 : ltB b a = true := by
    match h : ltB b a with
    | true => rfl
    | false => exact absurd h hc
  have := ltB_trans a b a h1 h2
  rw [ltB_irrefl] at this
  exact absurd this (by simp)

/-- The byte-lexicographic order as a relation (Rust's `Ord` on `Vec<u8>` /
`str`, used by `sort()` in the struct serializer). -/
def keyLe (a b : Bytes) : Prop := leB a b = true

instance : DecidableRel keyLe := fun a b =>
  inferInstanceAs (Decidable (leB a b = true))

theorem keyLe_refl (a : Bytes) : keyLe a a := by
  unfold keyLe leB
  simp

instance : IsTotal Bytes keyLe where
  total a b := by
    unfold keyLe leB
    by_cases hab : ltB a b = true
    · left; simp [hab]
    · by_cases hba : ltB b a = true
      · right; simp [hba]
      · left
        have : a = b := ltB_conn a b (by simpa using hab) (by simpa using hba)
        subst this
        simp

instance : IsTrans Bytes keyLe where
  trans a b c hab hbc := by
    unfold keyLe leB at hab hbc ⊢
    simp only [Bool.or_eq_true, beq_iff_eq] at hab hbc ⊢
    rcases hab with hab | hab
    · rcases hbc with hbc | hbc
      · exact Or.inl (ltB_trans a b c hab hbc)
      · subst hbc; exact Or.inl hab
    · subst hab; exact hbc

instance : IsAntisymm Bytes keyLe where
  antisymm a b hab hba := by
    unfold keyLe leB at hab hba
    simp only [Bool.or_eq_true, beq_iff_eq] at hab hba
    rcases hab with hab | hab
    · rcases hba with hba | hba
      · have := ltB_asymm a b hab
        rw [this] at hba
        exact absurd hba (by simp)
      · exact hba.symm
    · exact hab

/-! ### The typed adapter's encode half: `src/ser.rs` -/

namespace Ser

/-- The digit-pushing loop of `write_raw_int` (`src/ser.rs`): least
significant digit first.  The first argument is structural fuel (`n` itself
is always enough, see `lsdDigits`). -/
def lsdDigitsF : Nat → Nat → List Nat
  | _, 0 => []
  | 0, _ + 1 => []
  | f + 1, n + 1 => (48 + (n + 1) % 10) :: lsdDigitsF f ((n + 1) / 10)

def lsdDigits (n : Nat) : List Nat := lsdDigitsF n n

/-- `write_raw_int` (`src/ser.rs`): `0` is special-cased; otherwise digits
are pushed least-significant first and the slice is reversed. -/
def write_raw_int (n : Nat) : Bytes :=
  if n = 0 then [48] else (lsdDigits n).reverse

theorem lsdDigitsF_reverse : ∀ f n, n ≤ f → (lsdDigitsF f n).reverse = digitsAux n := by
  intro f
  induction f with
  | zero =>
    intro n hn
    match n, hn with
    | 0, _ => simp [lsdDigitsF, digitsAux]
  | succ f ih =>
    intro n hn
    match n with
    | 0 => simp [lsdDigitsF, digitsAux]
    | m + 1 =>
      rw [lsdDigitsF, digitsAux, List.reverse_cons,
        ih _ (by
          have := Nat.div_lt_self (Nat.succ_pos m) (by omega : (1 : Nat) < 10)
          omega)]

theorem lsdDigits_reverse : ∀ n, (lsdDigits n).reverse = digitsAux n := by
  intro n
  exact lsdDigitsF_reverse n n (le_refl n)

/-- The serializer's digit emission agrees with canonical decimal digits. -/
theorem write_raw_int_eq_digitsOf (n : Nat) : write_raw_int n = digitsOf n := by
  rw [write_raw_int, digitsOf]
  split
  · rfl
  · exact lsdDigits_reverse n

/-- `serialize_u64` (`src/ser.rs`): `i`, digits, `e`. -/
def serialize_u64 (n : Nat) : Bytes := 105 :: (write_raw_int n ++ [101])

/-- `serialize_i64` (`src/ser.rs`): `i`, minus sign when negative, digits of
the absolute value, `e`.  (In a debug build `v.abs()` panics at `i64::MIN`;
no caller in this development reaches that value.) -/
def serialize_i64 (v : Int) : Bytes :=
  105 :: ((if v < 0 then [45] else []) ++ write_raw_int v.natAbs ++ [101])

/-- `serialize_str` (`src/ser.rs`): decimal length, colon, the bytes. -/
def serialize_str (s : Bytes) : Bytes := write_raw_int s.length ++ 58 :: s

/-- `HashMap::insert` on the association-list model of
`SerializeStruct::fields`: replace an existing binding, else add one. -/
def hmInsert : List (Bytes × Bytes) → Bytes → Bytes → List (Bytes × Bytes)
  | [], k, v => [(k, v)]
  | (k', v') :: m, k, v =>
    if k' = k then (k, v) :: m else (k', v') :: hmInsert m k v

/-- `fields.get(key).unwrap()` on the association-list model (the serializer
only queries keys obtained from `fields.keys()`). -/
def hmGet : List (Bytes × Bytes) → Bytes → Bytes
  | [], _ => []
  | (k', v') :: m, k => if k' = k then v' else hmGet m k

/-- `SerializeStruct::end` (`src/ser.rs`): write `d`, sort the buffered
field names (byte-lexicographically — `Vec::sort` on `&str`), then for each
key in order write the key as a bencode string followed by the buffered
value bytes, skipping fields whose buffer is empty (omitted `None`
options); close with `e`.  `sort` is modelled by insertion sort, which
agrees with any correct sort on these (distinct) keys. -/
def serializeStructEnd (m : List (Bytes × Bytes)) : Bytes :=
  let keys := List.insertionSort keyLe (m.map Prod.fst)
  100 :: ((keys.map (fun k =>
    let buf := hmGet m k
    if buf.isEmpty then [] else serialize_str k ++ buf)).flatten ++ [101])

/-- A whole `serialize_struct` run: each `serialize_field` call buffers the
pre-serialized value bytes under the field name (`fields.insert`), then
`end` emits the dict.  `fields` is given in declaration/call order. -/
def structToBytes (fields : List (Bytes × Bytes)) : Bytes :=
  serializeStructEnd (fields.foldl (fun m kv => hmInsert m kv.1 kv.2) [])

end Ser

/-! ### C8: struct fields are emitted in sorted key order -/

theorem hmInsert_not_mem : ∀ (m : List (Bytes × Bytes)) (k v : Bytes),
    k ∉ m.map Prod.fst → Ser.hmInsert m k v = m ++ [(k, v)] := by
  intro m
  induction m with
  | nil => intro k v _; rfl
  | cons kv m ih =>
    intro k v hk
    simp only [List.map_cons, List.mem_cons, not_or] at hk
    match kv with
    | (k', v') =>
      rw [Ser.hmInsert, if_neg (by simp at hk; exact fun h => hk.1 h.symm)]
      rw [ih k v (by simp at hk ⊢; exact hk.2)]
      simp

theorem buildHM_append (f : List (Bytes × Bytes)) : ∀ acc : List (Bytes × Bytes),
    (f.map Prod.fst).Nodup →
    (∀ k ∈ f.map Prod.fst, k ∉ acc.map Prod.fst) →
    f.foldl (fun m kv => Ser.hmInsert m kv.1 kv.2) acc = acc ++ f := by
  induction f with
  | nil => intro acc _ _; simp
  | cons kv f ih =>
    intro acc hnd hdisj
    rw [List.foldl_cons]
    rw [hmInsert_not_mem _ _ _ (hdisj kv.1 (by simp))]
    rw [ih (acc ++ [(kv.1, kv.2)])
      (by simp only [List.map_cons] at hnd; exact hnd.of_cons)
      (by
        intro k hk
        simp only [List.map_append, List.map_cons, List.map_nil]
        intro hmem
        rcases List.mem_append.1 hmem with hmem | hmem
        · exact hdisj k (by simp [hk]) hmem
        · simp at hmem
          simp only [List.map_cons] at hnd
          rcases List.nodup_cons.1 hnd with ⟨hne, _⟩
          rw [hmem] at hk
          exact hne hk)]
    simp

theorem buildHM_eq_self (f : List (Bytes × Bytes))
    (h : (f.map Prod.fst).Nodup) :
    f.foldl (fun m kv => Ser.hmInsert m kv.1 kv.2) [] = f := by
  rw [buildHM_append f [] h (by simp)]
  simp

theorem hmGet_perm (k : Bytes) :
    ∀ (m₁ m₂ : List (Bytes × Bytes)), m₁.Perm m₂ →
    (m₁.map Prod.fst).Nodup → Ser.hmGet m₁ k = Ser.hmGet m₂ k := by
  intro m₁ m₂ h
  induction h with
  | nil => intro _; rfl
  | cons x h ih =>
    intro hnd
    match x with
    | (k', v') =>
      rw [Ser.hmGet, Ser.hmGet]
      split
      · rfl
      · exact ih (by simp only [List.map_cons] at hnd; exact hnd.of_cons)
  | swap x y l =>
    intro hnd
    match x, y with
    | (kx, vx), (ky, vy) =>
      simp only [List.map_cons, List.nodup_cons, List.mem_cons, not_or] at hnd
      rw [Ser.hmGet, Ser.hmGet, Ser.hmGet, Ser.hmGet]
      by_cases hky : ky = k
      · rw [if_pos hky]
        rw [if_neg (by
          intro hkx
          exact hnd.1.1 (by rw [hkx, hky]))]
        rw [if_pos hky]
      · rw [if_neg hky]
        by_cases hkx : kx = k
        · rw [if_pos hkx, if_pos hkx]
        · rw [if_neg hkx, if_neg hkx, if_neg hky]
  | trans h₁ h₂ ih₁ ih₂ =>
    intro hnd
    rw [ih₁ hnd]
    exact ih₂ (by
      have := (h₁.map Prod.fst).nodup_iff.1 hnd
      exact this)

theorem insertionSort_eq_of_perm (l₁ l₂ : List Bytes) (h : l₁.Perm l₂) :
    List.insertionSort keyLe l₁ = List.insertionSort keyLe l₂ :=
  List.eq_of_perm_of_sorted
    ((List.perm_insertionSort keyLe l₁).trans
      (h.trans (List.perm_insertionSort keyLe l₂).symm))
    (List.sorted_insertionSort keyLe l₁) (List.sorted_insertionSort keyLe l₂)

theorem serializeStructEnd_perm (m₁ m₂ : List (Bytes × Bytes))
    (h : m₁.Perm m₂) (hnd : (m₁.map Prod.fst).Nodup) :
    Ser.serializeStructEnd m₁ = Ser.serializeStructEnd m₂ := by
  unfold Ser.serializeStructEnd
  rw [← insertionSort_eq_of_perm _ _ (h.map Prod.fst)]
  have hget : ∀ k, Ser.hmGet m₁ k = Ser.hmGet m₂ k :=
    fun k => hmGet_perm k m₁ m₂ h hnd
  simp only [hget]

/-- C8: the struct serializer's output is independent of the order the
fields are supplied in (for distinct field names), because the buffered
fields are re-emitted in ascending byte-lexicographic key order at `end`;
in particular a record with fields `s = "word"` and `inteight = 33` encodes
to `d8:inteighti33e1:s4:worde` (with `inteight` before `s`) whichever field
is serialized first. -/
theorem c8_struct_field_ordering :
    (∀ f₁ f₂ : List (Bytes × Bytes), f₁.Perm f₂ → (f₁.map Prod.fst).Nodup →
       Ser.structToBytes f₁ = Ser.structToBytes f₂) ∧
    Ser.structToBytes
        [([115], Ser.serialize_str [119, 111, 114, 100]),
         ([105, 110, 116, 101, 105, 103, 104, 116], Ser.serialize_i64 33)] =
      [100, 56, 58, 105, 110, 116, 101, 105, 103, 104, 116, 105, 51, 51, 101, 49, 58, 115, 52, 58, 119, 111, 114, 100, 101] ∧
    Ser.structToBytes
        [([105, 110, 116, 101, 105, 103, 104, 116], Ser.serialize_i64 33),
         ([115], Ser.serialize_str [119, 111, 114, 100])] =
      [100, 56, 58, 105, 110, 116, 101, 105, 103, 104, 116, 105, 51, 51, 101, 49, 58, 115, 52, 58, 119, 111, 114, 100, 101] := by
  refine ⟨?_, by decide, by decide⟩
  intro f₁ f₂ h hnd
  rw [Ser.structToBytes, Ser.structToBytes, buildHM_eq_self f₁ hnd,
    buildHM_eq_self f₂ ((h.map Prod.fst).nodup_iff.1 hnd)]
  exact serializeStructEnd_perm f₁ f₂ h hnd

/-- Witness for the universal part of `c8_struct_field_ordering`: the two
supply orders of the example record give identical bytes. -/
theorem c8_struct_field_ordering_witness :
    Ser.structToBytes
        [([115], Ser.serialize_str [119, 111, 114, 100]),
         ([105, 110, 116, 101, 105, 103, 104, 116], Ser.serialize_i64 33)] =
      Ser.structToBytes
        [([105, 110, 116, 101, 105, 103, 104, 116], Ser.serialize_i64 33),
         ([115], Ser.serialize_str [119, 111, 114, 100])] :=
  c8_struct_field_ordering.1
    [([115], Ser.serialize_str [119, 111, 114, 100]),
     ([105, 110, 116, 101, 105, 103, 104, 116], Ser.serialize_i64 33)]
    [([105, 110, 116, 101, 105, 103, 104, 116], Ser.serialize_i64 33),
     ([115], Ser.serialize_str [119, 111, 114, 100])]
    (by decide) (by decide)

/-! ### C1: the Value Encoder and the parse-of-encode round trip -/

/-- Well-formedness of a value as the streaming parser can produce it:
integers fit in `i64` magnitude, strings fit the parser's 100000-byte
buffer, and dict keys are strictly increasing (with string keys within the
buffer bound). -/
def WfB : BEValue → Bool
  | .BEInteger i => decide (i.natAbs ≤ i64Max)
  | .BEString s => decide (s.length ≤ 100000)
  | .BEList l => wfL l
  | .BEDict d => wfD d
where
  wfL : List BEValue → Bool
    | [] => true
    | v :: vs => WfB v && wfL vs
  wfD : List (Bytes × BEValue) → Bool
    | [] => true
    | kv :: ds =>
      decide (kv.1.length ≤ 100000) && WfB kv.2 &&
        (match ds with
         | [] => true
         | kv' :: _ => ltB kv.1 kv'.1) &&
        wfD ds

/-- Key order on dict pairs, for the encoder's defensive re-sort. -/
def pairLe (a b : Bytes × BEValue) : Prop := keyLe a.1 b.1

instance : DecidableRel pairLe := fun a b =>
  inferInstanceAs (Decidable (keyLe a.1 b.1))

instance : IsTotal (Bytes × BEValue) pairLe where
  total a b := IsTotal.total (r := keyLe) a.1 b.1

instance : IsTrans (Bytes × BEValue) pairLe where
  trans a b c hab hbc := IsTrans.trans (r := keyLe) a.1 b.1 c.1 hab hbc

/-- The defensive key re-sort of the Value Encoder. -/
def sortPairs (d : List (Bytes × BEValue)) : List (Bytes × BEValue) :=
  List.insertionSort pairLe d

theorem sizeOf_perm {α : Type} [SizeOf α] {l₁ l₂ : List α} (h : l₁.Perm l₂) :
    sizeOf l₁ = sizeOf l₂ := by
  induction h with
  | nil => rfl
  | cons x _ ih => simp only [List.cons.sizeOf_spec]; omega
  | swap x y l => simp only [List.cons.sizeOf_spec]; omega
  | trans _ _ ih₁ ih₂ => omega

theorem sizeOf_sortPairs (d : List (Bytes × BEValue)) :
    sizeOf (sortPairs d) = sizeOf d :=
  sizeOf_perm (List.perm_insertionSort pairLe d)

mutual

/-- Modelled from the spec: the Value Encoder (spec section 4.4, "Value
Encoder API" in section 6), which is absent from `src/` — `src/ser.rs` only
serializes typed values, not `BEValue` trees.  It serializes a `Value` to
canonical bencode bytes: `i<digits>e` (minus sign for negatives) for
integers, `<len>:<bytes>` for strings, `l...e` for lists, and `d...e` for
dicts with the keys defensively re-sorted into ascending byte order at
encode time. -/
def encode : BEValue → Bytes
  | .BEInteger i =>
    105 :: ((if i < 0 then [45] else []) ++ digitsOf i.natAbs ++ [101])
  | .BEString s => digitsOf s.length ++ 58 :: s
  | .BEList l => 108 :: (encList l ++ [101])
  | .BEDict d => 100 :: (encDict (sortPairs d) ++ [101])
termination_by v => sizeOf v
decreasing_by
  all_goals
    simp only [List.cons.sizeOf_spec, Prod.mk.sizeOf_spec,
      BEValue.BEList.sizeOf_spec, BEValue.BEDict.sizeOf_spec, sizeOf_sortPairs]
  all_goals omega

/-- Modelled from the spec: encoding of a list's elements in order. -/
def encList : List BEValue → Bytes
  | [] => []
  | v :: vs => encode v ++ encList vs
termination_by l => sizeOf l
decreasing_by
  all_goals
    simp only [List.cons.sizeOf_spec, Prod.mk.sizeOf_spec,
      BEValue.BEList.sizeOf_spec, BEValue.BEDict.sizeOf_spec, sizeOf_sortPairs]
  all_goals omega

/-- Modelled from the spec: encoding of a dict's (already sorted) pairs:
each key as a bencode string, then its value. -/
def encDict : List (Bytes × BEValue) → Bytes
  | [] => []
  | (k, v) :: ds => (digitsOf k.length ++ 58 :: k) ++ (encode v ++ encDict ds)
termination_by d => sizeOf d
decreasing_by
  all_goals
    simp only [List.cons.sizeOf_spec, Prod.mk.sizeOf_spec,
      BEValue.BEList.sizeOf_spec, BEValue.BEDict.sizeOf_spec, sizeOf_sortPairs]
  all_goals omega

end

theorem leB_false_of_ltB (a b : Bytes) (h : ltB a b = true) : leB b a = false := by
  unfold leB
  rw [ltB_asymm a b h]
  simp only [Bool.false_or, beq_eq_false_iff_ne, ne_eq]
  intro hba
  subst hba
  rw [ltB_irrefl] at h
  exact absurd h (by simp)

theorem ltB_of_not_leB (a b : Bytes) (h : leB a b = false) : ltB b a = true := by
  unfold leB at h
  simp only [Bool.or_eq_false_iff, beq_eq_false_iff_ne, ne_eq] at h
  match hba : ltB b a with
  | true => rfl
  | false => exact absurd (ltB_conn a b h.1 hba) h.2

theorem encode_length_ge_two : ∀ v : BEValue, 2 ≤ (encode v).length := by
  intro v
  match v with
  | .BEInteger i =>
    rw [encode]
    simp
    omega
  | .BEString s =>
    rw [encode]
    have := digitsOf_ne_nil s.length
    simp only [List.length_append, List.length_cons]
    have : 1 ≤ (digitsOf s.length).length := by
      match h : digitsOf s.length with
      | [] => exact absurd h this
      | _ :: _ => simp
    omega
  | .BEList l =>
    rw [encode]
    simp
  | .BEDict d =>
    rw [encode]
    simp

/-- The first byte of an encoding determines the parser's dispatch and is
never the terminator `e`. -/
theorem encode_head_ne_e : ∀ v : BEValue,
    ∃ ch t, encode v = ch :: t ∧ ch ≠ 101 := by
  intro v
  match v with
  | .BEInteger i => exact ⟨105, _, by rw [encode], by decide⟩
  | .BEString s =>
    obtain ⟨d₀, ds', hcons⟩ : ∃ d₀ ds', digitsOf s.length = d₀ :: ds' := by
      match h : digitsOf s.length with
      | [] => exact absurd h (digitsOf_ne_nil s.length)
      | d :: ds => exact ⟨d, ds, rfl⟩
    have hd₀ : isDigitByte d₀ = true :=
      digitsOf_digits _ d₀ (by rw [hcons]; simp)
    refine ⟨d₀, ds' ++ 58 :: s, by rw [encode, hcons]; simp, ?_⟩
    simp [isDigitByte] at hd₀
    omega
  | .BEList l => exact ⟨108, _, by rw [encode], by decide⟩
  | .BEDict d => exact ⟨100, _, by rw [encode], by decide⟩

theorem wfD_nil : WfB.wfD [] = true := by rw [WfB.wfD.eq_def]

theorem wfD_cons (kv : Bytes × BEValue) (ds : List (Bytes × BEValue)) :
    WfB.wfD (kv :: ds) =
      (decide (kv.1.length ≤ 100000) && WfB kv.2 &&
        (match ds with
         | [] => true
         | kv' :: _ => ltB kv.1 kv'.1) &&
        WfB.wfD ds) := by
  rw [WfB.wfD.eq_def]

theorem sortPairs_id_of_wfD : ∀ d : List (Bytes × BEValue),
    WfB.wfD d = true → sortPairs d = d := by
  intro d
  induction d with
  | nil => intro _; rfl
  | cons kv ds ih =>
    intro hwf
    match kv with
    | (k, v) =>
      rw [wfD_cons] at hwf
      simp only [Bool.and_eq_true] at hwf
      have hds : WfB.wfD ds = true := hwf.2
      rw [sortPairs, List.insertionSort]
      rw [show List.insertionSort pairLe ds = sortPairs ds from rfl, ih hds]
      match ds, hwf with
      | [], _ => rfl
      | (k', v') :: ds', hwf =>
        rw [List.orderedInsert, if_pos]
        unfold pairLe keyLe leB
        have hlt : ltB k k' = true := by
          have := hwf.1.2
          simpa using this
        simp [hlt]

theorem wfL_append (acc : List BEValue) (v : BEValue) :
    WfB.wfL (acc ++ [v]) = (WfB.wfL acc && WfB v) := by
  induction acc with
  | nil => simp [WfB.wfL]
  | cons x xs ih =>
    rw [List.cons_append, WfB.wfL, WfB.wfL, ih]
    simp [Bool.and_assoc]

/-- The last key of the association list built so far. -/
def lastKeyOf (acc : List (Bytes × BEValue)) : Option Bytes :=
  (acc.map Prod.fst).getLast?

theorem lastKeyOf_append (acc : List (Bytes × BEValue)) (k : Bytes)
    (v : BEValue) : lastKeyOf (acc ++ [(k, v)]) = some k := by
  unfold lastKeyOf
  rw [List.map_append]
  simp

theorem wfD_append : ∀ (acc : List (Bytes × BEValue)) (k : Bytes) (v : BEValue),
    WfB.wfD acc = true → k.length ≤ 100000 → WfB v = true →
    (acc = [] ∨ ∃ lk, lastKeyOf acc = some lk ∧ ltB lk k = true) →
    WfB.wfD (acc ++ [(k, v)]) = true := by
  intro acc
  induction acc with
  | nil =>
    intro k v _ hk hv _
    rw [List.nil_append, wfD_cons]
    simp [hk, hv, wfD_nil]
  | cons kv acc' ih =>
    intro k v hwf hk hv hlast
    match kv with
    | (k₀, v₀) =>
      rw [wfD_cons] at hwf
      simp only [Bool.and_eq_true] at hwf
      rcases hlast with hlast | ⟨lk, hlk, hlt⟩
      · exact absurd hlast (by simp)
      · rw [List.cons_append, wfD_cons]
        simp only [Bool.and_eq_true]
        refine ⟨⟨⟨hwf.1.1.1, hwf.1.1.2⟩, ?_⟩, ?_⟩
        · match acc' with
          | [] =>
            simp only [List.nil_append]
            unfold lastKeyOf at hlk
            simp at hlk
            rw [hlk]
            exact hlt
          | (k₁, v₁) :: acc'' =>
            rw [List.cons_append]
            exact hwf.1.2
        · match acc' with
          | [] => simp [wfD_cons, wfD_nil, hk, hv]
          | (k₁, v₁) :: acc'' =>
            refine ih k v hwf.2 hk hv (Or.inr ⟨lk, ?_, hlt⟩)
            unfold lastKeyOf at hlk ⊢
            simpa using hlk

theorem strLoop_ok_inv : ∀ (togo idx : Nat) (acc s buf rest : Bytes),
    BEReader.strLoop togo idx acc s = .ok buf rest →
    buf.length = acc.length + togo ∧ (1 ≤ togo → idx + togo ≤ 100000) := by
  intro togo
  induction togo with
  | zero =>
    intro idx acc s buf rest h
    rw [BEReader.strLoop] at h
    simp only [PResult.ok.injEq] at h
    rw [← h.1]
    simp
  | succ togo ih =>
    intro idx acc s buf rest h
    match s with
    | [] => rw [BEReader.strLoop] at h; exact absurd h (by simp)
    | b :: s' =>
      rw [BEReader.strLoop] at h
      by_cases hidx : 100000 ≤ idx
      · rw [if_pos hidx] at h; exact absurd h (by simp)
      · rw [if_neg hidx] at h
        have := ih (idx + 1) (acc ++ [b]) s' buf rest h
        simp only [List.length_append, List.length_cons, List.length_nil] at this
        constructor
        · omega
        · intro _
          rcases this with ⟨hlen, hbound⟩
          by_cases ht : 1 ≤ togo
          · have := hbound ht; omega
          · omega

theorem read_string_sound (s : Bytes) (v : BEValue) (rest : Bytes)
    (h : BEReader.read_string s = .ok v rest) : WfB v = true := by
  rw [BEReader.read_string] at h
  match h₁ : BEReader.read_raw_integer s with
  | .ok len s₁ =>
    simp only [h₁] at h
    by_cases hneg : len < 0
    · rw [if_pos hneg] at h; exact absurd h (by simp)
    · rw [if_neg hneg] at h
      match h₂ : BEReader.checkNextChar 58 .MissingSeparatorError s₁ with
      | .ok _ s₂ =>
        simp only [h₂] at h
        match h₃ : BEReader.strLoop len.toNat 0 [] s₂ with
        | .ok buf s₃ =>
          simp only [h₃] at h
          simp only [PResult.ok.injEq] at h
          rw [← h.1, WfB]
          have := strLoop_ok_inv len.toNat 0 [] s₂ buf s₃ h₃
          simp only [List.length_nil, Nat.zero_add] at this
          rcases this with ⟨hlen, hbound⟩
          by_cases h0 : 1 ≤ len.toNat
          · have := hbound h0; simp; omega
          · simp; omega
        | .err e => simp only [h₃] at h; exact absurd h (by simp)
        | .panicked => simp only [h₃] at h; exact absurd h (by simp)
        | .outOfFuel => simp only [h₃] at h; exact absurd h (by simp)
      | .err e => simp only [h₂] at h; exact absurd h (by simp)
      | .panicked => simp only [h₂] at h; exact absurd h (by simp)
      | .outOfFuel => simp only [h₂] at h; exact absurd h (by simp)
  | .err e => simp only [h₁] at h; exact absurd h (by simp)
  | .panicked => simp only [h₁] at h; exact absurd h (by simp)
  | .outOfFuel => simp only [h₁] at h; exact absurd h (by simp)

theorem read_raw_integer_bound (s : Bytes) (v : Int) (rest : Bytes)
    (h : BEReader.read_raw_integer s = .ok v rest) : v.natAbs ≤ i64Max := by
  rw [BEReader.read_raw_integer] at h
  match h₁ : BEReader.rawIntLoop 0 false []
      (if decide (s.head? = some 45) = true then s.tail else s) with
  | .ok buf rest' =>
    simp only [h₁] at h
    by_cases h0 : buf.length = 0
    · rw [if_pos h0] at h; exact absurd h (by simp)
    · rw [if_neg h0] at h
      by_cases hov : i64Max < natOfDigits buf
      · rw [if_pos hov] at h; exact absurd h (by simp)
      · rw [if_neg hov] at h
        by_cases hz : (decide (natOfDigits buf = 0) &&
            decide (s.head? = some 45)) = true
        · rw [if_pos hz] at h; exact absurd h (by simp)
        · rw [if_neg hz] at h
          simp only [PResult.ok.injEq] at h
          rw [← h.1]
          split
          · simp; omega
          · simp; omega
  | .err e => simp only [h₁] at h; exact absurd h (by simp)
  | .panicked => simp only [h₁] at h; exact absurd h (by simp)
  | .outOfFuel => simp only [h₁] at h; exact absurd h (by simp)

theorem read_integer_sound (s : Bytes) (v : BEValue) (rest : Bytes)
    (h : BEReader.read_integer s = .ok v rest) : WfB v = true := by
  rw [BEReader.read_integer] at h
  match h₁ : BEReader.checkNextChar 105 .MissingPrefixError s with
  | .ok _ s₁ =>
    simp only [h₁] at h
    match h₂ : BEReader.read_raw_integer s₁ with
    | .ok val s₂ =>
      simp only [h₂] at h
      match h₃ : BEReader.checkNextChar 101 .MissingSuffixError s₂ with
      | .ok _ s₃ =>
        simp only [h₃] at h
        simp only [PResult.ok.injEq] at h
        rw [← h.1, WfB]
        simpa using read_raw_integer_bound s₁ val s₂ h₂
      | .err e => simp only [h₃] at h; exact absurd h (by simp)
      | .panicked => simp only [h₃] at h; exact absurd h (by simp)
      | .outOfFuel => simp only [h₃] at h; exact absurd h (by simp)
    | .err e => simp only [h₂] at h; exact absurd h (by simp)
    | .panicked => simp only [h₂] at h; exact absurd h (by simp)
    | .outOfFuel => simp only [h₂] at h; exact absurd h (by simp)
  | .err e => simp only [h₁] at h; exact absurd h (by simp)
  | .panicked => simp only [h₁] at h; exact absurd h (by simp)
  | .outOfFuel => simp only [h₁] at h; exact absurd h (by simp)

theorem lift_ok {v : BEValue} {rest : Bytes} (X : PResult BEValue)
    (h : (match X with
          | .ok a r => PResult.ok (some a) r
          | .err e => .err e
          | .panicked => .panicked
          | .outOfFuel => .outOfFuel) = .ok (some v) rest) :
    X = .ok v rest := by
  match X with
  | .ok a r =>
    simp only [PResult.ok.injEq, Option.some.injEq] at h
    rw [h.1, h.2]
  | .err e => exact absurd h (by simp)
  | .panicked => exact absurd h (by simp)
  | .outOfFuel => exact absurd h (by simp)

/-- Every value the streaming parser produces is well-formed (`WfB`):
integers within `i64`, strings within the 100000-byte buffer, dict keys
strictly increasing. -/
theorem parseSound : ∀ f : Nat,
    (∀ s v rest, BEReader.nextValueF f s = .ok (some v) rest → WfB v = true) ∧
    (∀ acc s r rest, BEReader.readListLoopF f acc s = .ok r rest →
       WfB.wfL acc = true → ∃ l, r = .BEList l ∧ WfB.wfL l = true) ∧
    (∀ last acc s r rest, BEReader.readDictLoopF f last acc s = .ok r rest →
       WfB.wfD acc = true →
       (match last with
        | none => acc = []
        | some lk => lastKeyOf acc = some lk) →
       ∃ d, r = .BEDict d ∧ WfB.wfD d = true) := by
  intro f
  induction f using Nat.strong_induction_on with
  | _ f ih =>
    refine ⟨?_, ?_, ?_⟩
    · intro s v rest h
      match f, h with
      | g + 1, h =>
        rw [BEReader.nextValueF] at h
        match hh : s.head? with
        | none => simp only [hh] at h; exact absurd h (by simp)
        | some ch =>
          simp only [hh] at h
          by_cases hd : isDigitByte ch = true
          · rw [if_pos hd] at h
            exact read_string_sound s v rest (lift_ok _ h)
          · rw [if_neg hd] at h
            by_cases hi : ch = 105
            · rw [if_pos hi] at h
              exact read_integer_sound s v rest (lift_ok _ h)
            · rw [if_neg hi] at h
              by_cases hl : ch = 108
              · rw [if_pos hl] at h
                have hlist := lift_ok _ h
                match g, hlist with
                | g' + 1, hlist =>
                  rw [BEReader.readListF] at hlist
                  match h₁ : BEReader.checkNextChar 108 .MissingPrefixError s with
                  | .ok _ s₁ =>
                    simp only [h₁] at hlist
                    obtain ⟨l, rfl, hwl⟩ :=
                      (ih g' (by omega)).2.1 [] s₁ v rest hlist rfl
                    rw [WfB]
                    exact hwl
                  | .err e => simp only [h₁] at hlist; exact absurd hlist (by simp)
                  | .panicked => simp only [h₁] at hlist; exact absurd hlist (by simp)
                  | .outOfFuel => simp only [h₁] at hlist; exact absurd hlist (by simp)
              · rw [if_neg hl] at h
                by_cases hdd : ch = 100
                · rw [if_pos hdd] at h
                  have hdict := lift_ok _ h
                  match g, hdict with
                  | g' + 1, hdict =>
                    rw [BEReader.readDictF] at hdict
                    match h₁ : BEReader.checkNextChar 100 .MissingPrefixError s with
                    | .ok _ s₁ =>
                      simp only [h₁] at hdict
                      obtain ⟨d, rfl, hwd⟩ :=
                        (ih g' (by omega)).2.2 none [] s₁ v rest hdict
                          (by rw [WfB.wfD.eq_def]) rfl
                      rw [WfB]
                      exact hwd
                    | .err e => simp only [h₁] at hdict; exact absurd hdict (by simp)
                    | .panicked => simp only [h₁] at hdict; exact absurd hdict (by simp)
                    | .outOfFuel => simp only [h₁] at hdict; exact absurd hdict (by simp)
                · rw [if_neg hdd] at h
                  exact absurd h (by simp)
    · intro acc s r rest h hacc
      match f, h with
      | g + 1, h =>
        rw [BEReader.readListLoopF] at h
        match hh : s.head? with
        | none => simp only [hh] at h; exact absurd h (by simp)
        | some ch =>
          simp only [hh] at h
          by_cases he : ch = 101
          · rw [if_pos he] at h
            simp only [PResult.ok.injEq] at h
            exact ⟨acc, h.1.symm, hacc⟩
          · rw [if_neg he] at h
            match h₁ : BEReader.nextValueF g s with
            | .ok (some v') rest₁ =>
              simp only [h₁] at h
              have hv' := (ih g (by omega)).1 s v' rest₁ h₁
              exact (ih g (by omega)).2.1 (acc ++ [v']) rest₁ r rest h
                (by rw [wfL_append, hacc, hv']; rfl)
            | .ok none rest₁ => simp only [h₁] at h; exact absurd h (by simp)
            | .err e => simp only [h₁] at h; exact absurd h (by simp)
            | .panicked => simp only [h₁] at h; exact absurd h (by simp)
            | .outOfFuel => simp only [h₁] at h; exact absurd h (by simp)
    · intro last acc s r rest h hacc hinv
      match f, h with
      | g + 1, h =>
        rw [BEReader.readDictLoopF] at h
        match hh : s.head? with
        | none => simp only [hh] at h; exact absurd h (by simp)
        | some ch =>
          simp only [hh] at h
          by_cases he : ch = 101
          · rw [if_pos he] at h
            simp only [PResult.ok.injEq] at h
            exact ⟨acc, h.1.symm, hacc⟩
          · rw [if_neg he] at h
            match h₁ : BEReader.nextValueF g s with
            | .ok (some (.BEString key)) s₁ =>
              simp only [h₁] at h
              have hkey := (ih g (by omega)).1 s _ s₁ h₁
              rw [WfB] at hkey
              match hh₂ : s₁.head? with
              | none => simp only [hh₂] at h; exact absurd h (by simp)
              | some ch₂ =>
                simp only [hh₂] at h
                by_cases he₂ : ch₂ = 101
                · rw [if_pos he₂] at h; exact absurd h (by simp)
                · rw [if_neg he₂] at h
                  match h₂ : BEReader.nextValueF g s₁ with
                  | .ok (some value) s₂ =>
                    simp only [h₂] at h
                    have hval := (ih g (by omega)).1 s₁ _ s₂ h₂
                    match last with
                    | some lk =>
                      dsimp only at h hinv
                      by_cases hle : leB key lk = true
                      · rw [if_pos hle] at h; exact absurd h (by simp)
                      · rw [if_neg hle] at h
                        refine (ih g (by omega)).2.2 (some key)
                          (acc ++ [(key, value)]) s₂ r rest h ?_ ?_
                        · refine wfD_append acc key value hacc
                            (by simpa using hkey) hval (Or.inr ⟨lk, hinv, ?_⟩)
                          exact ltB_of_not_leB key lk (by simpa using hle)
                        · exact lastKeyOf_append acc key value
                    | none =>
                      dsimp only at h hinv
                      refine (ih g (by omega)).2.2 (some key)
                        (acc ++ [(key, value)]) s₂ r rest h ?_ ?_
                      · exact wfD_append acc key value hacc
                          (by simpa using hkey) hval (Or.inl hinv)
                      · exact lastKeyOf_append acc key value
                  | .ok none s₂ => simp only [h₂] at h; exact absurd h (by simp)
                  | .err e => simp only [h₂] at h; exact absurd h (by simp)
                  | .panicked => simp only [h₂] at h; exact absurd h (by simp)
                  | .outOfFuel => simp only [h₂] at h; exact absurd h (by simp)
            | .ok (some (.BEInteger i)) s₁ => simp only [h₁] at h; exact absurd h (by simp)
            | .ok (some (.BEList l)) s₁ => simp only [h₁] at h; exact absurd h (by simp)
            | .ok (some (.BEDict d)) s₁ => simp only [h₁] at h; exact absurd h (by simp)
            | .ok none s₁ => simp only [h₁] at h; exact absurd h (by simp)
            | .err e => simp only [h₁] at h; exact absurd h (by simp)
            | .panicked => simp only [h₁] at h; exact absurd h (by simp)
            | .outOfFuel => simp only [h₁] at h; exact absurd h (by simp)

/-- Parsing an encoding: with enough fuel, `next_value` on `encode v ++ rest`
returns exactly `v` and leaves `rest` (mutually with the list and dict
loops). -/
theorem encTriple : ∀ f : Nat,
    (∀ v rest, WfB v = true → 2 * (encode v).length ≤ f →
       BEReader.nextValueF f (encode v ++ rest) = .ok (some v) rest) ∧
    (∀ items acc rest, WfB.wfL items = true →
       2 * (encList items).length + 2 ≤ f →
       BEReader.readListLoopF f acc (encList items ++ 101 :: rest) =
         .ok (.BEList (acc ++ items)) rest) ∧
    (∀ pairs last acc rest, WfB.wfD pairs = true →
       (match last, pairs with
        | some lk, kv :: _ => ltB lk kv.1 = true
        | _, _ => True) →
       2 * (encDict pairs).length + 2 ≤ f →
       BEReader.readDictLoopF f last acc (encDict pairs ++ 101 :: rest) =
         .ok (.BEDict (acc ++ pairs)) rest) := by
  intro f
  induction f using Nat.strong_induction_on with
  | _ f ih =>
    refine ⟨?_, ?_, ?_⟩
    · intro v rest hwf hfuel
      have hlen2 := encode_length_ge_two v
      obtain ⟨g, rfl⟩ : ∃ g, f = g + 1 := ⟨f - 1, by omega⟩
      match v with
      | .BEInteger i =>
        rw [WfB] at hwf
        simp only [decide_eq_true_eq] at hwf
        rw [BEReader.nextValueF]
        by_cases hneg : i < 0
        · rw [show encode (.BEInteger i) ++ rest =
              105 :: (45 :: (digitsOf i.natAbs ++ 101 :: rest)) from by
            rw [encode, if_pos hneg]; simp]
          simp only [List.head?_cons]
          rw [if_neg (by decide : ¬ isDigitByte 105 = true), if_pos trivial]
          rw [BEReader.read_integer]
          rw [show BEReader.checkNextChar 105 .MissingPrefixError
              (105 :: (45 :: (digitsOf i.natAbs ++ 101 :: rest))) =
              .ok () (45 :: (digitsOf i.natAbs ++ 101 :: rest)) from by
            rw [BEReader.checkNextChar]; simp]
          dsimp only
          rw [read_raw_integer_neg_digitsOf i.natAbs 101 rest (by decide)
            (by omega) hwf]
          dsimp only
          rw [show BEReader.checkNextChar 101 .MissingSuffixError
              (101 :: rest) = .ok () rest from by
            rw [BEReader.checkNextChar]; simp]
          have : -((i.natAbs : Nat) : Int) = i := by omega
          rw [this]
        · rw [show encode (.BEInteger i) ++ rest =
              105 :: (digitsOf i.natAbs ++ 101 :: rest) from by
            rw [encode, if_neg hneg]; simp]
          simp only [List.head?_cons]
          rw [if_neg (by decide : ¬ isDigitByte 105 = true), if_pos trivial]
          rw [BEReader.read_integer]
          rw [show BEReader.checkNextChar 105 .MissingPrefixError
              (105 :: (digitsOf i.natAbs ++ 101 :: rest)) =
              .ok () (digitsOf i.natAbs ++ 101 :: rest) from by
            rw [BEReader.checkNextChar]; simp]
          dsimp only
          rw [read_raw_integer_digitsOf i.natAbs 101 rest (by decide) hwf]
          dsimp only
          rw [show BEReader.checkNextChar 101 .MissingSuffixError
              (101 :: rest) = .ok () rest from by
            rw [BEReader.checkNextChar]; simp]
          have : ((i.natAbs : Nat) : Int) = i := by omega
          rw [this]
      | .BEString s =>
        rw [WfB] at hwf
        simp only [decide_eq_true_eq] at hwf
        rw [BEReader.nextValueF]
        obtain ⟨d₀, ds', hcons⟩ : ∃ d₀ ds', digitsOf s.length = d₀ :: ds' := by
          match h : digitsOf s.length with
          | [] => exact absurd h (digitsOf_ne_nil s.length)
          | d :: ds => exact ⟨d, ds, rfl⟩
        have hd₀ : isDigitByte d₀ = true :=
          digitsOf_digits _ d₀ (by rw [hcons]; simp)
        rw [show encode (.BEString s) ++ rest =
            digitsOf s.length ++ 58 :: (s ++ rest) from by rw [encode]; simp]
        rw [show (digitsOf s.length ++ 58 :: (s ++ rest)).head? = some d₀ from by
          rw [hcons]; rfl]
        dsimp only
        rw [if_pos hd₀]
        rw [BEReader.read_string]
        rw [read_raw_integer_digitsOf s.length 58 (s ++ rest) (by decide)
          (by unfold i64Max; omega)]
        dsimp only
        rw [if_neg (by omega : ¬ (s.length : Int) < 0)]
        rw [show BEReader.checkNextChar 58 .MissingSeparatorError
            (58 :: (s ++ rest)) = .ok () (s ++ rest) from by
          rw [BEReader.checkNextChar]; simp]
        dsimp only
        rw [show ((s.length : Int)).toNat = s.length from by omega]
        rw [show BEReader.strLoop s.length 0 [] (s ++ rest) =
            .ok ([] ++ s) rest from strLoop_ok s 0 [] rest (by omega)]
        simp
      | .BEList l =>
        rw [WfB] at hwf
        have hlen : (encode (.BEList l)).length = (encList l).length + 2 := by
          rw [encode]; simp
        rw [BEReader.nextValueF]
        rw [show encode (.BEList l) ++ rest =
            108 :: (encList l ++ 101 :: rest) from by rw [encode]; simp]
        simp only [List.head?_cons]
        rw [if_neg (by decide : ¬ isDigitByte 108 = true),
          if_neg (by decide : ¬ (108 : Nat) = 105), if_pos trivial]
        obtain ⟨g', rfl⟩ : ∃ g', g = g' + 1 := ⟨g - 1, by omega⟩
        rw [BEReader.readListF]
        rw [show BEReader.checkNextChar 108 .MissingPrefixError
            (108 :: (encList l ++ 101 :: rest)) =
            .ok () (encList l ++ 101 :: rest) from by
          rw [BEReader.checkNextChar]; simp]
        dsimp only
        rw [(ih g' (by omega)).2.1 l [] rest hwf (by omega)]
        simp
      | .BEDict d =>
        rw [WfB] at hwf
        have hsort : sortPairs d = d := sortPairs_id_of_wfD d hwf
        have hlen : (encode (.BEDict d)).length = (encDict d).length + 2 := by
          rw [encode, hsort]; simp
        rw [BEReader.nextValueF]
        rw [show encode (.BEDict d) ++ rest =
            100 :: (encDict d ++ 101 :: rest) from by rw [encode, hsort]; simp]
        simp only [List.head?_cons]
        rw [if_neg (by decide : ¬ isDigitByte 100 = true),
          if_neg (by decide : ¬ (100 : Nat) = 105),
          if_neg (by decide : ¬ (100 : Nat) = 108), if_pos trivial]
        obtain ⟨g', rfl⟩ : ∃ g', g = g' + 1 := ⟨g - 1, by omega⟩
        rw [BEReader.readDictF]
        rw [show BEReader.checkNextChar 100 .MissingPrefixError
            (100 :: (encDict d ++ 101 :: rest)) =
            .ok () (encDict d ++ 101 :: rest) from by
          rw [BEReader.checkNextChar]; simp]
        dsimp only
        rw [(ih g' (by omega)).2.2 d none [] rest hwf trivial (by omega)]
        simp
    · intro items acc rest hwf hfuel
      obtain ⟨g, rfl⟩ : ∃ g, f = g + 1 := ⟨f - 1, by omega⟩
      match items with
      | [] =>
        rw [show encList [] ++ 101 :: rest = 101 :: rest from by
          rw [encList]; simp]
        rw [BEReader.readListLoopF]
        simp only [List.head?_cons]
        rw [if_pos trivial]
        simp
      | v :: vs =>
        rw [WfB.wfL] at hwf
        simp only [Bool.and_eq_true] at hwf
        have hlen : (encList (v :: vs)).length =
            (encode v).length + (encList vs).length := by rw [encList]; simp
        have hlen2 := encode_length_ge_two v
        obtain ⟨ch, t, hvcons, hchne⟩ := encode_head_ne_e v
        rw [show encList (v :: vs) ++ 101 :: rest =
            encode v ++ (encList vs ++ 101 :: rest) from by rw [encList]; simp]
        rw [BEReader.readListLoopF]
        rw [show (encode v ++ (encList vs ++ 101 :: rest)).head? = some ch from by
          rw [hvcons]; rfl]
        dsimp only
        rw [if_neg hchne]
        rw [(ih g (by omega)).1 v (encList vs ++ 101 :: rest) hwf.1 (by omega)]
        dsimp only
        rw [(ih g (by omega)).2.1 vs (acc ++ [v]) rest hwf.2 (by omega)]
        simp
    · intro pairs last acc rest hwf hlast hfuel
      obtain ⟨g, rfl⟩ : ∃ g, f = g + 1 := ⟨f - 1, by omega⟩
      match pairs with
      | [] =>
        rw [show encDict [] ++ 101 :: rest = 101 :: rest from by
          rw [encDict]; simp]
        rw [BEReader.readDictLoopF]
        simp only [List.head?_cons]
        rw [if_pos trivial]
        simp
      | (k, v) :: ps =>
        rw [wfD_cons] at hwf
        simp only [Bool.and_eq_true] at hwf
        have hk : k.length ≤ 100000 := by
          have := hwf.1.1.1; simpa using this
        have hv : WfB v = true := hwf.1.1.2
        have hadj := hwf.1.2
        have hps : WfB.wfD ps = true := hwf.2
        have hkey : WfB (.BEString k) = true := by
          rw [WfB]; simpa using hk
        have hlenp : (encDict ((k, v) :: ps)).length =
            (digitsOf k.length).length + 1 + k.length +
              (encode v).length + (encDict ps).length := by
          rw [encDict]; simp; omega
        have hlenk : (encode (.BEString k)).length =
            (digitsOf k.length).length + 1 + k.length := by
          rw [encode]; simp; omega
        have hlenk2 := encode_length_ge_two (.BEString k)
        have hlenv2 := encode_length_ge_two v
        obtain ⟨ch, t, hkcons, hchne⟩ := encode_head_ne_e (.BEString k)
        obtain ⟨ch₂, t₂, hvcons, hchne₂⟩ := encode_head_ne_e v
        rw [show encDict ((k, v) :: ps) ++ 101 :: rest =
            encode (.BEString k) ++
              (encode v ++ (encDict ps ++ 101 :: rest)) from by
          rw [encDict, encode]; simp]
        rw [BEReader.readDictLoopF]
        rw [show (encode (.BEString k) ++
            (encode v ++ (encDict ps ++ 101 :: rest))).head? = some ch from by
          rw [hkcons]; rfl]
        dsimp only
        rw [if_neg hchne]
        rw [(ih g (by omega)).1 (.BEString k)
          (encode v ++ (encDict ps ++ 101 :: rest)) hkey (by omega)]
        dsimp only
        rw [show (encode v ++ (encDict ps ++ 101 :: rest)).head? = some ch₂ from by
          rw [hvcons]; rfl]
        dsimp only
        rw [if_neg hchne₂]
        rw [(ih g (by omega)).1 v (encDict ps ++ 101 :: rest) hv (by omega)]
        dsimp only
        have hrec := (ih g (by omega)).2.2 ps (some k) (acc ++ [(k, v)]) rest hps
          (by
            match ps, hadj with
            | [], _ => trivial
            | kv' :: ps', hadj => simpa using hadj)
          (by omega)
        match last, hlast with
        | none, _ =>
          dsimp only
          rw [hrec]
          simp
        | some lk, hlast =>
          dsimp only
          rw [if_neg (by
            rw [leB_false_of_ltB lk k (by simpa using hlast)]
            simp)]
          rw [hrec]
          simp

/-- C1: the Value Encoder is total on values (it is a plain function into
byte strings), and every `Value` the Streaming Parser produces re-parses
from its encoding to the very same value, consuming the whole encoding. -/
theorem c1_value_encoder_roundtrip (s : Bytes) (v : BEValue) (rest : Bytes)
    (h : BEReader.next_value s = .ok (some v) rest) :
    BEReader.next_value (encode v) = .ok (some v) [] := by
  have hwf : WfB v = true := (parseSound (3 * s.length + 1)).1 s v rest h
  have henc := (encTriple (3 * (encode v).length + 1)).1 v [] hwf (by omega)
  rw [List.append_nil] at henc
  exact henc

/-- Witness for `c1_value_encoder_roundtrip`: the parser's output on `i45e`
round-trips through the encoder. -/
theorem c1_value_encoder_roundtrip_witness :
    BEReader.next_value (encode (.BEInteger 45)) =
      .ok (some (.BEInteger 45)) [] :=
  c1_value_encoder_roundtrip [105, 52, 53, 101] (.BEInteger 45) [] (by decide)

/-! ### C5: clean-boundary `None`, and truncation yields `EOFError` -/

theorem append_split {α : Type} (p q t r : List α) (h : p ++ q = t ++ r)
    (hlen : q.length ≤ r.length) : ∃ m, p = t ++ m ∧ r = m ++ q := by
  have hlt : t.length ≤ p.length := by
    have := congrArg List.length h
    simp only [List.length_append] at this
    omega
  have h1 : p.take t.length = t := by
    have h' := congrArg (List.take t.length) h
    rw [List.take_append_of_le_length hlt, List.take_left] at h'
    exact h'
  have h2 : p.drop t.length ++ q = r := by
    have h' := congrArg (List.drop t.length) h
    rw [List.drop_append_of_le_length hlt, List.drop_left] at h'
    exact h'
  have h3 : p = p.take t.length ++ p.drop t.length :=
    (List.take_append_drop _ _).symm
  rw [h1] at h3
  exact ⟨p.drop t.length, h3, h2.symm⟩

theorem checkNextChar_ok (e : Nat) (mk : Nat → Nat → BEError) (s rest : Bytes)
    (u : Unit) (h : BEReader.checkNextChar e mk s = .ok u rest) :
    s = e :: rest := by
  match s with
  | [] => rw [BEReader.checkNextChar] at h; exact absurd h (by simp)
  | c :: s' =>
    rw [BEReader.checkNextChar] at h
    by_cases hc : e ≠ c
    · rw [if_pos hc] at h; exact absurd h (by simp)
    · rw [if_neg hc] at h
      simp only [PResult.ok.injEq] at h
      simp only [not_not] at hc
      rw [hc, h.2]

theorem rawIntLoop_split : ∀ (s : Bytes) (idx : Nat) (lz : Bool)
    (buf buf' rest : Bytes),
    BEReader.rawIntLoop idx lz buf s = .ok buf' rest →
    ∃ t c r', s = t ++ rest ∧ rest = c :: r' ∧ isDigitByte c = false := by
  intro s
  induction s with
  | nil => intro idx lz buf buf' rest h; rw [BEReader.rawIntLoop] at h; exact absurd h (by simp)
  | cons d s' ih =>
    intro idx lz buf buf' rest h
    rw [BEReader.rawIntLoop] at h
    by_cases hd : isDigitByte d = true
    · rw [if_pos hd] at h
      by_cases hlz : (idx > 0 && lz) = true
      · rw [if_pos hlz] at h; exact absurd h (by simp)
      · rw [if_neg hlz] at h
        by_cases hix : 100 ≤ idx
        · rw [if_pos hix] at h; exact absurd h (by simp)
        · rw [if_neg hix] at h
          obtain ⟨t, c, r', hsplit, hrest, hc⟩ := ih _ _ _ _ _ h
          exact ⟨d :: t, c, r', by rw [List.cons_append, hsplit], hrest, hc⟩
    · rw [if_neg hd] at h
      simp only [PResult.ok.injEq] at h
      exact ⟨[], d, s', by rw [← h.2]; rfl, h.2.symm, by simpa using hd⟩

theorem read_raw_integer_split (s : Bytes) (v : Int) (rest : Bytes)
    (h : BEReader.read_raw_integer s = .ok v rest) :
    ∃ t c r', s = t ++ rest ∧ rest = c :: r' ∧ isDigitByte c = false := by
  rw [BEReader.read_raw_integer] at h
  match h₁ : BEReader.rawIntLoop 0 false []
      (if decide (s.head? = some 45) = true then s.tail else s) with
  | .ok buf rest' =>
    simp only [h₁] at h
    by_cases h0 : buf.length = 0
    · rw [if_pos h0] at h; exact absurd h (by simp)
    · rw [if_neg h0] at h
      by_cases hov : i64Max < natOfDigits buf
      · rw [if_pos hov] at h; exact absurd h (by simp)
      · rw [if_neg hov] at h
        by_cases hz : (decide (natOfDigits buf = 0) &&
            decide (s.head? = some 45)) = true
        · rw [if_pos hz] at h; exact absurd h (by simp)
        · rw [if_neg hz] at h
          simp only [PResult.ok.injEq] at h
          obtain ⟨t, c, r', hsplit, hrest, hc⟩ := rawIntLoop_split _ _ _ _ _ _ h₁
          rw [← h.2]
          by_cases h45 : decide (s.head? = some 45) = true
          · rw [if_pos h45] at hsplit
            simp only [decide_eq_true_eq] at h45
            match s, h45 with
            | c₀ :: s', h45 =>
              simp only [List.head?_cons, Option.some.injEq] at h45
              exact ⟨c₀ :: t, c, r', by
                rw [List.cons_append]
                simp only [List.tail_cons] at hsplit
                rw [← hsplit], hrest, hc⟩
          · rw [if_neg h45] at hsplit
            exact ⟨t, c, r', hsplit, hrest, hc⟩
  | .err e => simp only [h₁] at h; exact absurd h (by simp)
  | .panicked => simp only [h₁] at h; exact absurd h (by simp)
  | .outOfFuel => simp only [h₁] at h; exact absurd h (by simp)

theorem strLoop_split : ∀ (togo idx : Nat) (acc s buf rest : Bytes),
    BEReader.strLoop togo idx acc s = .ok buf rest →
    ∃ t, s = t ++ rest ∧ t.length = togo := by
  intro togo
  induction togo with
  | zero =>
    intro idx acc s buf rest h
    rw [BEReader.strLoop] at h
    simp only [PResult.ok.injEq] at h
    exact ⟨[], by rw [h.2]; simp, rfl⟩
  | succ togo ih =>
    intro idx acc s buf rest h
    match s with
    | [] => rw [BEReader.strLoop] at h; exact absurd h (by simp)
    | b :: s' =>
      rw [BEReader.strLoop] at h
      by_cases hix : 100000 ≤ idx
      · rw [if_pos hix] at h; exact absurd h (by simp)
      · rw [if_neg hix] at h
        obtain ⟨t, hsplit, hlen⟩ := ih _ _ _ _ _ h
        exact ⟨b :: t, by rw [List.cons_append, hsplit], by simp [hlen]⟩

theorem read_string_split (s : Bytes) (v : BEValue) (rest : Bytes)
    (h : BEReader.read_string s = .ok v rest) :
    ∃ t, s = t ++ rest ∧ t ≠ [] := by
  rw [BEReader.read_string] at h
  match h₁ : BEReader.read_raw_integer s with
  | .ok len s₁ =>
    simp only [h₁] at h
    by_cases hneg : len < 0
    · rw [if_pos hneg] at h; exact absurd h (by simp)
    · rw [if_neg hneg] at h
      match h₂ : BEReader.checkNextChar 58 .MissingSeparatorError s₁ with
      | .ok _ s₂ =>
        simp only [h₂] at h
        match h₃ : BEReader.strLoop len.toNat 0 [] s₂ with
        | .ok buf s₃ =>
          simp only [h₃] at h
          simp only [PResult.ok.injEq] at h
          obtain ⟨t₁, c, r', hs₁, hrest₁, hc⟩ := read_raw_integer_split s len s₁ h₁
          have hs₂ : s₁ = 58 :: s₂ := checkNextChar_ok 58 _ s₁ s₂ _ h₂
          obtain ⟨t₃, hs₃, hlen₃⟩ := strLoop_split len.toNat 0 [] s₂ buf s₃ h₃
          refine ⟨t₁ ++ 58 :: t₃, ?_, by simp⟩
          rw [hs₁, hs₂, hs₃, ← h.2]
          simp
        | .err e => simp only [h₃] at h; exact absurd h (by simp)
        | .panicked => simp only [h₃] at h; exact absurd h (by simp)
        | .outOfFuel => simp only [h₃] at h; exact absurd h (by simp)
      | .err e => simp only [h₂] at h; exact absurd h (by simp)
      | .panicked => simp only [h₂] at h; exact absurd h (by simp)
      | .outOfFuel => simp only [h₂] at h; exact absurd h (by simp)
  | .err e => simp only [h₁] at h; exact absurd h (by simp)
  | .panicked => simp only [h₁] at h; exact absurd h (by simp)
  | .outOfFuel => simp only [h₁] at h; exact absurd h (by simp)

theorem read_integer_split (s : Bytes) (v : BEValue) (rest : Bytes)
    (h : BEReader.read_integer s = .ok v rest) :
    ∃ t, s = t ++ rest ∧ t ≠ [] := by
  rw [BEReader.read_integer] at h
  match h₁ : BEReader.checkNextChar 105 .MissingPrefixError s with
  | .ok _ s₁ =>
    simp only [h₁] at h
    match h₂ : BEReader.read_raw_integer s₁ with
    | .ok val s₂ =>
      simp only [h₂] at h
      match h₃ : BEReader.checkNextChar 101 .MissingSuffixError s₂ with
      | .ok _ s₃ =>
        simp only [h₃] at h
        simp only [PResult.ok.injEq] at h
        have hs : s = 105 :: s₁ := checkNextChar_ok 105 _ s s₁ _ h₁
        obtain ⟨t₂, c, r', hs₁, hrest, hc⟩ := read_raw_integer_split s₁ val s₂ h₂
        have hs₂ : s₂ = 101 :: s₃ := checkNextChar_ok 101 _ s₂ s₃ _ h₃
        refine ⟨105 :: (t₂ ++ [101]), ?_, by simp⟩
        rw [hs, hs₁, hs₂, ← h.2]
        simp
      | .err e => simp only [h₃] at h; exact absurd h (by simp)
      | .panicked => simp only [h₃] at h; exact absurd h (by simp)
      | .outOfFuel => simp only [h₃] at h; exact absurd h (by simp)
    | .err e => simp only [h₂] at h; exact absurd h (by simp)
    | .panicked => simp only [h₂] at h; exact absurd h (by simp)
    | .outOfFuel => simp only [h₂] at h; exact absurd h (by simp)
  | .err e => simp only [h₁] at h; exact absurd h (by simp)
  | .panicked => simp only [h₁] at h; exact absurd h (by simp)
  | .outOfFuel => simp only [h₁] at h; exact absurd h (by simp)

/-- Consumption: a successful parse splits its input into the consumed bytes
and the returned remainder (nonempty consumption for an actual value). -/
theorem nextValue_split : ∀ f : Nat,
    (∀ s o rest, BEReader.nextValueF f s = .ok o rest →
       ∃ t, s = t ++ rest ∧ (o ≠ none → t ≠ [])) ∧
    (∀ acc s r rest, BEReader.readListLoopF f acc s = .ok r rest →
       ∃ t, s = t ++ rest ∧ t ≠ []) ∧
    (∀ last acc s r rest, BEReader.readDictLoopF f last acc s = .ok r rest →
       ∃ t, s = t ++ rest ∧ t ≠ []) := by
  intro f
  induction f using Nat.strong_induction_on with
  | _ f ih =>
    refine ⟨?_, ?_, ?_⟩
    · intro s o rest h
      match f, h with
      | g + 1, h =>
        rw [BEReader.nextValueF] at h
        match hh : s.head? with
        | none =>
          simp only [hh] at h
          simp only [PResult.ok.injEq] at h
          exact ⟨[], by rw [h.2]; simp, fun ho => absurd h.1.symm ho⟩
        | some ch =>
          simp only [hh] at h
          by_cases hd : isDigitByte ch = true
          · rw [if_pos hd] at h
            match ho : o with
            | some v =>
              obtain ⟨t, hsplit, hne⟩ := read_string_split s v rest (lift_ok _ h)
              exact ⟨t, hsplit, fun _ => hne⟩
            | none => exact absurd h (by match hX : BEReader.read_string s with
                | .ok a r => simp [hX]
                | .err e => simp [hX]
                | .panicked => simp [hX]
                | .outOfFuel => simp [hX])
          · rw [if_neg hd] at h
            by_cases hi : ch = 105
            · rw [if_pos hi] at h
              match ho : o with
              | some v =>
                obtain ⟨t, hsplit, hne⟩ := read_integer_split s v rest (lift_ok _ h)
                exact ⟨t, hsplit, fun _ => hne⟩
              | none => exact absurd h (by match hX : BEReader.read_integer s with
                  | .ok a r => simp [hX]
                  | .err e => simp [hX]
                  | .panicked => simp [hX]
                  | .outOfFuel => simp [hX])
            · rw [if_neg hi] at h
              by_cases hl : ch = 108
              · rw [if_pos hl] at h
                match ho : o with
                | some v =>
                  have hlist := lift_ok _ h
                  match g, hlist with
                  | g' + 1, hlist =>
                    rw [BEReader.readListF] at hlist
                    match h₁ : BEReader.checkNextChar 108 .MissingPrefixError s with
                    | .ok _ s₁ =>
                      simp only [h₁] at hlist
                      obtain ⟨t, hsplit, hne⟩ := (ih g' (by omega)).2.1 _ _ _ _ hlist
                      have hs := checkNextChar_ok 108 _ s s₁ _ h₁
                      exact ⟨108 :: t, by rw [hs, hsplit]; rfl, fun _ => by simp⟩
                    | .err e => simp only [h₁] at hlist; exact absurd hlist (by simp)
                    | .panicked => simp only [h₁] at hlist; exact absurd hlist (by simp)
                    | .outOfFuel => simp only [h₁] at hlist; exact absurd hlist (by simp)
                | none => exact absurd h (by match hX : BEReader.readListF g s with
                    | .ok a r => simp [hX]
                    | .err e => simp [hX]
                    | .panicked => simp [hX]
                    | .outOfFuel => simp [hX])
              · rw [if_neg hl] at h
                by_cases hdd : ch = 100
                · rw [if_pos hdd] at h
                  match ho : o with
                  | some v =>
                    have hdict := lift_ok _ h
                    match g, hdict with
                    | g' + 1, hdict =>
                      rw [BEReader.readDictF] at hdict
                      match h₁ : BEReader.checkNextChar 100 .MissingPrefixError s with
                      | .ok _ s₁ =>
                        simp only [h₁] at hdict
                        obtain ⟨t, hsplit, hne⟩ := (ih g' (by omega)).2.2 _ _ _ _ _ hdict
                        have hs := checkNextChar_ok 100 _ s s₁ _ h₁
                        exact ⟨100 :: t, by rw [hs, hsplit]; rfl, fun _ => by simp⟩
                      | .err e => simp only [h₁] at hdict; exact absurd hdict (by simp)
                      | .panicked => simp only [h₁] at hdict; exact absurd hdict (by simp)
                      | .outOfFuel => simp only [h₁] at hdict; exact absurd hdict (by simp)
                  | none => exact absurd h (by match hX : BEReader.readDictF g s with
                      | .ok a r => simp [hX]
                      | .err e => simp [hX]
                      | .panicked => simp [hX]
                      | .outOfFuel => simp [hX])
                · rw [if_neg hdd] at h
                  exact absurd h (by simp)
    · intro acc s r rest h
      match f, h with
      | g + 1, h =>
        rw [BEReader.readListLoopF] at h
        match hh : s.head? with
        | none => simp only [hh] at h; exact absurd h (by simp)
        | some ch =>
          simp only [hh] at h
          by_cases he : ch = 101
          · rw [if_pos he] at h
            simp only [PResult.ok.injEq] at h
            match s, hh with
            | c :: s', hh =>
              refine ⟨[ch], ?_, by simp⟩
              simp only [List.head?_cons, Option.some.injEq] at hh
              rw [← h.2]
              simp [hh]
          · rw [if_neg he] at h
            match h₁ : BEReader.nextValueF g s with
            | .ok (some v') rest₁ =>
              simp only [h₁] at h
              obtain ⟨t₁, hs₁, hne₁⟩ := (ih g (by omega)).1 s _ rest₁ h₁
              obtain ⟨t₂, hs₂, _⟩ := (ih g (by omega)).2.1 _ _ _ _ h
              exact ⟨t₁ ++ t₂, by rw [hs₁, hs₂]; simp, by
                have := hne₁ (by simp)
                simp [this]⟩
            | .ok none rest₁ => simp only [h₁] at h; exact absurd h (by simp)
            | .err e => simp only [h₁] at h; exact absurd h (by simp)
            | .panicked => simp only [h₁] at h; exact absurd h (by simp)
            | .outOfFuel => simp only [h₁] at h; exact absurd h (by simp)
    · intro last acc s r rest h
      match f, h with
      | g + 1, h =>
        rw [BEReader.readDictLoopF] at h
        match hh : s.head? with
        | none => simp only [hh] at h; exact absurd h (by simp)
        | some ch =>
          simp only [hh] at h
          by_cases he : ch = 101
          · rw [if_pos he] at h
            simp only [PResult.ok.injEq] at h
            match s, hh with
            | c :: s', hh =>
              refine ⟨[ch], ?_, by simp⟩
              simp only [List.head?_cons, Option.some.injEq] at hh
              rw [← h.2]
              simp [hh]
          · rw [if_neg he] at h
            match h₁ : BEReader.nextValueF g s with
            | .ok (some (.BEString key)) s₁ =>
              simp only [h₁] at h
              obtain ⟨t₁, hs₁, hne₁⟩ := (ih g (by omega)).1 s _ s₁ h₁
              match hh₂ : s₁.head? with
              | none => simp only [hh₂] at h; exact absurd h (by simp)
              | some ch₂ =>
                simp only [hh₂] at h
                by_cases he₂ : ch₂ = 101
                · rw [if_pos he₂] at h; exact absurd h (by simp)
                · rw [if_neg he₂] at h
                  match h₂ : BEReader.nextValueF g s₁ with
                  | .ok (some value) s₂ =>
                    simp only [h₂] at h
                    obtain ⟨t₂, hs₂, _⟩ := (ih g (by omega)).1 s₁ _ s₂ h₂
                    have hcont : ∃ t₃, s₂ = t₃ ++ rest ∧ True := by
                      match last with
                      | none =>
                        dsimp only at h
                        obtain ⟨t₃, hs₃, _⟩ := (ih g (by omega)).2.2 _ _ _ _ _ h
                        exact ⟨t₃, hs₃, trivial⟩
                      | some lk =>
                        dsimp only at h
                        by_cases hle : leB key lk = true
                        · rw [if_pos hle] at h; exact absurd h (by simp)
                        · rw [if_neg hle] at h
                          obtain ⟨t₃, hs₃, _⟩ := (ih g (by omega)).2.2 _ _ _ _ _ h
                          exact ⟨t₃, hs₃, trivial⟩
                    obtain ⟨t₃, hs₃, _⟩ := hcont
                    exact ⟨t₁ ++ (t₂ ++ t₃), by rw [hs₁, hs₂, hs₃]; simp, by
                      have := hne₁ (by simp)
                      simp [this]⟩
                  | .ok none s₂ => simp only [h₂] at h; exact absurd h (by simp)
                  | .err e => simp only [h₂] at h; exact absurd h (by simp)
                  | .panicked => simp only [h₂] at h; exact absurd h (by simp)
                  | .outOfFuel => simp only [h₂] at h; exact absurd h (by simp)
            | .ok (some (.BEInteger i)) s₁ => simp only [h₁] at h; exact absurd h (by simp)
            | .ok (some (.BEList l)) s₁ => simp only [h₁] at h; exact absurd h (by simp)
            | .ok (some (.BEDict d)) s₁ => simp only [h₁] at h; exact absurd h (by simp)
            | .ok none s₁ => simp only [h₁] at h; exact absurd h (by simp)
            | .err e => simp only [h₁] at h; exact absurd h (by simp)
            | .panicked => simp only [h₁] at h; exact absurd h (by simp)
            | .outOfFuel => simp only [h₁] at h; exact absurd h (by simp)

theorem rawIntLoop_no_oof : ∀ (s : Bytes) (idx : Nat) (lz : Bool) (buf : Bytes),
    BEReader.rawIntLoop idx lz buf s ≠ .outOfFuel := by
  intro s
  induction s with
  | nil => intro idx lz buf; rw [BEReader.rawIntLoop]; simp
  | cons d s' ih =>
    intro idx lz buf
    rw [BEReader.rawIntLoop]
    by_cases hd : isDigitByte d = true
    · rw [if_pos hd]
      by_cases hlz : (idx > 0 && lz) = true
      · rw [if_pos hlz]; simp
      · rw [if_neg hlz]
        by_cases hix : 100 ≤ idx
        · rw [if_pos hix]; simp
        · rw [if_neg hix]; exact ih _ _ _
    · rw [if_neg hd]; simp

theorem strLoop_no_oof : ∀ (togo idx : Nat) (acc s : Bytes),
    BEReader.strLoop togo idx acc s ≠ .outOfFuel := by
  intro togo
  induction togo with
  | zero => intro idx acc s; rw [BEReader.strLoop]; simp
  | succ togo ih =>
    intro idx acc s
    match s with
    | [] => rw [BEReader.strLoop]; simp
    | b :: s' =>
      rw [BEReader.strLoop]
      by_cases hix : 100000 ≤ idx
      · rw [if_pos hix]; simp
      · rw [if_neg hix]; exact ih _ _ _

theorem checkNextChar_no_oof (e : Nat) (mk : Nat → Nat → BEError) (s : Bytes) :
    BEReader.checkNextChar e mk s ≠ .outOfFuel := by
  match s with
  | [] => rw [BEReader.checkNextChar]; simp
  | c :: s' =>
    rw [BEReader.checkNextChar]
    by_cases hc : e ≠ c
    · rw [if_pos hc]; simp
    · rw [if_neg hc]; simp

theorem read_raw_integer_no_oof (s : Bytes) :
    BEReader.read_raw_integer s ≠ .outOfFuel := by
  rw [BEReader.read_raw_integer]
  match h₁ : BEReader.rawIntLoop 0 false []
      (if decide (s.head? = some 45) = true then s.tail else s) with
  | .ok buf rest =>
    dsimp only
    by_cases h0 : buf.length = 0
    · rw [if_pos h0]; simp
    · rw [if_neg h0]
      by_cases hov : i64Max < natOfDigits buf
      · rw [if_pos hov]; simp
      · rw [if_neg hov]
        by_cases hz : (decide (natOfDigits buf = 0) &&
            decide (s.head? = some 45)) = true
        · rw [if_pos hz]; simp
        · rw [if_neg hz]; simp
  | .err e => simp
  | .panicked => simp
  | .outOfFuel => exact absurd h₁ (rawIntLoop_no_oof _ _ _ _)

theorem read_string_no_oof (s : Bytes) :
    BEReader.read_string s ≠ .outOfFuel := by
  rw [BEReader.read_string]
  match h₁ : BEReader.read_raw_integer s with
  | .ok len s₁ =>
    dsimp only
    by_cases hneg : len < 0
    · rw [if_pos hneg]; simp
    · rw [if_neg hneg]
      match h₂ : BEReader.checkNextChar 58 .MissingSeparatorError s₁ with
      | .ok _ s₂ =>
        dsimp only
        match h₃ : BEReader.strLoop len.toNat 0 [] s₂ with
        | .ok buf s₃ => simp
        | .err e => simp
        | .panicked => simp
        | .outOfFuel => exact absurd h₃ (strLoop_no_oof _ _ _ _)
      | .err e => simp
      | .panicked => simp
      | .outOfFuel => exact absurd h₂ (checkNextChar_no_oof _ _ _)
  | .err e => simp
  | .panicked => simp
  | .outOfFuel => exact absurd h₁ (read_raw_integer_no_oof _)

theorem read_integer_no_oof (s : Bytes) :
    BEReader.read_integer s ≠ .outOfFuel := by
  rw [BEReader.read_integer]
  match h₁ : BEReader.checkNextChar 105 .MissingPrefixError s with
  | .ok _ s₁ =>
    dsimp only
    match h₂ : BEReader.read_raw_integer s₁ with
    | .ok val s₂ =>
      dsimp only
      match h₃ : BEReader.checkNextChar 101 .MissingSuffixError s₂ with
      | .ok _ s₃ => simp
      | .err e => simp
      | .panicked => simp
      | .outOfFuel => exact absurd h₃ (checkNextChar_no_oof _ _ _)
    | .err e => simp
    | .panicked => simp
    | .outOfFuel => exact absurd h₂ (read_raw_integer_no_oof _)
  | .err e => simp
  | .panicked => simp
  | .outOfFuel => exact absurd h₁ (checkNextChar_no_oof _ _ _)

/-- The default fuel of `next_value` (`3 * length + 1`) is never exhausted. -/
theorem nextValueF_fuel_sufficient : ∀ f : Nat,
    (∀ s, 3 * s.length + 1 ≤ f → BEReader.nextValueF f s ≠ .outOfFuel) ∧
    (∀ acc s, 3 * s.length + 2 ≤ f →
       BEReader.readListLoopF f acc s ≠ .outOfFuel) ∧
    (∀ last acc s, 3 * s.length + 2 ≤ f →
       BEReader.readDictLoopF f last acc s ≠ .outOfFuel) := by
  intro f
  induction f using Nat.strong_induction_on with
  | _ f ih =>
    refine ⟨?_, ?_, ?_⟩
    · intro s hf
      obtain ⟨g, rfl⟩ : ∃ g, f = g + 1 := ⟨f - 1, by omega⟩
      rw [BEReader.nextValueF]
      match hh : s.head? with
      | none => simp
      | some ch =>
        have hslen : 1 ≤ s.length := by
          match s, hh with
          | c :: s', _ => simp
        dsimp only
        by_cases hd : isDigitByte ch = true
        · rw [if_pos hd]
          match hX : BEReader.read_string s with
          | .ok a r => simp
          | .err e => simp
          | .panicked => simp
          | .outOfFuel => exact absurd hX (read_string_no_oof s)
        · rw [if_neg hd]
          by_cases hi : ch = 105
          · rw [if_pos hi]
            match hX : BEReader.read_integer s with
            | .ok a r => simp
            | .err e => simp
            | .panicked => simp
            | .outOfFuel => exact absurd hX (read_integer_no_oof s)
          · rw [if_neg hi]
            by_cases hl : ch = 108
            · rw [if_pos hl]
              obtain ⟨g', rfl⟩ : ∃ g', g = g' + 1 := ⟨g - 1, by omega⟩
              rw [BEReader.readListF]
              match h₁ : BEReader.checkNextChar 108 .MissingPrefixError s with
              | .ok _ s₁ =>
                dsimp only
                have hs := checkNextChar_ok 108 _ s s₁ _ h₁
                have : s.length = s₁.length + 1 := by rw [hs]; simp
                match hX : BEReader.readListLoopF g' [] s₁ with
                | .ok a r => simp
                | .err e => simp
                | .panicked => simp
                | .outOfFuel =>
                  exact absurd hX ((ih g' (by omega)).2.1 [] s₁ (by omega))
              | .err e => simp
              | .panicked => simp
              | .outOfFuel => exact absurd h₁ (checkNextChar_no_oof _ _ _)
            · rw [if_neg hl]
              by_cases hdd : ch = 100
              · rw [if_pos hdd]
                obtain ⟨g', rfl⟩ : ∃ g', g = g' + 1 := ⟨g - 1, by omega⟩
                rw [BEReader.readDictF]
                match h₁ : BEReader.checkNextChar 100 .MissingPrefixError s with
                | .ok _ s₁ =>
                  dsimp only
                  have hs := checkNextChar_ok 100 _ s s₁ _ h₁
                  have : s.length = s₁.length + 1 := by rw [hs]; simp
                  match hX : BEReader.readDictLoopF g' none [] s₁ with
                  | .ok a r => simp
                  | .err e => simp
                  | .panicked => simp
                  | .outOfFuel =>
                    exact absurd hX ((ih g' (by omega)).2.2 none [] s₁ (by omega))
                | .err e => simp
                | .panicked => simp
                | .outOfFuel => exact absurd h₁ (checkNextChar_no_oof _ _ _)
              · rw [if_neg hdd]; simp
    · intro acc s hf
      obtain ⟨g, rfl⟩ : ∃ g, f = g + 1 := ⟨f - 1, by omega⟩
      rw [BEReader.readListLoopF]
      match hh : s.head? with
      | none => simp
      | some ch =>
        have hslen : 1 ≤ s.length := by
          match s, hh with
          | c :: s', _ => simp
        dsimp only
        by_cases he : ch = 101
        · rw [if_pos he]; simp
        · rw [if_neg he]
          match h₁ : BEReader.nextValueF g s with
          | .ok (some v) rest₁ =>
            dsimp only
            obtain ⟨t, hsplit, hne⟩ := (nextValue_split g).1 s _ rest₁ h₁
            have ht := hne (by simp)
            have hlen : rest₁.length + 1 ≤ s.length := by
              rw [hsplit]
              simp only [List.length_append]
              match t, ht with
              | x :: t', _ => simp; omega
            match hX : BEReader.readListLoopF g (acc ++ [v]) rest₁ with
            | .ok a r => simp
            | .err e => simp
            | .panicked => simp
            | .outOfFuel =>
              exact absurd hX ((ih g (by omega)).2.1 _ rest₁ (by omega))
          | .ok none rest₁ => simp
          | .err e => simp
          | .panicked => simp
          | .outOfFuel =>
            exact absurd h₁ ((ih g (by omega)).1 s (by omega))
    · intro last acc s hf
      obtain ⟨g, rfl⟩ : ∃ g, f = g + 1 := ⟨f - 1, by omega⟩
      rw [BEReader.readDictLoopF]
      match hh : s.head? with
      | none => simp
      | some ch =>
        have hslen : 1 ≤ s.length := by
          match s, hh with
          | c :: s', _ => simp
        dsimp only
        by_cases he : ch = 101
        · rw [if_pos he]; simp
        · rw [if_neg he]
          match h₁ : BEReader.nextValueF g s with
          | .ok (some (.BEString key)) s₁ =>
            dsimp only
            obtain ⟨t, hsplit, hne⟩ := (nextValue_split g).1 s _ s₁ h₁
            have ht := hne (by simp)
            have hlen : s₁.length + 1 ≤ s.length := by
              rw [hsplit]
              simp only [List.length_append]
              match t, ht with
              | x :: t', _ => simp; omega
            match hh₂ : s₁.head? with
            | none => simp
            | some ch₂ =>
              dsimp only
              by_cases he₂ : ch₂ = 101
              · rw [if_pos he₂]; simp
              · rw [if_neg he₂]
                match h₂ : BEReader.nextValueF g s₁ with
                | .ok (some value) s₂ =>
                  dsimp only
                  obtain ⟨t₂, hsplit₂, hne₂⟩ := (nextValue_split g).1 s₁ _ s₂ h₂
                  have ht₂ := hne₂ (by simp)
                  have hlen₂ : s₂.length + 1 ≤ s₁.length := by
                    rw [hsplit₂]
                    simp only [List.length_append]
                    match t₂, ht₂ with
                    | x :: t₂', _ => simp; omega
                  match last with
                  | none =>
                    dsimp only
                    match hX : BEReader.readDictLoopF g (some key)
                        (acc ++ [(key, value)]) s₂ with
                    | .ok a r => simp
                    | .err e => simp
                    | .panicked => simp
                    | .outOfFuel =>
                      exact absurd hX ((ih g (by omega)).2.2 _ _ s₂ (by omega))
                  | some lk =>
                    dsimp only
                    by_cases hle : leB key lk = true
                    · rw [if_pos hle]; simp
                    · rw [if_neg hle]
                      match hX : BEReader.readDictLoopF g (some key)
                          (acc ++ [(key, value)]) s₂ with
                      | .ok a r => simp
                      | .err e => simp
                      | .panicked => simp
                      | .outOfFuel =>
                        exact absurd hX ((ih g (by omega)).2.2 _ _ s₂ (by omega))
                | .ok none s₂ => simp
                | .err e => simp
                | .panicked => simp
                | .outOfFuel =>
                  exact absurd h₂ ((ih g (by omega)).1 s₁ (by omega))
          | .ok (some (.BEInteger i)) s₁ => simp
          | .ok (some (.BEList l)) s₁ => simp
          | .ok (some (.BEDict d)) s₁ => simp
          | .ok none s₁ => simp
          | .err e => simp
          | .panicked => simp
          | .outOfFuel =>
            exact absurd h₁ ((ih g (by omega)).1 s (by omega))


/-- Adding fuel does not change a result that was not out of fuel. -/
theorem nextValue_mono : ∀ f : Nat,
    (∀ s, BEReader.nextValueF f s ≠ .outOfFuel →
       BEReader.nextValueF (f + 1) s = BEReader.nextValueF f s) ∧
    (∀ acc s, BEReader.readListLoopF f acc s ≠ .outOfFuel →
       BEReader.readListLoopF (f + 1) acc s = BEReader.readListLoopF f acc s) ∧
    (∀ last acc s, BEReader.readDictLoopF f last acc s ≠ .outOfFuel →
       BEReader.readDictLoopF (f + 1) last acc s =
         BEReader.readDictLoopF f last acc s) := by
  intro f
  induction f using Nat.strong_induction_on with
  | _ f ih =>
    refine ⟨?_, ?_, ?_⟩
    · intro s hne
      cases f with
      | zero => exact absurd (by rw [BEReader.nextValueF]) hne
      | succ g =>
        rw [BEReader.nextValueF] at hne
        rw [BEReader.nextValueF, BEReader.nextValueF]
        match hh : s.head? with
        | none => simp only [hh]
        | some ch =>
          simp only [hh] at hne ⊢
          by_cases hd : isDigitByte ch = true
          · rw [if_pos hd, if_pos hd]
          · rw [if_neg hd] at hne
            rw [if_neg hd, if_neg hd]
            by_cases hi : ch = 105
            · rw [if_pos hi, if_pos hi]
            · rw [if_neg hi] at hne
              rw [if_neg hi, if_neg hi]
              by_cases hl : ch = 108
              · rw [if_pos hl] at hne
                rw [if_pos hl, if_pos hl]
                have hlne : BEReader.readListF g s ≠ .outOfFuel := by
                  intro hcon
                  rw [hcon] at hne
                  simp at hne
                have hlmono : BEReader.readListF (g + 1) s =
                    BEReader.readListF g s := by
                  cases g with
                  | zero => exact absurd (by rw [BEReader.readListF]) hlne
                  | succ g' =>
                    rw [BEReader.readListF] at hlne
                    rw [BEReader.readListF, BEReader.readListF]
                    match h₁ : BEReader.checkNextChar 108 .MissingPrefixError s with
                    | .ok u s₁ =>
                      simp only [h₁] at hlne ⊢
                      exact (ih g' (by omega)).2.1 [] s₁ hlne
                    | .err e => simp only [h₁]
                    | .panicked => simp only [h₁]
                    | .outOfFuel =>
                      simp only [h₁] at hlne
                      exact absurd rfl hlne
                rw [hlmono]
              · rw [if_neg hl] at hne
                rw [if_neg hl, if_neg hl]
                by_cases hdd : ch = 100
                · rw [if_pos hdd] at hne
                  rw [if_pos hdd, if_pos hdd]
                  have hdne : BEReader.readDictF g s ≠ .outOfFuel := by
                    intro hcon
                    rw [hcon] at hne
                    simp at hne
                  have hdmono : BEReader.readDictF (g + 1) s =
                      BEReader.readDictF g s := by
                    cases g with
                    | zero => exact absurd (by rw [BEReader.readDictF]) hdne
                    | succ g' =>
                      rw [BEReader.readDictF] at hdne
                      rw [BEReader.readDictF, BEReader.readDictF]
                      match h₁ : BEReader.checkNextChar 100 .MissingPrefixError s with
                      | .ok u s₁ =>
                        simp only [h₁] at hdne ⊢
                        exact (ih g' (by omega)).2.2 none [] s₁ hdne
                      | .err e => simp only [h₁]
                      | .panicked => simp only [h₁]
                      | .outOfFuel =>
                        simp only [h₁] at hdne
                        exact absurd rfl hdne
                  rw [hdmono]
                · rw [if_neg hdd, if_neg hdd]
    · intro acc s hne
      cases f with
      | zero => exact absurd (by rw [BEReader.readListLoopF]) hne
      | succ g =>
        rw [BEReader.readListLoopF] at hne
        rw [BEReader.readListLoopF, BEReader.readListLoopF]
        match hh : s.head? with
        | none => simp only [hh]
        | some ch =>
          simp only [hh] at hne ⊢
          by_cases he : ch = 101
          · rw [if_pos he, if_pos he]
          · rw [if_neg he] at hne
            rw [if_neg he, if_neg he]
            have hnmono := (ih g (by omega)).1 s
            match h₁ : BEReader.nextValueF g s with
            | .ok (some v) rest₁ =>
              rw [hnmono (by rw [h₁]; simp), h₁]
              dsimp only
              simp only [h₁] at hne
              exact (ih g (by omega)).2.1 (acc ++ [v]) rest₁ hne
            | .ok none rest₁ => rw [hnmono (by rw [h₁]; simp), h₁]
            | .err e => rw [hnmono (by rw [h₁]; simp), h₁]
            | .panicked => rw [hnmono (by rw [h₁]; simp), h₁]
            | .outOfFuel => simp only [h₁] at hne; exact absurd rfl hne
    · intro last acc s hne
      cases f with
      | zero => exact absurd (by rw [BEReader.readDictLoopF]) hne
      | succ g =>
        rw [BEReader.readDictLoopF] at hne
        rw [BEReader.readDictLoopF, BEReader.readDictLoopF]
        match hh : s.head? with
        | none => simp only [hh]
        | some ch =>
          simp only [hh] at hne ⊢
          by_cases he : ch = 101
          · rw [if_pos he, if_pos he]
          · rw [if_neg he] at hne
            rw [if_neg he, if_neg he]
            have hnmono := (ih g (by omega)).1 s
            match h₁ : BEReader.nextValueF g s with
            | .ok (some (.BEString key)) s₁ =>
              rw [hnmono (by rw [h₁]; simp), h₁]
              dsimp only
              simp only [h₁] at hne
              match hh₂ : s₁.head? with
              | none => simp only [hh₂]
              | some ch₂ =>
                simp only [hh₂] at hne ⊢
                by_cases he₂ : ch₂ = 101
                · rw [if_pos he₂, if_pos he₂]
                · rw [if_neg he₂] at hne
                  rw [if_neg he₂, if_neg he₂]
                  have hnmono₂ := (ih g (by omega)).1 s₁
                  match h₂ : BEReader.nextValueF g s₁ with
                  | .ok (some value) s₂ =>
                    rw [hnmono₂ (by rw [h₂]; simp), h₂]
                    dsimp only
                    simp only [h₂] at hne
                    match last with
                    | none =>
                      dsimp only at hne ⊢
                      exact (ih g (by omega)).2.2 (some key)
                        (acc ++ [(key, value)]) s₂ hne
                    | some lk =>
                      dsimp only at hne ⊢
                      by_cases hle : leB key lk = true
                      · rw [if_pos hle, if_pos hle]
                      · rw [if_neg hle] at hne
                        rw [if_neg hle, if_neg hle]
                        exact (ih g (by omega)).2.2 (some key)
                          (acc ++ [(key, value)]) s₂ hne
                  | .ok none s₂ => rw [hnmono₂ (by rw [h₂]; simp), h₂]
                  | .err e => rw [hnmono₂ (by rw [h₂]; simp), h₂]
                  | .panicked => rw [hnmono₂ (by rw [h₂]; simp), h₂]
                  | .outOfFuel => simp only [h₂] at hne; exact absurd rfl hne
            | .ok (some (.BEInteger i)) s₁ => rw [hnmono (by rw [h₁]; simp), h₁]
            | .ok (some (.BEList l)) s₁ => rw [hnmono (by rw [h₁]; simp), h₁]
            | .ok (some (.BEDict d)) s₁ => rw [hnmono (by rw [h₁]; simp), h₁]
            | .ok none s₁ => rw [hnmono (by rw [h₁]; simp), h₁]
            | .err e => rw [hnmono (by rw [h₁]; simp), h₁]
            | .panicked => rw [hnmono (by rw [h₁]; simp), h₁]
            | .outOfFuel => simp only [h₁] at hne; exact absurd rfl hne

theorem nextValue_mono_le (f f' : Nat) (hle : f ≤ f') (s : Bytes)
    (hne : BEReader.nextValueF f s ≠ .outOfFuel) :
    BEReader.nextValueF f' s = BEReader.nextValueF f s := by
  induction f' with
  | zero =>
    have hf : f = 0 := by omega
    rw [hf]
  | succ f' ihf =>
    by_cases hf : f = f' + 1
    · rw [hf]
    · have h1 := ihf (by omega)
      rw [← h1] at hne
      rw [(nextValue_mono f').1 s hne, h1]

/-- A successful parse at some fuel is reproduced at every fuel that does not
run out. -/
theorem nextValue_stab (f : Nat) (s : Bytes) (o : Option BEValue) (rest : Bytes)
    (h : BEReader.nextValueF f s = .ok o rest) (g : Nat) :
    BEReader.nextValueF g s = .outOfFuel ∨
      BEReader.nextValueF g s = .ok o rest := by
  by_cases hoof : BEReader.nextValueF g s = .outOfFuel
  · exact Or.inl hoof
  · right
    rcases Nat.le_total f g with hle | hle
    · rw [nextValue_mono_le f g hle s (by rw [h]; simp)]
      exact h
    · rw [← nextValue_mono_le g f hle s hoof]
      exact h

/-! ### Locality: a successful parse never inspects the returned remainder -/

theorem rawIntLoop_ext : ∀ (t : Bytes) (idx : Nat) (lz : Bool)
    (buf buf' : Bytes) (c : Nat) (X : Bytes),
    BEReader.rawIntLoop idx lz buf (t ++ c :: X) = .ok buf' (c :: X) →
    ∀ Y, BEReader.rawIntLoop idx lz buf (t ++ c :: Y) = .ok buf' (c :: Y) := by
  intro t
  induction t with
  | nil =>
    intro idx lz buf buf' c X h Y
    rw [List.nil_append] at h
    rw [List.nil_append, BEReader.rawIntLoop]
    rw [BEReader.rawIntLoop] at h
    by_cases hd : isDigitByte c = true
    · rw [if_pos hd] at h
      by_cases hlz : (idx > 0 && lz) = true
      · rw [if_pos hlz] at h; exact absurd h (by simp)
      · rw [if_neg hlz] at h
        by_cases hix : 100 ≤ idx
        · rw [if_pos hix] at h; exact absurd h (by simp)
        · rw [if_neg hix] at h
          obtain ⟨t₂, c₂, r₂, hsp, _, _⟩ := rawIntLoop_split _ _ _ _ _ _ h
          have := congrArg List.length hsp
          simp only [List.length_append, List.length_cons] at this
          omega
    · rw [if_neg hd] at h
      rw [if_neg hd]
      simp only [PResult.ok.injEq] at h
      rw [h.1]
  | cons d t' ih =>
    intro idx lz buf buf' c X h Y
    rw [List.cons_append] at h
    rw [List.cons_append, BEReader.rawIntLoop]
    rw [BEReader.rawIntLoop] at h
    by_cases hd : isDigitByte d = true
    · rw [if_pos hd] at h
      rw [if_pos hd]
      by_cases hlz : (idx > 0 && lz) = true
      · rw [if_pos hlz] at h; exact absurd h (by simp)
      · rw [if_neg hlz] at h
        rw [if_neg hlz]
        by_cases hix : 100 ≤ idx
        · rw [if_pos hix] at h; exact absurd h (by simp)
        · rw [if_neg hix] at h
          rw [if_neg hix]
          exact ih _ _ _ _ _ _ h Y
    · rw [if_neg hd] at h
      simp only [PResult.ok.injEq] at h
      have := congrArg List.length h.2
      simp only [List.length_cons, List.length_append] at this
      omega

theorem strLoop_ext (t : Bytes) (togo idx : Nat) (acc buf X : Bytes)
    (h : BEReader.strLoop togo idx acc (t ++ X) = .ok buf X) :
    ∀ Y, BEReader.strLoop togo idx acc (t ++ Y) = .ok buf Y := by
  intro Y
  obtain ⟨t₂, hsp, hlen⟩ := strLoop_split togo idx acc (t ++ X) buf X h
  have hl : t.length = t₂.length := by
    have := congrArg List.length hsp
    simp only [List.length_append] at this
    omega
  obtain ⟨heq, -⟩ := List.append_inj hsp hl
  rw [← heq] at hlen
  cases togo with
  | zero =>
    have ht : t = [] := List.length_eq_zero.1 hlen
    subst ht
    rw [List.nil_append] at h
    rw [List.nil_append, BEReader.strLoop]
    rw [BEReader.strLoop] at h
    simp only [PResult.ok.injEq] at h
    rw [h.1]
  | succ n =>
    rw [← hlen] at h ⊢
    have hb : idx + t.length ≤ 100000 := by
      have := (strLoop_ok_inv t.length idx acc (t ++ X) buf X h).2 (by omega)
      omega
    rw [strLoop_ok t idx acc X hb] at h
    simp only [PResult.ok.injEq] at h
    rw [strLoop_ok t idx acc Y hb, h.1]

theorem read_raw_integer_ext (t : Bytes) (c : Nat) (X : Bytes) (v : Int)
    (h : BEReader.read_raw_integer (t ++ c :: X) = .ok v (c :: X)) (Y : Bytes) :
    BEReader.read_raw_integer (t ++ c :: Y) = .ok v (c :: Y) := by
  cases t with
  | nil =>
    exfalso
    rw [List.nil_append] at h
    rw [BEReader.read_raw_integer] at h
    match h₁ : BEReader.rawIntLoop 0 false []
        (if decide ((c :: X).head? = some 45) = true
         then (c :: X).tail else (c :: X)) with
    | .ok buf rest' =>
      simp only [h₁] at h
      by_cases h0 : buf.length = 0
      · rw [if_pos h0] at h; exact absurd h (by simp)
      · rw [if_neg h0] at h
        by_cases hov : i64Max < natOfDigits buf
        · rw [if_pos hov] at h; exact absurd h (by simp)
        · rw [if_neg hov] at h
          by_cases hz : (decide (natOfDigits buf = 0) &&
              decide ((c :: X).head? = some 45)) = true
          · rw [if_pos hz] at h; exact absurd h (by simp)
          · rw [if_neg hz] at h
            simp only [PResult.ok.injEq] at h
            obtain ⟨t₂, c₂, r₂, hsp, hrest, hcd⟩ :=
              rawIntLoop_split _ _ _ _ _ _ h₁
            by_cases h45 : decide ((c :: X).head? = some 45) = true
            · rw [if_pos h45] at hsp
              simp only [List.tail_cons] at hsp
              rw [h.2] at hsp
              have := congrArg List.length hsp
              simp only [List.length_append, List.length_cons] at this
              omega
            · rw [if_neg h45] at h₁
              rw [h.2] at hrest
              simp only [List.cons.injEq] at hrest
              have hcd' : isDigitByte c = false := by rw [hrest.1]; exact hcd
              rw [rawIntLoop_break _ _ _ _ _ hcd'] at h₁
              simp only [PResult.ok.injEq] at h₁
              rw [← h₁.1] at h0
              simp at h0
    | .err e => simp only [h₁] at h; exact absurd h (by simp)
    | .panicked => simp only [h₁] at h; exact absurd h (by simp)
    | .outOfFuel => simp only [h₁] at h; exact absurd h (by simp)
  | cons d t' =>
    rw [List.cons_append] at h
    rw [List.cons_append, BEReader.read_raw_integer]
    rw [BEReader.read_raw_integer] at h
    by_cases hd45 : d = 45
    · subst hd45
      have h45x :
          decide ((45 :: (t' ++ c :: X)).head? = some 45) = true := by simp
      have h45y :
          decide ((45 :: (t' ++ c :: Y)).head? = some 45) = true := by simp
      simp only [h45x, Bool.and_true, List.tail_cons, if_true] at h
      simp only [h45y, Bool.and_true, List.tail_cons, if_true]
      match h₁ : BEReader.rawIntLoop 0 false [] (t' ++ c :: X) with
      | .ok buf rest' =>
        simp only [h₁] at h
        by_cases h0 : buf.length = 0
        · rw [if_pos h0] at h; exact absurd h (by simp)
        · rw [if_neg h0] at h
          by_cases hov : i64Max < natOfDigits buf
          · rw [if_pos hov] at h; exact absurd h (by simp)
          · rw [if_neg hov] at h
            by_cases hz : decide (natOfDigits buf = 0) = true
            · rw [if_pos hz] at h; exact absurd h (by simp)
            · rw [if_neg hz] at h
              simp only [PResult.ok.injEq] at h
              rw [h.2] at h₁
              simp only [rawIntLoop_ext t' 0 false [] buf c X h₁ Y]
              rw [if_neg h0, if_neg hov, if_neg hz, h.1]
      | .err e => simp only [h₁] at h; exact absurd h (by simp)
      | .panicked => simp only [h₁] at h; exact absurd h (by simp)
      | .outOfFuel => simp only [h₁] at h; exact absurd h (by simp)
    · have h45x :
          decide ((d :: (t' ++ c :: X)).head? = some 45) = false := by
        simp [hd45]
      have h45y :
          decide ((d :: (t' ++ c :: Y)).head? = some 45) = false := by
        simp [hd45]
      simp only [h45x, Bool.and_false, Bool.false_eq_true, if_false] at h
      simp only [h45y, Bool.and_false, Bool.false_eq_true, if_false]
      match h₁ : BEReader.rawIntLoop 0 false [] (d :: (t' ++ c :: X)) with
      | .ok buf rest' =>
        simp only [h₁] at h
        by_cases h0 : buf.length = 0
        · rw [if_pos h0] at h; exact absurd h (by simp)
        · rw [if_neg h0] at h
          by_cases hov : i64Max < natOfDigits buf
          · rw [if_pos hov] at h; exact absurd h (by simp)
          · rw [if_neg hov] at h
            simp only [PResult.ok.injEq] at h
            rw [h.2] at h₁
            have hExt : BEReader.rawIntLoop 0 false [] (d :: (t' ++ c :: Y)) =
                .ok buf (c :: Y) := by
              have h₁' : BEReader.rawIntLoop 0 false [] ((d :: t') ++ c :: X) =
                  .ok buf (c :: X) := by rw [List.cons_append]; exact h₁
              have h₂' := rawIntLoop_ext (d :: t') 0 false [] buf c X h₁' Y
              rw [List.cons_append] at h₂'
              exact h₂'
            simp only [hExt]
            rw [if_neg h0, if_neg hov, h.1]
      | .err e => simp only [h₁] at h; exact absurd h (by simp)
      | .panicked => simp only [h₁] at h; exact absurd h (by simp)
      | .outOfFuel => simp only [h₁] at h; exact absurd h (by simp)

theorem read_string_ext (t X : Bytes) (v : BEValue)
    (h : BEReader.read_string (t ++ X) = .ok v X) (Y : Bytes) :
    BEReader.read_string (t ++ Y) = .ok v Y := by
  rw [BEReader.read_string] at h
  match h₁ : BEReader.read_raw_integer (t ++ X) with
  | .ok len s₁ =>
    simp only [h₁] at h
    by_cases hneg : len < 0
    · rw [if_pos hneg] at h; exact absurd h (by simp)
    · rw [if_neg hneg] at h
      match h₂ : BEReader.checkNextChar 58 .MissingSeparatorError s₁ with
      | .ok u s₂ =>
        simp only [h₂] at h
        match h₃ : BEReader.strLoop len.toNat 0 [] s₂ with
        | .ok buf s₃ =>
          simp only [h₃] at h
          simp only [PResult.ok.injEq] at h
          have hs₁ : s₁ = 58 :: s₂ := checkNextChar_ok 58 _ s₁ s₂ _ h₂
          obtain ⟨t₃, hs₂, hlen₃⟩ := strLoop_split len.toNat 0 [] s₂ buf s₃ h₃
          rw [h.2] at hs₂
          obtain ⟨t₁, c, r', hsp, hrest, -⟩ :=
            read_raw_integer_split (t ++ X) len s₁ h₁
          have ht : t = t₁ ++ 58 :: t₃ := by
            have heq : t ++ X = (t₁ ++ 58 :: t₃) ++ X := by
              rw [hsp, hs₁, hs₂]; simp
            have hl : t.length = (t₁ ++ 58 :: t₃).length := by
              have := congrArg List.length heq
              simp only [List.length_append, List.length_cons] at this
              simp only [List.length_append, List.length_cons]
              omega
            exact (List.append_inj heq hl).1
          have hraw : BEReader.read_raw_integer (t₁ ++ 58 :: (t₃ ++ X)) =
              .ok len (58 :: (t₃ ++ X)) := by
            rw [show t₁ ++ 58 :: (t₃ ++ X) = t ++ X from by rw [ht]; simp,
              show (58 : Nat) :: (t₃ ++ X) = s₁ from by rw [hs₁, hs₂], h₁]
          have hrawY := read_raw_integer_ext t₁ 58 (t₃ ++ X) len hraw (t₃ ++ Y)
          have hstr : BEReader.strLoop len.toNat 0 [] (t₃ ++ X) = .ok buf X := by
            rw [← hs₂, h₃, h.2]
          have hstrY := strLoop_ext t₃ len.toNat 0 [] buf X hstr Y
          rw [show t ++ Y = t₁ ++ 58 :: (t₃ ++ Y) from by rw [ht]; simp,
            BEReader.read_string]
          simp only [hrawY]
          rw [if_neg hneg]
          rw [show BEReader.checkNextChar 58 .MissingSeparatorError
              (58 :: (t₃ ++ Y)) = .ok () (t₃ ++ Y) from by
            rw [BEReader.checkNextChar]; simp]
          simp only [hstrY]
          rw [h.1]
        | .err e => simp only [h₃] at h; exact absurd h (by simp)
        | .panicked => simp only [h₃] at h; exact absurd h (by simp)
        | .outOfFuel => simp only [h₃] at h; exact absurd h (by simp)
      | .err e => simp only [h₂] at h; exact absurd h (by simp)
      | .panicked => simp only [h₂] at h; exact absurd h (by simp)
      | .outOfFuel => simp only [h₂] at h; exact absurd h (by simp)
  | .err e => simp only [h₁] at h; exact absurd h (by simp)
  | .panicked => simp only [h₁] at h; exact absurd h (by simp)
  | .outOfFuel => simp only [h₁] at h; exact absurd h (by simp)

theorem read_integer_ext (t X : Bytes) (v : BEValue)
    (h : BEReader.read_integer (t ++ X) = .ok v X) (Y : Bytes) :
    BEReader.read_integer (t ++ Y) = .ok v Y := by
  rw [BEReader.read_integer] at h
  match h₁ : BEReader.checkNextChar 105 .MissingPrefixError (t ++ X) with
  | .ok u s₁ =>
    simp only [h₁] at h
    match h₂ : BEReader.read_raw_integer s₁ with
    | .ok val s₂ =>
      simp only [h₂] at h
      match h₃ : BEReader.checkNextChar 101 .MissingSuffixError s₂ with
      | .ok u₂ s₃ =>
        simp only [h₃] at h
        simp only [PResult.ok.injEq] at h
        have hs : t ++ X = 105 :: s₁ := checkNextChar_ok 105 _ _ s₁ _ h₁
        have hs₂ : s₂ = 101 :: s₃ := checkNextChar_ok 101 _ s₂ s₃ _ h₃
        obtain ⟨t₂, c, r', hsp, hrest, -⟩ := read_raw_integer_split s₁ val s₂ h₂
        -- t = 105 :: t₂ ++ [101]
        have ht : t = 105 :: (t₂ ++ [101]) := by
          have heq : t ++ X = (105 :: (t₂ ++ [101])) ++ X := by
            rw [hs, hsp, hs₂, h.2]; simp
          have hl : t.length = (105 :: (t₂ ++ [101])).length := by
            have := congrArg List.length heq
            simp only [List.length_append, List.length_cons,
              List.length_singleton] at this
            simp only [List.length_append, List.length_cons,
              List.length_singleton]
            omega
          exact (List.append_inj heq hl).1
        have hraw : BEReader.read_raw_integer (t₂ ++ 101 :: X) =
            .ok val (101 :: X) := by
          rw [show t₂ ++ 101 :: X = s₁ from ?_, h₂, hs₂, h.2]
          have : (105 : Nat) :: (t₂ ++ 101 :: X) = 105 :: s₁ := by
            rw [← hs, ht]; simp
          simpa using this
        have hrawY := read_raw_integer_ext t₂ 101 X val hraw Y
        rw [show t ++ Y = 105 :: (t₂ ++ 101 :: Y) from by rw [ht]; simp,
          BEReader.read_integer]
        rw [show BEReader.checkNextChar 105 .MissingPrefixError
            (105 :: (t₂ ++ 101 :: Y)) = .ok () (t₂ ++ 101 :: Y) from by
          rw [BEReader.checkNextChar]; simp]
        simp only [hrawY]
        rw [show BEReader.checkNextChar 101 .MissingSuffixError
            (101 :: Y) = .ok () Y from by
          rw [BEReader.checkNextChar]; simp]
        rw [h.1]
      | .err e => simp only [h₃] at h; exact absurd h (by simp)
      | .panicked => simp only [h₃] at h; exact absurd h (by simp)
      | .outOfFuel => simp only [h₃] at h; exact absurd h (by simp)
    | .err e => simp only [h₂] at h; exact absurd h (by simp)
    | .panicked => simp only [h₂] at h; exact absurd h (by simp)
    | .outOfFuel => simp only [h₂] at h; exact absurd h (by simp)
  | .err e => simp only [h₁] at h; exact absurd h (by simp)
  | .panicked => simp only [h₁] at h; exact absurd h (by simp)
  | .outOfFuel => simp only [h₁] at h; exact absurd h (by simp)

theorem append_cancel_of_eq {α : Type} (t t₀ X : List α)
    (h : t ++ X = t₀ ++ X) : t = t₀ := by
  have hl : t.length = t₀.length := by
    have := congrArg List.length h
    simp only [List.length_append] at this
    omega
  exact (List.append_inj h hl).1

/-- A successful value parse never inspects the bytes it returns as the
remainder: the remainder can be replaced arbitrarily. -/
theorem nextValue_ext : ∀ f : Nat,
    (∀ t X v, BEReader.nextValueF f (t ++ X) = .ok (some v) X →
       ∀ Y, BEReader.nextValueF f (t ++ Y) = .ok (some v) Y) ∧
    (∀ acc t X r, BEReader.readListLoopF f acc (t ++ X) = .ok r X →
       ∀ Y, BEReader.readListLoopF f acc (t ++ Y) = .ok r Y) ∧
    (∀ last acc t X r, BEReader.readDictLoopF f last acc (t ++ X) = .ok r X →
       ∀ Y, BEReader.readDictLoopF f last acc (t ++ Y) = .ok r Y) := by
  intro f
  induction f using Nat.strong_induction_on with
  | _ f ih =>
    refine ⟨?_, ?_, ?_⟩
    · intro t X v h Y
      cases f with
      | zero => rw [BEReader.nextValueF] at h; exact absurd h (by simp)
      | succ g =>
        have ht : t ≠ [] := by
          obtain ⟨t₀, hsp, hne⟩ :=
            (nextValue_split (g + 1)).1 (t ++ X) (some v) X h
          rw [append_cancel_of_eq t t₀ X hsp]
          exact hne (by simp)
        cases t with
        | nil => exact absurd rfl ht
        | cons d t' =>
          rw [List.cons_append] at h
          rw [List.cons_append, BEReader.nextValueF]
          rw [BEReader.nextValueF] at h
          simp only [List.head?_cons] at h ⊢
          by_cases hd : isDigitByte d = true
          · rw [if_pos hd] at h
            rw [if_pos hd]
            match h₁ : BEReader.read_string (d :: (t' ++ X)) with
            | .ok v₀ rest₀ =>
              simp only [h₁] at h
              simp only [PResult.ok.injEq, Option.some.injEq] at h
              have h₁' : BEReader.read_string ((d :: t') ++ X) = .ok v X := by
                rw [List.cons_append, h₁, h.1, h.2]
              have hy := read_string_ext (d :: t') X v h₁' Y
              rw [List.cons_append] at hy
              simp only [hy]
            | .err e => simp only [h₁] at h; exact absurd h (by simp)
            | .panicked => simp only [h₁] at h; exact absurd h (by simp)
            | .outOfFuel => simp only [h₁] at h; exact absurd h (by simp)
          · rw [if_neg hd] at h
            rw [if_neg hd]
            by_cases hi : d = 105
            · rw [if_pos hi] at h
              rw [if_pos hi]
              match h₁ : BEReader.read_integer (d :: (t' ++ X)) with
              | .ok v₀ rest₀ =>
                simp only [h₁] at h
                simp only [PResult.ok.injEq, Option.some.injEq] at h
                have h₁' : BEReader.read_integer ((d :: t') ++ X) = .ok v X := by
                  rw [List.cons_append, h₁, h.1, h.2]
                have hy := read_integer_ext (d :: t') X v h₁' Y
                rw [List.cons_append] at hy
                simp only [hy]
              | .err e => simp only [h₁] at h; exact absurd h (by simp)
              | .panicked => simp only [h₁] at h; exact absurd h (by simp)
              | .outOfFuel => simp only [h₁] at h; exact absurd h (by simp)
            · rw [if_neg hi] at h
              rw [if_neg hi]
              by_cases hl : d = 108
              · rw [if_pos hl] at h
                rw [if_pos hl]
                subst hl
                cases g with
                | zero =>
                  rw [BEReader.readListF] at h
                  exact absurd h (by simp)
                | succ g' =>
                  rw [BEReader.readListF] at h
                  rw [BEReader.readListF]
                  rw [show BEReader.checkNextChar 108 .MissingPrefixError
                      (108 :: (t' ++ X)) = .ok () (t' ++ X) from by
                    rw [BEReader.checkNextChar]; simp] at h
                  rw [show BEReader.checkNextChar 108 .MissingPrefixError
                      (108 :: (t' ++ Y)) = .ok () (t' ++ Y) from by
                    rw [BEReader.checkNextChar]; simp]
                  dsimp only at h ⊢
                  match h₁ : BEReader.readListLoopF g' [] (t' ++ X) with
                  | .ok r₀ rest₀ =>
                    simp only [h₁] at h
                    simp only [PResult.ok.injEq, Option.some.injEq] at h
                    have h₁' : BEReader.readListLoopF g' [] (t' ++ X) =
                        .ok v X := by rw [h₁, h.1, h.2]
                    have hy := (ih g' (by omega)).2.1 [] t' X v h₁' Y
                    simp only [hy]
                  | .err e => simp only [h₁] at h; exact absurd h (by simp)
                  | .panicked => simp only [h₁] at h; exact absurd h (by simp)
                  | .outOfFuel => simp only [h₁] at h; exact absurd h (by simp)
              · rw [if_neg hl] at h
                rw [if_neg hl]
                by_cases hdd : d = 100
                · rw [if_pos hdd] at h
                  rw [if_pos hdd]
                  subst hdd
                  cases g with
                  | zero =>
                    rw [BEReader.readDictF] at h
                    exact absurd h (by simp)
                  | succ g' =>
                    rw [BEReader.readDictF] at h
                    rw [BEReader.readDictF]
                    rw [show BEReader.checkNextChar 100 .MissingPrefixError
                        (100 :: (t' ++ X)) = .ok () (t' ++ X) from by
                      rw [BEReader.checkNextChar]; simp] at h
                    rw [show BEReader.checkNextChar 100 .MissingPrefixError
                        (100 :: (t' ++ Y)) = .ok () (t' ++ Y) from by
                      rw [BEReader.checkNextChar]; simp]
                    dsimp only at h ⊢
                    match h₁ : BEReader.readDictLoopF g' none [] (t' ++ X) with
                    | .ok r₀ rest₀ =>
                      simp only [h₁] at h
                      simp only [PResult.ok.injEq, Option.some.injEq] at h
                      have h₁' : BEReader.readDictLoopF g' none [] (t' ++ X) =
                          .ok v X := by rw [h₁, h.1, h.2]
                      have hy := (ih g' (by omega)).2.2 none [] t' X v h₁' Y
                      simp only [hy]
                    | .err e => simp only [h₁] at h; exact absurd h (by simp)
                    | .panicked => simp only [h₁] at h; exact absurd h (by simp)
                    | .outOfFuel =>
                      simp only [h₁] at h; exact absurd h (by simp)
                · rw [if_neg hdd] at h
                  exact absurd h (by simp)
    · intro acc t X r h Y
      cases f with
      | zero => rw [BEReader.readListLoopF] at h; exact absurd h (by simp)
      | succ g =>
        have ht : t ≠ [] := by
          obtain ⟨t₀, hsp, hne⟩ :=
            (nextValue_split (g + 1)).2.1 acc (t ++ X) r X h
          rw [append_cancel_of_eq t t₀ X hsp]
          exact hne
        cases t with
        | nil => exact absurd rfl ht
        | cons d t' =>
          rw [List.cons_append] at h
          rw [List.cons_append, BEReader.readListLoopF]
          rw [BEReader.readListLoopF] at h
          simp only [List.head?_cons] at h ⊢
          by_cases he : d = 101
          · rw [if_pos he] at h
            rw [if_pos he]
            simp only [List.tail_cons, PResult.ok.injEq] at h ⊢
            have ht' : t' = [] := by
              have := congrArg List.length h.2
              simp only [List.length_append] at this
              exact List.length_eq_zero.1 (by omega)
            subst ht'
            simp only [List.nil_append] at h ⊢
            exact ⟨h.1, trivial⟩
          · rw [if_neg he] at h
            rw [if_neg he]
            match h₁ : BEReader.nextValueF g (d :: (t' ++ X)) with
            | .ok (some v₁) rest₁ =>
              simp only [h₁] at h
              obtain ⟨w₂, hr₁, -⟩ :=
                (nextValue_split g).2.1 (acc ++ [v₁]) rest₁ r X h
              obtain ⟨w, hw, -⟩ := (nextValue_split g).1 (d :: (t' ++ X))
                (some v₁) rest₁ h₁
              rw [hr₁] at hw h₁
              have hdt : d :: t' = w ++ w₂ := by
                apply append_cancel_of_eq _ _ X
                rw [List.cons_append, hw]
                simp
              have hnY : BEReader.nextValueF g (d :: (t' ++ Y)) =
                  .ok (some v₁) (w₂ ++ Y) := by
                have hx : BEReader.nextValueF g (w ++ (w₂ ++ X)) =
                    .ok (some v₁) (w₂ ++ X) := by rw [← hw]; exact h₁
                have hy := (ih g (by omega)).1 w (w₂ ++ X) v₁ hx (w₂ ++ Y)
                rw [show d :: (t' ++ Y) = w ++ (w₂ ++ Y) from by
                  rw [← List.cons_append, hdt]; simp]
                exact hy
              simp only [hnY]
              have hloop : BEReader.readListLoopF g (acc ++ [v₁]) (w₂ ++ X) =
                  .ok r X := by rw [← hr₁]; exact h
              exact (ih g (by omega)).2.1 (acc ++ [v₁]) w₂ X r hloop Y
            | .ok none rest₁ => simp only [h₁] at h; exact absurd h (by simp)
            | .err e => simp only [h₁] at h; exact absurd h (by simp)
            | .panicked => simp only [h₁] at h; exact absurd h (by simp)
            | .outOfFuel => simp only [h₁] at h; exact absurd h (by simp)
    · intro last acc t X r h Y
      cases f with
      | zero => rw [BEReader.readDictLoopF] at h; exact absurd h (by simp)
      | succ g =>
        have ht : t ≠ [] := by
          obtain ⟨t₀, hsp, hne⟩ :=
            (nextValue_split (g + 1)).2.2 last acc (t ++ X) r X h
          rw [append_cancel_of_eq t t₀ X hsp]
          exact hne
        cases t with
        | nil => exact absurd rfl ht
        | cons d t' =>
          rw [List.cons_append] at h
          rw [List.cons_append, BEReader.readDictLoopF]
          rw [BEReader.readDictLoopF] at h
          simp only [List.head?_cons] at h ⊢
          by_cases he : d = 101
          · rw [if_pos he] at h
            rw [if_pos he]
            simp only [List.tail_cons, PResult.ok.injEq] at h ⊢
            have ht' : t' = [] := by
              have := congrArg List.length h.2
              simp only [List.length_append] at this
              exact List.length_eq_zero.1 (by omega)
            subst ht'
            simp only [List.nil_append] at h ⊢
            exact ⟨h.1, trivial⟩
          · rw [if_neg he] at h
            rw [if_neg he]
            match h₁ : BEReader.nextValueF g (d :: (t' ++ X)) with
            | .ok (some (.BEString key)) s₁ =>
              simp only [h₁] at h
              match hh₂ : s₁.head? with
              | none => simp only [hh₂] at h; exact absurd h (by simp)
              | some ch₂ =>
                simp only [hh₂] at h
                by_cases he₂ : ch₂ = 101
                · rw [if_pos he₂] at h; exact absurd h (by simp)
                · rw [if_neg he₂] at h
                  match h₂ : BEReader.nextValueF g s₁ with
                  | .ok (some value) s₂ =>
                    simp only [h₂] at h
                    have hrec : BEReader.readDictLoopF g (some key)
                        (acc ++ [(key, value)]) s₂ = .ok r X := by
                      cases last with
                      | none => dsimp only at h; exact h
                      | some lk =>
                        dsimp only at h
                        by_cases hle : leB key lk = true
                        · rw [if_pos hle] at h; exact absurd h (by simp)
                        · rw [if_neg hle] at h; exact h
                    obtain ⟨w₃, hs₂, -⟩ := (nextValue_split g).2.2 (some key)
                      (acc ++ [(key, value)]) s₂ r X hrec
                    obtain ⟨wv, hs₁, hwv⟩ :=
                      (nextValue_split g).1 s₁ (some value) s₂ h₂
                    obtain ⟨wk, hwk, -⟩ := (nextValue_split g).1
                      (d :: (t' ++ X)) (some (.BEString key)) s₁ h₁
                    rw [hs₂] at hs₁ hrec h₂
                    rw [hs₁] at hwk h₁ hh₂ h₂
                    have hwvne : wv ≠ [] := hwv (by simp)
                    obtain ⟨wc, wv', rfl⟩ : ∃ wc wv', wv = wc :: wv' := by
                      match wv, hwvne with
                      | wc :: wv', _ => exact ⟨wc, wv', rfl⟩
                    have hdt : d :: t' = wk ++ (wc :: wv' ++ w₃) := by
                      apply append_cancel_of_eq _ _ X
                      rw [List.cons_append, hwk]
                      simp
                    have hkY : BEReader.nextValueF g (d :: (t' ++ Y)) =
                        .ok (some (.BEString key)) (wc :: wv' ++ (w₃ ++ Y)) := by
                      have hx : BEReader.nextValueF g
                          (wk ++ (wc :: wv' ++ (w₃ ++ X))) =
                          .ok (some (.BEString key))
                            (wc :: wv' ++ (w₃ ++ X)) := by
                        rw [show wk ++ (wc :: wv' ++ (w₃ ++ X)) =
                            d :: (t' ++ X) from
                          by rw [← List.cons_append, hdt]; simp]
                        rw [h₁]
                      have hy := (ih g (by omega)).1 wk (wc :: wv' ++ (w₃ ++ X))
                        (.BEString key) hx (wc :: wv' ++ (w₃ ++ Y))
                      rw [show d :: (t' ++ Y) = wk ++ (wc :: wv' ++ (w₃ ++ Y))
                          from by rw [← List.cons_append, hdt]; simp]
                      exact hy
                    simp only [hkY]
                    have hheadY : ((wc :: wv') ++ (w₃ ++ Y)).head? = some ch₂ := by
                      simp only [List.cons_append, List.head?_cons]
                      simp only [List.cons_append, List.head?_cons] at hh₂
                      exact hh₂
                    simp only [hheadY]
                    rw [if_neg he₂]
                    have hvY : BEReader.nextValueF g (wc :: wv' ++ (w₃ ++ Y)) =
                        .ok (some value) (w₃ ++ Y) :=
                      (ih g (by omega)).1 (wc :: wv') (w₃ ++ X) value h₂
                        (w₃ ++ Y)
                    simp only [hvY]
                    have hloopY := (ih g (by omega)).2.2 (some key)
                      (acc ++ [(key, value)]) w₃ X r hrec Y
                    cases last with
                    | none => dsimp only; exact hloopY
                    | some lk =>
                      dsimp only
                      dsimp only at h
                      by_cases hle : leB key lk = true
                      · rw [if_pos hle] at h
                        exact absurd h (by simp)
                      · rw [if_neg hle]
                        exact hloopY
                  | .ok none s₂ => simp only [h₂] at h; exact absurd h (by simp)
                  | .err e => simp only [h₂] at h; exact absurd h (by simp)
                  | .panicked => simp only [h₂] at h; exact absurd h (by simp)
                  | .outOfFuel => simp only [h₂] at h; exact absurd h (by simp)
            | .ok (some (.BEInteger i)) s₁ =>
              simp only [h₁] at h; exact absurd h (by simp)
            | .ok (some (.BEList l)) s₁ =>
              simp only [h₁] at h; exact absurd h (by simp)
            | .ok (some (.BEDict dd)) s₁ =>
              simp only [h₁] at h; exact absurd h (by simp)
            | .ok none s₁ => simp only [h₁] at h; exact absurd h (by simp)
            | .err e => simp only [h₁] at h; exact absurd h (by simp)
            | .panicked => simp only [h₁] at h; exact absurd h (by simp)
            | .outOfFuel => simp only [h₁] at h; exact absurd h (by simp)

/-! ### Truncation: cutting the input inside a value yields `EOFError` -/

theorem strLoop_eof : ∀ (s : Bytes) (togo idx : Nat) (acc : Bytes),
    s.length < togo → idx + s.length ≤ 100000 →
    BEReader.strLoop togo idx acc s = .err .EOFError := by
  intro s
  induction s with
  | nil =>
    intro togo idx acc hlt _
    obtain ⟨n, rfl⟩ : ∃ n, togo = n + 1 := ⟨togo - 1, by omega⟩
    rw [BEReader.strLoop]
  | cons ch s' ih =>
    intro togo idx acc hlt hb
    obtain ⟨n, rfl⟩ : ∃ n, togo = n + 1 := ⟨togo - 1, by omega⟩
    rw [BEReader.strLoop]
    rw [if_neg (by simp only [List.length_cons] at hb; omega : ¬100000 ≤ idx)]
    exact ih n (idx + 1) (acc ++ [ch])
      (by simp only [List.length_cons] at hlt; omega)
      (by simp only [List.length_cons] at hb; omega)

theorem rawIntLoop_trunc : ∀ (t : Bytes) (idx : Nat) (lz : Bool)
    (buf buf' : Bytes) (c : Nat) (X : Bytes),
    BEReader.rawIntLoop idx lz buf (t ++ c :: X) = .ok buf' (c :: X) →
    ∀ p m, t = p ++ m → BEReader.rawIntLoop idx lz buf p = .err .EOFError := by
  intro t
  induction t with
  | nil =>
    intro idx lz buf buf' c X h p m hpm
    have hp : p = [] := by
      have := congrArg List.length hpm
      simp only [List.length_nil, List.length_append] at this
      exact List.length_eq_zero.1 (by omega)
    subst hp
    rw [BEReader.rawIntLoop]
  | cons d t' ih =>
    intro idx lz buf buf' c X h p m hpm
    rw [List.cons_append, BEReader.rawIntLoop] at h
    by_cases hd : isDigitByte d = true
    · rw [if_pos hd] at h
      by_cases hlz : (idx > 0 && lz) = true
      · rw [if_pos hlz] at h; exact absurd h (by simp)
      · rw [if_neg hlz] at h
        by_cases hix : 100 ≤ idx
        · rw [if_pos hix] at h; exact absurd h (by simp)
        · rw [if_neg hix] at h
          cases p with
          | nil => rw [BEReader.rawIntLoop]
          | cons q p' =>
            rw [List.cons_append] at hpm
            simp only [List.cons.injEq] at hpm
            obtain ⟨rfl, ht'⟩ := hpm
            rw [BEReader.rawIntLoop, if_pos hd, if_neg hlz, if_neg hix]
            exact ih _ _ _ _ _ _ h p' m ht'
    · rw [if_neg hd] at h
      simp only [PResult.ok.injEq] at h
      have := congrArg List.length h.2
      simp only [List.length_cons, List.length_append] at this
      omega

theorem read_raw_integer_nil : BEReader.read_raw_integer [] = .err .EOFError :=
  rfl

theorem read_raw_integer_trunc (t : Bytes) (c : Nat) (X : Bytes) (v : Int)
    (h : BEReader.read_raw_integer (t ++ c :: X) = .ok v (c :: X))
    (p m : Bytes) (hpm : t = p ++ m) :
    BEReader.read_raw_integer p = .err .EOFError := by
  cases t with
  | nil =>
    have hp : p = [] := by
      have := congrArg List.length hpm
      simp only [List.length_nil, List.length_append] at this
      exact List.length_eq_zero.1 (by omega)
    subst hp
    exact read_raw_integer_nil
  | cons d t' =>
    cases p with
    | nil => exact read_raw_integer_nil
    | cons q p' =>
      rw [List.cons_append] at hpm
      simp only [List.cons.injEq] at hpm
      obtain ⟨rfl, ht'⟩ := hpm
      rw [List.cons_append] at h
      rw [BEReader.read_raw_integer] at h
      rw [BEReader.read_raw_integer]
      by_cases hd45 : d = 45
      · subst hd45
        have h45x :
            decide ((45 :: (t' ++ c :: X)).head? = some 45) = true := by simp
        have h45p : decide ((45 :: p').head? = some 45) = true := by simp
        simp only [h45x, Bool.and_true, List.tail_cons, if_true] at h
        simp only [h45p, Bool.and_true, List.tail_cons, if_true]
        match h₁ : BEReader.rawIntLoop 0 false [] (t' ++ c :: X) with
        | .ok buf rest' =>
          simp only [h₁] at h
          by_cases h0 : buf.length = 0
          · rw [if_pos h0] at h; exact absurd h (by simp)
          · rw [if_neg h0] at h
            by_cases hov : i64Max < natOfDigits buf
            · rw [if_pos hov] at h; exact absurd h (by simp)
            · rw [if_neg hov] at h
              by_cases hz : decide (natOfDigits buf = 0) = true
              · rw [if_pos hz] at h; exact absurd h (by simp)
              · rw [if_neg hz] at h
                simp only [PResult.ok.injEq] at h
                rw [h.2] at h₁
                simp only [rawIntLoop_trunc t' 0 false [] buf c X h₁ p' m ht']
        | .err e => simp only [h₁] at h; exact absurd h (by simp)
        | .panicked => simp only [h₁] at h; exact absurd h (by simp)
        | .outOfFuel => simp only [h₁] at h; exact absurd h (by simp)
      · have h45x :
            decide ((d :: (t' ++ c :: X)).head? = some 45) = false := by
          simp [hd45]
        have h45p : decide ((d :: p').head? = some 45) = false := by
          simp [hd45]
        simp only [h45x, Bool.and_false, Bool.false_eq_true, if_false] at h
        simp only [h45p, Bool.and_false, Bool.false_eq_true, if_false]
        match h₁ : BEReader.rawIntLoop 0 false [] (d :: (t' ++ c :: X)) with
        | .ok buf rest' =>
          simp only [h₁] at h
          by_cases h0 : buf.length = 0
          · rw [if_pos h0] at h; exact absurd h (by simp)
          · rw [if_neg h0] at h
            by_cases hov : i64Max < natOfDigits buf
            · rw [if_pos hov] at h; exact absurd h (by simp)
            · rw [if_neg hov] at h
              simp only [PResult.ok.injEq] at h
              rw [h.2] at h₁
              have h₁' : BEReader.rawIntLoop 0 false [] ((d :: t') ++ c :: X) =
                  .ok buf (c :: X) := by rw [List.cons_append]; exact h₁
              simp only [rawIntLoop_trunc (d :: t') 0 false [] buf c X h₁'
                (d :: p') m (by rw [ht']; rfl)]
        | .err e => simp only [h₁] at h; exact absurd h (by simp)
        | .panicked => simp only [h₁] at h; exact absurd h (by simp)
        | .outOfFuel => simp only [h₁] at h; exact absurd h (by simp)

theorem read_string_inv (t X : Bytes) (v : BEValue)
    (h : BEReader.read_string (t ++ X) = .ok v X) :
    ∃ (len : Int) (t₁ t₃ buf : Bytes), t = t₁ ++ 58 :: t₃ ∧
      v = .BEString buf ∧ ¬len < 0 ∧ t₃.length = len.toNat ∧
      BEReader.read_raw_integer (t₁ ++ 58 :: (t₃ ++ X)) =
        .ok len (58 :: (t₃ ++ X)) ∧
      BEReader.strLoop len.toNat 0 [] (t₃ ++ X) = .ok buf X := by
  rw [BEReader.read_string] at h
  match h₁ : BEReader.read_raw_integer (t ++ X) with
  | .ok len s₁ =>
    simp only [h₁] at h
    by_cases hneg : len < 0
    · rw [if_pos hneg] at h; exact absurd h (by simp)
    · rw [if_neg hneg] at h
      match h₂ : BEReader.checkNextChar 58 .MissingSeparatorError s₁ with
      | .ok u s₂ =>
        simp only [h₂] at h
        match h₃ : BEReader.strLoop len.toNat 0 [] s₂ with
        | .ok buf s₃ =>
          simp only [h₃] at h
          simp only [PResult.ok.injEq] at h
          have hs₁ : s₁ = 58 :: s₂ := checkNextChar_ok 58 _ s₁ s₂ _ h₂
          obtain ⟨t₃, hs₂, hlen₃⟩ := strLoop_split len.toNat 0 [] s₂ buf s₃ h₃
          rw [h.2] at hs₂
          obtain ⟨t₁, c, r', hsp, hrest, -⟩ :=
            read_raw_integer_split (t ++ X) len s₁ h₁
          have ht : t = t₁ ++ 58 :: t₃ := by
            have heq : t ++ X = (t₁ ++ 58 :: t₃) ++ X := by
              rw [hsp, hs₁, hs₂]; simp
            have hl : t.length = (t₁ ++ 58 :: t₃).length := by
              have := congrArg List.length heq
              simp only [List.length_append, List.length_cons] at this
              simp only [List.length_append, List.length_cons]
              omega
            exact (List.append_inj heq hl).1
          refine ⟨len, t₁, t₃, buf, ht, h.1.symm, hneg, hlen₃, ?_, ?_⟩
          · rw [show t₁ ++ 58 :: (t₃ ++ X) = t ++ X from by rw [ht]; simp,
              show (58 : Nat) :: (t₃ ++ X) = s₁ from by rw [hs₁, hs₂], h₁]
          · rw [← hs₂, h₃, h.2]
        | .err e => simp only [h₃] at h; exact absurd h (by simp)
        | .panicked => simp only [h₃] at h; exact absurd h (by simp)
        | .outOfFuel => simp only [h₃] at h; exact absurd h (by simp)
      | .err e => simp only [h₂] at h; exact absurd h (by simp)
      | .panicked => simp only [h₂] at h; exact absurd h (by simp)
      | .outOfFuel => simp only [h₂] at h; exact absurd h (by simp)
  | .err e => simp only [h₁] at h; exact absurd h (by simp)
  | .panicked => simp only [h₁] at h; exact absurd h (by simp)
  | .outOfFuel => simp only [h₁] at h; exact absurd h (by simp)

theorem read_integer_inv (t X : Bytes) (v : BEValue)
    (h : BEReader.read_integer (t ++ X) = .ok v X) :
    ∃ (val : Int) (t₂ : Bytes), t = 105 :: (t₂ ++ [101]) ∧
      v = .BEInteger val ∧
      BEReader.read_raw_integer (t₂ ++ 101 :: X) = .ok val (101 :: X) := by
  rw [BEReader.read_integer] at h
  match h₁ : BEReader.checkNextChar 105 .MissingPrefixError (t ++ X) with
  | .ok u s₁ =>
    simp only [h₁] at h
    match h₂ : BEReader.read_raw_integer s₁ with
    | .ok val s₂ =>
      simp only [h₂] at h
      match h₃ : BEReader.checkNextChar 101 .MissingSuffixError s₂ with
      | .ok u₂ s₃ =>
        simp only [h₃] at h
        simp only [PResult.ok.injEq] at h
        have hs : t ++ X = 105 :: s₁ := checkNextChar_ok 105 _ _ s₁ _ h₁
        have hs₂ : s₂ = 101 :: s₃ := checkNextChar_ok 101 _ s₂ s₃ _ h₃
        obtain ⟨t₂, c, r', hsp, hrest, -⟩ := read_raw_integer_split s₁ val s₂ h₂
        have ht : t = 105 :: (t₂ ++ [101]) := by
          have heq : t ++ X = (105 :: (t₂ ++ [101])) ++ X := by
            rw [hs, hsp, hs₂, h.2]; simp
          have hl : t.length = (105 :: (t₂ ++ [101])).length := by
            have := congrArg List.length heq
            simp only [List.length_append, List.length_cons,
              List.length_singleton] at this
            simp only [List.length_append, List.length_cons,
              List.length_singleton]
            omega
          exact (List.append_inj heq hl).1
        refine ⟨val, t₂, ht, h.1.symm, ?_⟩
        rw [show t₂ ++ 101 :: X = s₁ from ?_, h₂, hs₂, h.2]
        have hx : (105 : Nat) :: (t₂ ++ 101 :: X) = 105 :: s₁ := by
          rw [← hs, ht]; simp
        simpa using hx
      | .err e => simp only [h₃] at h; exact absurd h (by simp)
      | .panicked => simp only [h₃] at h; exact absurd h (by simp)
      | .outOfFuel => simp only [h₃] at h; exact absurd h (by simp)
    | .err e => simp only [h₂] at h; exact absurd h (by simp)
    | .panicked => simp only [h₂] at h; exact absurd h (by simp)
    | .outOfFuel => simp only [h₂] at h; exact absurd h (by simp)
  | .err e => simp only [h₁] at h; exact absurd h (by simp)
  | .panicked => simp only [h₁] at h; exact absurd h (by simp)
  | .outOfFuel => simp only [h₁] at h; exact absurd h (by simp)

theorem read_string_trunc (t X : Bytes) (v : BEValue)
    (h : BEReader.read_string (t ++ X) = .ok v X)
    (p m : Bytes) (hpm : t = p ++ m) (hm : m ≠ []) :
    BEReader.read_string p = .err .EOFError := by
  obtain ⟨len, t₁, t₃, buf, ht, -, hneg, hlen₃, hraw, hstr⟩ :=
    read_string_inv t X v h
  have heq : p ++ m = t₁ ++ (58 :: t₃) := by rw [← hpm, ht]
  rcases Nat.le_total (58 :: t₃).length m.length with hc | hc
  · obtain ⟨m₁, ht₁, hm₁⟩ := append_split t₁ (58 :: t₃) p m heq.symm hc
    have hEOF := read_raw_integer_trunc t₁ 58 (t₃ ++ X) len hraw p m₁ ht₁
    rw [BEReader.read_string]
    simp only [hEOF]
  · obtain ⟨mm, hp, hmm⟩ := append_split p m t₁ (58 :: t₃) heq hc
    cases mm with
    | nil =>
      have hEOF := read_raw_integer_trunc t₁ 58 (t₃ ++ X) len hraw t₁ []
        (by simp)
      rw [hp, List.append_nil, BEReader.read_string]
      simp only [hEOF]
    | cons mc mm' =>
      rw [List.cons_append] at hmm
      simp only [List.cons.injEq] at hmm
      obtain ⟨rfl, ht₃⟩ := hmm
      have hm1 : 1 ≤ m.length := by
        cases m with
        | nil => exact absurd rfl hm
        | cons a b => simp
      have hlt : mm'.length < len.toNat := by
        have := congrArg List.length ht₃
        simp only [List.length_append] at this
        omega
      have hbound : 0 + len.toNat ≤ 100000 :=
        (strLoop_ok_inv len.toNat 0 [] (t₃ ++ X) buf X hstr).2 (by omega)
      have hrawp := read_raw_integer_ext t₁ 58 (t₃ ++ X) len hraw mm'
      have hsl := strLoop_eof mm' len.toNat 0 [] hlt (by omega)
      rw [hp, BEReader.read_string]
      simp only [hrawp]
      rw [if_neg hneg]
      rw [show BEReader.checkNextChar 58 .MissingSeparatorError
          (58 :: mm') = .ok () mm' from by rw [BEReader.checkNextChar]; simp]
      simp only [hsl]

theorem read_integer_trunc (t X : Bytes) (v : BEValue)
    (h : BEReader.read_integer (t ++ X) = .ok v X)
    (p m : Bytes) (hpm : t = p ++ m) (hm : m ≠ []) :
    BEReader.read_integer p = .err .EOFError := by
  obtain ⟨val, t₂, ht, -, hraw⟩ := read_integer_inv t X v h
  cases p with
  | nil =>
    rw [BEReader.read_integer]
    rfl
  | cons q p' =>
    rw [ht, List.cons_append] at hpm
    simp only [List.cons.injEq] at hpm
    obtain ⟨rfl, ht₂⟩ := hpm
    have hm1 : 1 ≤ m.length := by
      cases m with
      | nil => exact absurd rfl hm
      | cons a b => simp
    obtain ⟨mm, hp', hmm⟩ := append_split t₂ [101] p' m ht₂
      (by simpa using hm1)
    have hEOF := read_raw_integer_trunc t₂ 101 X val hraw p' mm hp'
    rw [BEReader.read_integer]
    rw [show BEReader.checkNextChar 105 .MissingPrefixError
        (105 :: p') = .ok () p' from by rw [BEReader.checkNextChar]; simp]
    simp only [hEOF]

/-- Truncating the input strictly inside the consumed region of a successful
value parse makes the parse fail with `EOFError` (or run out of fuel). -/
theorem nextValue_trunc : ∀ f : Nat,
    (∀ t X v p m, BEReader.nextValueF f (t ++ X) = .ok (some v) X →
       t = p ++ m → m ≠ [] → p ≠ [] →
       BEReader.nextValueF f p = .err .EOFError ∨
         BEReader.nextValueF f p = .outOfFuel) ∧
    (∀ acc t X r p m, BEReader.readListLoopF f acc (t ++ X) = .ok r X →
       t = p ++ m → m ≠ [] →
       BEReader.readListLoopF f acc p = .err .EOFError ∨
         BEReader.readListLoopF f acc p = .outOfFuel) ∧
    (∀ last acc t X r p m,
       BEReader.readDictLoopF f last acc (t ++ X) = .ok r X →
       t = p ++ m → m ≠ [] →
       BEReader.readDictLoopF f last acc p = .err .EOFError ∨
         BEReader.readDictLoopF f last acc p = .outOfFuel) := by
  intro f
  induction f using Nat.strong_induction_on with
  | _ f ih =>
    refine ⟨?_, ?_, ?_⟩
    · intro t X v p m h hpm hm hp
      subst hpm
      cases f with
      | zero => rw [BEReader.nextValueF] at h; exact absurd h (by simp)
      | succ g =>
        cases p with
        | nil => exact absurd rfl hp
        | cons d p' =>
          simp only [List.cons_append, List.append_assoc] at h
          rw [BEReader.nextValueF] at h
          rw [BEReader.nextValueF]
          simp only [List.head?_cons] at h ⊢
          by_cases hd : isDigitByte d = true
          · rw [if_pos hd] at h
            rw [if_pos hd]
            match h₁ : BEReader.read_string (d :: (p' ++ (m ++ X))) with
            | .ok v₀ rest₀ =>
              simp only [h₁] at h
              simp only [PResult.ok.injEq, Option.some.injEq] at h
              have h₁' : BEReader.read_string ((d :: (p' ++ m)) ++ X) =
                  .ok v₀ X := by
                rw [List.cons_append, List.append_assoc, h₁, h.2]
              have hEOF := read_string_trunc (d :: (p' ++ m)) X v₀ h₁'
                (d :: p') m (by rw [List.cons_append]) hm
              left
              simp only [hEOF]
            | .err e => simp only [h₁] at h; exact absurd h (by simp)
            | .panicked => simp only [h₁] at h; exact absurd h (by simp)
            | .outOfFuel => simp only [h₁] at h; exact absurd h (by simp)
          · rw [if_neg hd] at h
            rw [if_neg hd]
            by_cases hi : d = 105
            · rw [if_pos hi] at h
              rw [if_pos hi]
              match h₁ : BEReader.read_integer (d :: (p' ++ (m ++ X))) with
              | .ok v₀ rest₀ =>
                simp only [h₁] at h
                simp only [PResult.ok.injEq, Option.some.injEq] at h
                have h₁' : BEReader.read_integer ((d :: (p' ++ m)) ++ X) =
                    .ok v₀ X := by
                  rw [List.cons_append, List.append_assoc, h₁, h.2]
                have hEOF := read_integer_trunc (d :: (p' ++ m)) X v₀ h₁'
                  (d :: p') m (by rw [List.cons_append]) hm
                left
                simp only [hEOF]
              | .err e => simp only [h₁] at h; exact absurd h (by simp)
              | .panicked => simp only [h₁] at h; exact absurd h (by simp)
              | .outOfFuel => simp only [h₁] at h; exact absurd h (by simp)
            · rw [if_neg hi] at h
              rw [if_neg hi]
              by_cases hl : d = 108
              · rw [if_pos hl] at h
                rw [if_pos hl]
                subst hl
                cases g with
                | zero =>
                  rw [BEReader.readListF] at h
                  exact absurd h (by simp)
                | succ g' =>
                  rw [BEReader.readListF] at h
                  rw [show BEReader.checkNextChar 108 .MissingPrefixError
                      (108 :: (p' ++ (m ++ X))) = .ok () (p' ++ (m ++ X))
                      from by rw [BEReader.checkNextChar]; simp] at h
                  dsimp only at h
                  match h₁ : BEReader.readListLoopF g' [] (p' ++ (m ++ X)) with
                  | .ok r₀ rest₀ =>
                    simp only [h₁] at h
                    simp only [PResult.ok.injEq, Option.some.injEq] at h
                    have h₁' : BEReader.readListLoopF g' []
                        ((p' ++ m) ++ X) = .ok r₀ X := by
                      rw [List.append_assoc, h₁, h.2]
                    have hIH := (ih g' (by omega)).2.1 [] (p' ++ m) X r₀
                      p' m h₁' rfl hm
                    have hcc : BEReader.checkNextChar 108 .MissingPrefixError
                        (108 :: p') = .ok () p' := by
                      rw [BEReader.checkNextChar]; simp
                    rcases hIH with hE | hO
                    · left; simp only [BEReader.readListF, hcc, hE]
                    · right; simp only [BEReader.readListF, hcc, hO]
                  | .err e => simp only [h₁] at h; exact absurd h (by simp)
                  | .panicked => simp only [h₁] at h; exact absurd h (by simp)
                  | .outOfFuel => simp only [h₁] at h; exact absurd h (by simp)
              · rw [if_neg hl] at h
                rw [if_neg hl]
                by_cases hdd : d = 100
                · rw [if_pos hdd] at h
                  rw [if_pos hdd]
                  subst hdd
                  cases g with
                  | zero =>
                    rw [BEReader.readDictF] at h
                    exact absurd h (by simp)
                  | succ g' =>
                    rw [BEReader.readDictF] at h
                    rw [show BEReader.checkNextChar 100 .MissingPrefixError
                        (100 :: (p' ++ (m ++ X))) = .ok () (p' ++ (m ++ X))
                        from by rw [BEReader.checkNextChar]; simp] at h
                    dsimp only at h
                    match h₁ : BEReader.readDictLoopF g' none []
                        (p' ++ (m ++ X)) with
                    | .ok r₀ rest₀ =>
                      simp only [h₁] at h
                      simp only [PResult.ok.injEq, Option.some.injEq] at h
                      have h₁' : BEReader.readDictLoopF g' none []
                          ((p' ++ m) ++ X) = .ok r₀ X := by
                        rw [List.append_assoc, h₁, h.2]
                      have hIH := (ih g' (by omega)).2.2 none [] (p' ++ m) X
                        r₀ p' m h₁' rfl hm
                      have hcc : BEReader.checkNextChar 100
                          .MissingPrefixError (100 :: p') = .ok () p' := by
                        rw [BEReader.checkNextChar]; simp
                      rcases hIH with hE | hO
                      · left; simp only [BEReader.readDictF, hcc, hE]
                      · right; simp only [BEReader.readDictF, hcc, hO]
                    | .err e => simp only [h₁] at h; exact absurd h (by simp)
                    | .panicked =>
                      simp only [h₁] at h; exact absurd h (by simp)
                    | .outOfFuel =>
                      simp only [h₁] at h; exact absurd h (by simp)
                · rw [if_neg hdd] at h
                  exact absurd h (by simp)
    · intro acc t X r p m h hpm hm
      subst hpm
      cases f with
      | zero => rw [BEReader.readListLoopF] at h; exact absurd h (by simp)
      | succ g =>
        cases p with
        | nil => left; rfl
        | cons d p' =>
          simp only [List.cons_append, List.append_assoc] at h
          rw [BEReader.readListLoopF] at h
          rw [BEReader.readListLoopF]
          simp only [List.head?_cons] at h ⊢
          by_cases he : d = 101
          · rw [if_pos he] at h
            simp only [List.tail_cons, PResult.ok.injEq] at h
            have := congrArg List.length h.2
            simp only [List.length_append] at this
            have hm0 : m.length = 0 := by omega
            exact absurd (List.length_eq_zero.1 hm0) hm
          · rw [if_neg he] at h
            rw [if_neg he]
            match h₁ : BEReader.nextValueF g (d :: (p' ++ (m ++ X))) with
            | .ok (some v₁) rest₁ =>
              simp only [h₁] at h
              obtain ⟨w₂, hr₁, -⟩ :=
                (nextValue_split g).2.1 (acc ++ [v₁]) rest₁ r X h
              obtain ⟨w, hw, -⟩ := (nextValue_split g).1 _ _ _ h₁
              rw [hr₁] at hw h₁ h
              have hdt : (d :: p') ++ m = w ++ w₂ := by
                apply append_cancel_of_eq _ _ X
                rw [List.cons_append, List.cons_append, List.append_assoc, hw]
                simp
              rcases Nat.lt_or_ge (d :: p').length w.length with hcmp | hcmp
              · have hlen : w₂.length ≤ m.length := by
                  have := congrArg List.length hdt
                  simp only [List.length_append] at this
                  omega
                obtain ⟨m₁, hw', hm₁⟩ := append_split w w₂ (d :: p') m
                  hdt.symm hlen
                have hm₁ne : m₁ ≠ [] := by
                  intro hcon
                  rw [hcon, List.append_nil] at hw'
                  rw [hw'] at hcmp
                  omega
                have h₁' : BEReader.nextValueF g (w ++ (w₂ ++ X)) =
                    .ok (some v₁) (w₂ ++ X) := by
                  rw [← hw]; exact h₁
                have hIH := (ih g (by omega)).1 w (w₂ ++ X) v₁ (d :: p') m₁
                  h₁' hw' hm₁ne (by simp)
                rcases hIH with hE | hO
                · left; simp only [hE]
                · right; simp only [hO]
              · have hlen : m.length ≤ w₂.length := by
                  have := congrArg List.length hdt
                  simp only [List.length_append, List.length_cons] at this
                  simp only [List.length_cons] at hcmp
                  omega
                obtain ⟨p₂, hp₂, hw₂⟩ := append_split (d :: p') m w w₂
                  hdt hlen
                have hnp : BEReader.nextValueF g (d :: p') =
                    .ok (some v₁) p₂ := by
                  have hx : BEReader.nextValueF g (w ++ (w₂ ++ X)) =
                      .ok (some v₁) (w₂ ++ X) := by
                    rw [← hw]; exact h₁
                  have := (nextValue_ext g).1 w (w₂ ++ X) v₁ hx p₂
                  rw [← hp₂] at this
                  exact this
                simp only [hnp]
                have hloop : BEReader.readListLoopF g (acc ++ [v₁])
                    ((p₂ ++ m) ++ X) = .ok r X := by
                  rw [← hw₂]; exact h
                exact (ih g (by omega)).2.1 (acc ++ [v₁]) (p₂ ++ m) X r
                  p₂ m hloop rfl hm
            | .ok none rest₁ => simp only [h₁] at h; exact absurd h (by simp)
            | .err e => simp only [h₁] at h; exact absurd h (by simp)
            | .panicked => simp only [h₁] at h; exact absurd h (by simp)
            | .outOfFuel => simp only [h₁] at h; exact absurd h (by simp)
    · intro last acc t X r p m h hpm hm
      subst hpm
      cases f with
      | zero => rw [BEReader.readDictLoopF] at h; exact absurd h (by simp)
      | succ g =>
        cases p with
        | nil => left; rfl
        | cons d p' =>
          simp only [List.cons_append, List.append_assoc] at h
          rw [BEReader.readDictLoopF] at h
          rw [BEReader.readDictLoopF]
          simp only [List.head?_cons] at h ⊢
          by_cases he : d = 101
          · rw [if_pos he] at h
            simp only [List.tail_cons, PResult.ok.injEq] at h
            have := congrArg List.length h.2
            simp only [List.length_append] at this
            have hm0 : m.length = 0 := by omega
            exact absurd (List.length_eq_zero.1 hm0) hm
          · rw [if_neg he] at h
            rw [if_neg he]
            match h₁ : BEReader.nextValueF g (d :: (p' ++ (m ++ X))) with
            | .ok (some (.BEString key)) s₁ =>
              simp only [h₁] at h
              match hh₂ : s₁.head? with
              | none => simp only [hh₂] at h; exact absurd h (by simp)
              | some ch₂ =>
                simp only [hh₂] at h
                by_cases he₂ : ch₂ = 101
                · rw [if_pos he₂] at h; exact absurd h (by simp)
                · rw [if_neg he₂] at h
                  match h₂ : BEReader.nextValueF g s₁ with
                  | .ok (some value) s₂ =>
                    simp only [h₂] at h
                    have hrec : BEReader.readDictLoopF g (some key)
                        (acc ++ [(key, value)]) s₂ = .ok r X := by
                      cases last with
                      | none => dsimp only at h; exact h
                      | some lk =>
                        dsimp only at h
                        by_cases hle : leB key lk = true
                        · rw [if_pos hle] at h; exact absurd h (by simp)
                        · rw [if_neg hle] at h; exact h
                    obtain ⟨w₃, hs₂, -⟩ := (nextValue_split g).2.2 (some key)
                      (acc ++ [(key, value)]) s₂ r X hrec
                    obtain ⟨wv, hs₁, hwv⟩ :=
                      (nextValue_split g).1 s₁ (some value) s₂ h₂
                    obtain ⟨wk, hwk, -⟩ := (nextValue_split g).1 _ _ _ h₁
                    rw [hs₂] at hs₁ hrec h₂
                    rw [hs₁] at hwk h₁ hh₂ h₂
                    have hwvne : wv ≠ [] := hwv (by simp)
                    obtain ⟨wc, wv', rfl⟩ : ∃ wc wv', wv = wc :: wv' := by
                      match wv, hwvne with
                      | wc :: wv', _ => exact ⟨wc, wv', rfl⟩
                    have hdt : (d :: p') ++ m = wk ++ (wc :: wv' ++ w₃) := by
                      apply append_cancel_of_eq _ _ X
                      rw [List.cons_append, List.cons_append,
                        List.append_assoc, hwk]
                      simp
                    rcases Nat.lt_or_ge (d :: p').length wk.length
                      with hcmp | hcmp
                    · have hlen : (wc :: wv' ++ w₃).length ≤ m.length := by
                        have := congrArg List.length hdt
                        simp only [List.length_append, List.length_cons]
                          at this ⊢
                        simp only [List.length_cons] at hcmp
                        omega
                      obtain ⟨m₁, hw', hm₁⟩ := append_split wk
                        (wc :: wv' ++ w₃) (d :: p') m hdt.symm hlen
                      have hm₁ne : m₁ ≠ [] := by
                        intro hcon
                        rw [hcon, List.append_nil] at hw'
                        rw [hw'] at hcmp
                        omega
                      have h₁' : BEReader.nextValueF g
                          (wk ++ (wc :: wv' ++ (w₃ ++ X))) =
                          .ok (some (.BEString key))
                            (wc :: wv' ++ (w₃ ++ X)) := by
                        rw [← hwk]; exact h₁
                      have hIH := (ih g (by omega)).1 wk
                        (wc :: wv' ++ (w₃ ++ X)) (.BEString key) (d :: p') m₁
                        h₁' hw' hm₁ne (by simp)
                      rcases hIH with hE | hO
                      · left; simp only [hE]
                      · right; simp only [hO]
                    · have hlen : m.length ≤ (wc :: wv' ++ w₃).length := by
                        have := congrArg List.length hdt
                        simp only [List.length_append, List.length_cons]
                          at this ⊢
                        simp only [List.length_cons] at hcmp
                        omega
                      obtain ⟨p₁, hp₁, hw₁⟩ := append_split (d :: p') m wk
                        (wc :: wv' ++ w₃) hdt hlen
                      have hkp : BEReader.nextValueF g (d :: p') =
                          .ok (some (.BEString key)) p₁ := by
                        have hx : BEReader.nextValueF g
                            (wk ++ (wc :: wv' ++ (w₃ ++ X))) =
                            .ok (some (.BEString key))
                              (wc :: wv' ++ (w₃ ++ X)) := by
                          rw [← hwk]; exact h₁
                        have := (nextValue_ext g).1 wk
                          (wc :: wv' ++ (w₃ ++ X)) (.BEString key) hx p₁
                        rw [← hp₁] at this
                        exact this
                      simp only [hkp]
                      cases p₁ with
                      | nil =>
                        left
                        rfl
                      | cons c₁ p₁' =>
                        simp only [List.cons_append, List.cons.injEq] at hw₁
                        simp only [List.cons_append, List.head?_cons,
                          Option.some.injEq] at hh₂
                        have hc₁ : c₁ = ch₂ := by rw [← hw₁.1]; exact hh₂
                        subst hc₁
                        simp only [List.head?_cons]
                        rw [if_neg he₂]
                        rcases Nat.lt_or_ge (c₁ :: p₁').length
                          (wc :: wv').length with hvc | hvc
                        · have hlen₂ : w₃.length ≤ m.length := by
                            have := congrArg List.length hw₁.2
                            simp only [List.length_append] at this
                            simp only [List.length_cons] at hvc
                            omega
                          have heq₂ : (c₁ :: p₁') ++ m =
                              (wc :: wv') ++ w₃ := by
                            rw [List.cons_append, List.cons_append, hw₁.1,
                              hw₁.2]
                          obtain ⟨m₂, hv', hm₂⟩ := append_split (wc :: wv')
                            w₃ (c₁ :: p₁') m heq₂.symm hlen₂
                          have hm₂ne : m₂ ≠ [] := by
                            intro hcon
                            rw [hcon, List.append_nil] at hv'
                            rw [← hv'] at hvc
                            omega
                          have hIH := (ih g (by omega)).1 (wc :: wv')
                            (w₃ ++ X) value (c₁ :: p₁') m₂ h₂ hv' hm₂ne
                            (by simp)
                          rcases hIH with hE | hO
                          · left; simp only [hE]
                          · right; simp only [hO]
                        · have hlen₂ : m.length ≤ w₃.length := by
                            have := congrArg List.length hw₁.2
                            simp only [List.length_append] at this
                            simp only [List.length_cons] at hvc
                            omega
                          have heq₂ : (c₁ :: p₁') ++ m =
                              (wc :: wv') ++ w₃ := by
                            rw [List.cons_append, List.cons_append, hw₁.1,
                              hw₁.2]
                          obtain ⟨p₂, hp₂, hw₃⟩ := append_split (c₁ :: p₁')
                            m (wc :: wv') w₃ heq₂ hlen₂
                          have hvp : BEReader.nextValueF g (c₁ :: p₁') =
                              .ok (some value) p₂ := by
                            have := (nextValue_ext g).1 (wc :: wv')
                              (w₃ ++ X) value h₂ p₂
                            rw [← hp₂] at this
                            exact this
                          simp only [hvp]
                          have hloop : BEReader.readDictLoopF g (some key)
                              (acc ++ [(key, value)]) ((p₂ ++ m) ++ X) =
                              .ok r X := by
                            rw [← hw₃]
                            exact hrec
                          have hIH := (ih g (by omega)).2.2 (some key)
                            (acc ++ [(key, value)]) (p₂ ++ m) X r p₂ m
                            hloop rfl hm
                          cases last with
                          | none => exact hIH
                          | some lk =>
                            dsimp only
                            dsimp only at h
                            by_cases hle : leB key lk = true
                            · rw [if_pos hle] at h
                              exact absurd h (by simp)
                            · rw [if_neg hle]
                              exact hIH
                  | .ok none s₂ => simp only [h₂] at h; exact absurd h (by simp)
                  | .err e => simp only [h₂] at h; exact absurd h (by simp)
                  | .panicked => simp only [h₂] at h; exact absurd h (by simp)
                  | .outOfFuel => simp only [h₂] at h; exact absurd h (by simp)
            | .ok (some (.BEInteger i)) s₁ =>
              simp only [h₁] at h; exact absurd h (by simp)
            | .ok (some (.BEList l)) s₁ =>
              simp only [h₁] at h; exact absurd h (by simp)
            | .ok (some (.BEDict dd)) s₁ =>
              simp only [h₁] at h; exact absurd h (by simp)
            | .ok none s₁ => simp only [h₁] at h; exact absurd h (by simp)
            | .err e => simp only [h₁] at h; exact absurd h (by simp)
            | .panicked => simp only [h₁] at h; exact absurd h (by simp)
            | .outOfFuel => simp only [h₁] at h; exact absurd h (by simp)

theorem nextValueF_ok_none (f : Nat) (s r : Bytes)
    (h : BEReader.nextValueF (f + 1) s = .ok none r) : s = [] ∧ r = [] := by
  rw [BEReader.nextValueF] at h
  match hh : s.head? with
  | none =>
    simp only [hh] at h
    simp only [PResult.ok.injEq] at h
    have hs : s = [] := by
      cases s with
      | nil => rfl
      | cons a b => simp at hh
    refine ⟨hs, ?_⟩
    rw [← h.2, hs]
  | some ch =>
    simp only [hh] at h
    by_cases hd : isDigitByte ch = true
    · rw [if_pos hd] at h
      match h₁ : BEReader.read_string s with
      | .ok v₀ r₀ => simp only [h₁] at h; exact absurd h (by simp)
      | .err e => simp only [h₁] at h; exact absurd h (by simp)
      | .panicked => simp only [h₁] at h; exact absurd h (by simp)
      | .outOfFuel => simp only [h₁] at h; exact absurd h (by simp)
    · rw [if_neg hd] at h
      by_cases hi : ch = 105
      · rw [if_pos hi] at h
        match h₁ : BEReader.read_integer s with
        | .ok v₀ r₀ => simp only [h₁] at h; exact absurd h (by simp)
        | .err e => simp only [h₁] at h; exact absurd h (by simp)
        | .panicked => simp only [h₁] at h; exact absurd h (by simp)
        | .outOfFuel => simp only [h₁] at h; exact absurd h (by simp)
      · rw [if_neg hi] at h
        by_cases hl : ch = 108
        · rw [if_pos hl] at h
          match h₁ : BEReader.readListF f s with
          | .ok v₀ r₀ => simp only [h₁] at h; exact absurd h (by simp)
          | .err e => simp only [h₁] at h; exact absurd h (by simp)
          | .panicked => simp only [h₁] at h; exact absurd h (by simp)
          | .outOfFuel => simp only [h₁] at h; exact absurd h (by simp)
        · rw [if_neg hl] at h
          by_cases hdd : ch = 100
          · rw [if_pos hdd] at h
            match h₁ : BEReader.readDictF f s with
            | .ok v₀ r₀ => simp only [h₁] at h; exact absurd h (by simp)
            | .err e => simp only [h₁] at h; exact absurd h (by simp)
            | .panicked => simp only [h₁] at h; exact absurd h (by simp)
            | .outOfFuel => simp only [h₁] at h; exact absurd h (by simp)
          · rw [if_neg hdd] at h
            exact absurd h (by simp)

/-- C5 (amended): `next_value` returns `ok none` exactly on the empty input;
truncating an input strictly inside a successfully parsed value (a prefix that
already begins a value) fails with `EOFError`; and a string literal shorter
than its declared length (length literal within `i64::MAX`, content within the
100000-byte buffer) fails with `EOFError`. -/
theorem c5_amended_mid_value_eof :
    (∀ s r : Bytes, BEReader.next_value s = .ok none r ↔ s = [] ∧ r = []) ∧
    (∀ (s ext : Bytes) (v : BEValue) (rest : Bytes),
       BEReader.next_value (s ++ ext) = .ok (some v) rest →
       rest.length < ext.length → s ≠ [] →
       BEReader.next_value s = .err .EOFError) ∧
    (∀ (len : Nat) (content : Bytes),
       content.length < len → content.length ≤ 100000 → len ≤ i64Max →
       BEReader.next_value (digitsOf len ++ 58 :: content) =
         .err .EOFError) := by
  refine ⟨?_, ?_, ?_⟩
  · intro s r
    constructor
    · intro h
      exact nextValueF_ok_none (3 * s.length) s r h
    · rintro ⟨rfl, rfl⟩
      rfl
  · intro s ext v rest h hlt hs
    rw [BEReader.next_value] at h
    obtain ⟨t, hsp, -⟩ := (nextValue_split (3 * (s ++ ext).length + 1)).1
      (s ++ ext) (some v) rest h
    obtain ⟨mm, hts, hext⟩ := append_split t rest s ext hsp.symm
      (le_of_lt hlt)
    have hmne : mm ≠ [] := by
      intro hcon
      rw [hcon, List.nil_append] at hext
      rw [hext] at hlt
      exact lt_irrefl _ hlt
    have h' : BEReader.nextValueF (3 * (s ++ ext).length + 1) (t ++ rest) =
        .ok (some v) rest := by rw [← hsp]; exact h
    have hdisj := (nextValue_trunc (3 * (s ++ ext).length + 1)).1 t rest v
      s mm h' hts hmne hs
    have hF : 3 * s.length + 1 ≤ 3 * (s ++ ext).length + 1 := by
      simp only [List.length_append]
      omega
    rcases hdisj with hE | hO
    · rw [BEReader.next_value]
      have hmono := nextValue_mono_le (3 * s.length + 1)
        (3 * (s ++ ext).length + 1) hF s
        ((nextValueF_fuel_sufficient (3 * s.length + 1)).1 s (le_refl _))
      rw [← hmono, hE]
    · exact absurd hO ((nextValueF_fuel_sufficient
        (3 * (s ++ ext).length + 1)).1 s hF)
  · intro len content hlt hcb hlen
    obtain ⟨d₀, ds', hds⟩ : ∃ d₀ ds', digitsOf len = d₀ :: ds' := by
      match hq : digitsOf len with
      | [] => exact absurd hq (digitsOf_ne_nil len)
      | d :: ds => exact ⟨d, ds, rfl⟩
    have hd₀ : isDigitByte d₀ = true :=
      digitsOf_digits len d₀ (by rw [hds]; simp)
    have hrs : BEReader.read_string (digitsOf len ++ 58 :: content) =
        .err .EOFError := by
      rw [BEReader.read_string]
      simp only [read_raw_integer_digitsOf len 58 content (by rfl) hlen]
      rw [if_neg (not_lt.2 (Int.natCast_nonneg len))]
      simp only [show BEReader.checkNextChar 58 .MissingSeparatorError
          (58 :: content) = .ok () content from by
        rw [BEReader.checkNextChar]; simp]
      have htn : ((len : Int)).toNat = len := by simp
      rw [htn]
      simp only [strLoop_eof content len 0 [] hlt (by omega)]
    rw [hds, List.cons_append] at hrs ⊢
    rw [BEReader.next_value, BEReader.nextValueF]
    simp only [List.head?_cons]
    rw [if_pos hd₀]
    simp only [hrs]

/-- C5 counterexample: the input `i03` ends mid-integer (no terminating `e`),
yet the parser fails with `LeadZeroError`, not with the claimed `EOFError` —
the lead-zero check fires on the second digit before the end of input is
reached. -/
theorem c5_counterexample :
    BEReader.next_value [105, 48, 51] = .err .LeadZeroError ∧
    BEReader.next_value [105, 48, 51] ≠ .err .EOFError := by
  refine ⟨rfl, ?_⟩
  rw [show BEReader.next_value [105, 48, 51] = .err .LeadZeroError from rfl]
  simp

theorem c5_amended_mid_value_eof_witness :
    BEReader.next_value ([105, 52, 50] ++ [101]) =
      .ok (some (.BEInteger 42)) [] ∧
    BEReader.next_value [105, 52, 50] = .err .EOFError ∧
    BEReader.next_value (digitsOf 5 ++ 58 :: [97, 98]) = .err .EOFError := by
  refine ⟨rfl, ?_, ?_⟩
  · exact c5_amended_mid_value_eof.2.1 [105, 52, 50] [101] (.BEInteger 42) []
      rfl (by decide) (by simp)
  · exact c5_amended_mid_value_eof.2.2 5 [97, 98] (by decide) (by decide)
      (by decide)
